import Mathlib

/-!
# Shallow embedding of `src/filesystem.cpp` (a versioned in-memory file store)

Conventions of the embedding.

* A C++ pointer (`TreeNode*`, `File*`) is a `Ptr`: `none` is `nullptr`, `some a` is the
  address `a`. Objects made by `new` live in an allocation-ordered list of cells; the cell
  of address `a` is entry `a` of that list, and `new` appends a cell. The `TreeNode` cells
  allocated on behalf of one `File` are kept with that `File` (field `nodes`); the `File`
  cells are kept in the `FileSystem` (field `fileObjs`).
* An operation returns `Option (FileSystem × Output)`. `none` stands for "no defined
  result": a null or dangling pointer is dereferenced, or a loop does not finish within
  the supplied fuel.
* `time(nullptr)` is an input: every call site of `time` takes its reading as an argument.
* `int` arithmetic is done in `Int`. The only arithmetic on stored integers is
  `total_versions++`, whose overflow would need `2^31` live nodes.
* `std::hash` is implementation-defined and is taken as the class `StdHash`.
-/

set_option autoImplicit false
set_option linter.unusedSectionVars false

namespace VersionControl

/-- The C type `time_t`. -/
abbrev time_t := Int

/-- A pointer: `none` is `nullptr`, `some a` is the address of cell `a`. -/
abbrev Ptr := Option Nat

/-! ## HashMap (separate chaining) -/

/-- The functor `std::hash<K>`; the value is the `size_t` it returns. -/
class StdHash (K : Type) where
  hash : K → Nat

/-- The `std::hash<int>` of libstdc++: the conversion of the `int` to `size_t`. The theorems
below hold for every `StdHash Int`; this one evaluates the examples. -/
instance : StdHash Int := ⟨fun k => (k % 2 ^ 64).toNat⟩

/-- A polynomial string hash standing for `std::hash<string>`. The theorems below hold for
every `StdHash String`; this one evaluates the examples. -/
instance : StdHash String :=
  ⟨fun s => s.data.foldl (fun h c => (h * 31 + c.toNat) % 2 ^ 64) 7⟩

/-- `HashMap::TABLE_SIZE`. -/
def TABLE_SIZE : Nat := 10007

/-- `HashMap<K, V>`: `table` is the vector of `TABLE_SIZE` buckets, given by bucket index. -/
structure HashMap (K V : Type) where
  table : Nat → List (K × V)

namespace HashMap

variable {K V : Type}

/-- `HashMap::HashMap()`: every bucket is empty. -/
def empty : HashMap K V := { table := fun _ => [] }

/-- `HashMap::hashFunction`. -/
def hashFunction [StdHash K] (key : K) : Nat := StdHash.hash key % TABLE_SIZE

/-- The loop of `HashMap::put` over one bucket: overwrite the first pair with this key,
otherwise `push_back`. -/
def bucketPut [DecidableEq K] (key : K) (value : V) : List (K × V) → List (K × V)
  | [] => [(key, value)]
  | p :: rest => if p.1 = key then (p.1, value) :: rest else p :: bucketPut key value rest

/-- The loop of `HashMap::get` over one bucket: the value of the first pair with this key. -/
def bucketGet [DecidableEq K] (key : K) : List (K × V) → Option V
  | [] => none
  | p :: rest => if p.1 = key then some p.2 else bucketGet key rest

/-- `HashMap::put`. -/
def put [StdHash K] [DecidableEq K] (m : HashMap K V) (key : K) (value : V) : HashMap K V :=
  let index := hashFunction key
  { table := fun i => if i = index then bucketPut key value (m.table index) else m.table i }

/-- `HashMap::get`: `none` is the `nullptr` result, `some v` a pointer to the stored `v`. -/
def get [StdHash K] [DecidableEq K] (m : HashMap K V) (key : K) : Option V :=
  bucketGet key (m.table (hashFunction key))

/-- `HashMap::contains`. -/
def contains [StdHash K] [DecidableEq K] (m : HashMap K V) (key : K) : Bool :=
  (m.get key).isSome

end HashMap

/-! ## Heap (binary max-heap over a vector, ordered by a comparison function) -/

/-- `Heap<T>`: the backing vector and the comparison function pointer. -/
structure Heap (T : Type) where
  heap : List T
  compare : T → T → Bool

namespace Heap

variable {T : Type}

/-- `std::swap(heap[i], heap[j])`. -/
def swapAt (l : List T) (i j : Nat) : List T :=
  match l[i]?, l[j]? with
  | some x, some y => (l.set i y).set j x
  | _, _ => l

/-- The call `compare(heap[i], heap[j])`. -/
def compareAt (compare : T → T → Bool) (l : List T) (i j : Nat) : Bool :=
  match l[i]?, l[j]? with
  | some x, some y => compare x y
  | _, _ => false

/-- The `while (index > 0)` loop of `Heap::heapifyUp`; one unit of fuel per iteration. -/
def heapifyUpLoop (compare : T → T → Bool) : Nat → List T → Nat → List T
  | 0, heap, _ => heap
  | fuel + 1, heap, index =>
    if index > 0 then
      let parent := (index - 1) / 2
      if compareAt compare heap index parent then
        heapifyUpLoop compare fuel (swapAt heap index parent) parent
      else heap
    else heap

/-- `Heap::heapifyUp`. The index strictly decreases in every iteration, so `index`
iterations are enough. -/
def heapifyUp (h : Heap T) (index : Nat) : Heap T :=
  { h with heap := heapifyUpLoop h.compare index h.heap index }

/-- The `while (true)` loop of `Heap::heapifyDown`; one unit of fuel per iteration. -/
def heapifyDownLoop (compare : T → T → Bool) : Nat → List T → Nat → List T
  | 0, heap, _ => heap
  | fuel + 1, heap, index =>
    let size := heap.length
    let left := 2 * index + 1
    let right := 2 * index + 2
    let largest := index
    let largest := if left < size && compareAt compare heap left largest then left else largest
    let largest :=
      if right < size && compareAt compare heap right largest then right else largest
    if largest ≠ index then heapifyDownLoop compare fuel (swapAt heap index largest) largest
    else heap

/-- `Heap::heapifyDown`. The index strictly increases in every iteration and stays below
the size, so `size` iterations are enough. -/
def heapifyDown (h : Heap T) (index : Nat) : Heap T :=
  { h with heap := heapifyDownLoop h.compare h.heap.length h.heap index }

/-- `Heap::Heap(comp)`. -/
def mk0 (comp : T → T → Bool) : Heap T := { heap := [], compare := comp }

/-- `Heap::push`. -/
def push (h : Heap T) (item : T) : Heap T :=
  let h1 := { h with heap := h.heap ++ [item] }
  h1.heapifyUp (h1.heap.length - 1)

/-- `Heap::pop`: `none` is the exception `runtime_error("Heap is empty")`. -/
def pop (h : Heap T) : Option (T × Heap T) :=
  match h.heap with
  | [] => none
  | root :: rest =>
    let back := (root :: rest).getLast (List.cons_ne_nil root rest)
    let h1 := { h with heap := ((root :: rest).set 0 back).dropLast }
    if h1.heap.isEmpty then some (root, h1) else some (root, h1.heapifyDown 0)

/-- `Heap::empty`. -/
def empty (h : Heap T) : Bool := h.heap.isEmpty

/-- `Heap::size`. -/
def size (h : Heap T) : Nat := h.heap.length

end Heap

/-! ## Tree nodes and files -/

/-- The struct `TreeNode`. -/
structure TreeNode where
  version_id : Int
  content : String
  message : String
  created_timestamp : time_t
  snapshot_timestamp : time_t
  parent : Ptr
  children : List Ptr

namespace TreeNode

/-- The constructor `TreeNode(id, cont, par)`; `now` is its reading of `time(nullptr)`. -/
def new (id : Int) (cont : String) (par : Ptr) (now : time_t) : TreeNode :=
  { version_id := id, content := cont, message := "", parent := par,
    created_timestamp := now, snapshot_timestamp := 0, children := [] }

/-- `TreeNode::isSnapshot`. -/
def isSnapshot (n : TreeNode) : Bool := n.snapshot_timestamp != 0

end TreeNode

/-- The struct `File`, together with the `TreeNode` cells allocated for it (`nodes`). -/
structure File where
  root : Ptr
  active_version : Ptr
  version_map : HashMap Int Ptr
  total_versions : Int
  last_modified : time_t
  nodes : List TreeNode

namespace File

/-- The constructor `File()`. -/
def new : File :=
  { root := none, active_version := none, version_map := HashMap.empty,
    total_versions := 0, last_modified := 0, nodes := [] }

/-- Dereference of a `TreeNode*` of this file: `none` for a null or dangling pointer. -/
def node (f : File) (p : Ptr) : Option TreeNode :=
  match p with
  | none => none
  | some a => f.nodes[a]?

/-- A store through a `TreeNode*` of this file. -/
def setNode (f : File) (a : Nat) (n : TreeNode) : File :=
  { f with nodes := f.nodes.set a n }

/-- The expression `new TreeNode(...)`: the fresh address and the file with the new cell. -/
def alloc (f : File) (n : TreeNode) : Nat × File :=
  (f.nodes.length, { f with nodes := f.nodes ++ [n] })

end File

/-! ## The file system -/

/-- `FileSystem::compareRecent`. -/
def compareRecent (a b : time_t × String) : Bool := decide (a.1 > b.1)

/-- `FileSystem::compareBiggest`. -/
def compareBiggest (a b : Int × String) : Bool := decide (a.1 > b.1)

/-- The class `FileSystem`, together with the `File` cells it allocated (`fileObjs`). -/
structure FileSystem where
  files : HashMap String Ptr
  recentFilesHeap : Heap (time_t × String)
  biggestTreesHeap : Heap (Int × String)
  fileObjs : List File

/-- The failure messages printed by the operations. -/
inductive Error where
  /-- "Error: File '...' already exists." -/
  | AlreadyExists
  /-- "Error: File '...' does not exist." -/
  | NotFound
  /-- "Error: No active version for file '...'." -/
  | NoActiveVersion
  /-- "Error: Current version is already a snapshot." -/
  | AlreadyFrozen
  /-- "Error: Cannot rollback - no parent version exists." -/
  | NoParent
  /-- "Error: Version ... does not exist." -/
  | VersionNotFound
  deriving DecidableEq, Repr

/-- What an operation writes to `cout`, before formatting. -/
inductive Output where
  /-- Nothing is printed. -/
  | silent
  /-- "File '...' created successfully." -/
  | created (filename : String)
  /-- The content printed by `readFile`. -/
  | content (text : String)
  /-- The lines of `showHistory`: version id, snapshot timestamp, message. -/
  | history (filename : String) (entries : List (Int × time_t × String))
  /-- The lines of `showRecentFiles`: file name, timestamp. -/
  | recent (entries : List (String × time_t))
  /-- The lines of `showBiggestTrees`: file name, version count. -/
  | biggest (entries : List (String × Int))
  /-- An error line. -/
  | error (e : Error)
  deriving DecidableEq, Repr

namespace FileSystem

variable [StdHash String] [StdHash Int]

/-- The constructor `FileSystem()`. -/
def init : FileSystem :=
  { files := HashMap.empty, recentFilesHeap := Heap.mk0 compareRecent,
    biggestTreesHeap := Heap.mk0 compareBiggest, fileObjs := [] }

/-- `FileSystem::updateAnalytics`. -/
def updateAnalytics (fs : FileSystem) (filename : String) (file : File) : FileSystem :=
  { fs with
    recentFilesHeap := fs.recentFilesHeap.push (file.last_modified, filename),
    biggestTreesHeap := fs.biggestTreesHeap.push (file.total_versions, filename) }

/-- A store through a `File*`. -/
def setFile (fs : FileSystem) (a : Nat) (file : File) : FileSystem :=
  { fs with fileObjs := fs.fileObjs.set a file }

/-- The result of the common prologue
`File** filePtr = files.get(filename); if (!filePtr || !*filePtr) ...`. -/
inductive Lookup where
  /-- The error branch is taken. -/
  | missing
  /-- `*filePtr` is a pointer that does not address a `File` cell. -/
  | dangling
  /-- `*filePtr` is the address `a`, which holds `file`. -/
  | found (a : Nat) (file : File)

/-- The common prologue of the operations on a named file. -/
def lookup (fs : FileSystem) (filename : String) : Lookup :=
  match fs.files.get filename with
  | none => .missing
  | some none => .missing
  | some (some a) =>
    match fs.fileObjs[a]? with
    | none => .dangling
    | some file => .found a file

/-- `FileSystem::createFile`; the three readings of `time(nullptr)` are those of the
`TreeNode` constructor, of `snapshot_timestamp` and of `last_modified`. -/
def createFile (fs : FileSystem) (filename : String) (tCreated tSnapshot tModified : time_t) :
    Option (FileSystem × Output) :=
  if fs.files.contains filename then some (fs, .error .AlreadyExists)
  else
    let (rootNode, newFile) := File.new.alloc (TreeNode.new 0 "" none tCreated)
    let newFile := newFile.setNode rootNode
      { TreeNode.new 0 "" none tCreated with
        snapshot_timestamp := tSnapshot, message := "Initial snapshot" }
    let newFile : File :=
      { newFile with
        root := some rootNode, active_version := some rootNode,
        version_map := newFile.version_map.put 0 (some rootNode),
        total_versions := 1, last_modified := tModified }
    let addr := fs.fileObjs.length
    let fs := { fs with fileObjs := fs.fileObjs ++ [newFile] }
    let fs := { fs with files := fs.files.put filename (some addr) }
    some (updateAnalytics fs filename newFile, .created filename)

/-- `FileSystem::readFile`. -/
def readFile (fs : FileSystem) (filename : String) : Option (FileSystem × Output) :=
  match fs.lookup filename with
  | .missing => some (fs, .error .NotFound)
  | .dangling => none
  | .found _ file =>
    match file.active_version with
    | none => some (fs, .error .NoActiveVersion)
    | some av =>
      match file.nodes[av]? with
      | none => none
      | some active => some (fs, .content active.content)

/-- The branch of `insertContent` and `updateContent` taken when the active version is a
snapshot: a new node with id `total_versions` and content `cont` becomes a child of the
active version and the new active version. -/
def newVersion (file : File) (av : Nat) (active : TreeNode) (cont : String)
    (tCreated : time_t) : File :=
  let (newNode, file) := file.alloc (TreeNode.new file.total_versions "" none tCreated)
  let node := { TreeNode.new file.total_versions "" none tCreated with
                content := cont, parent := some av }
  let file := file.setNode newNode node
  let file := file.setNode av { active with children := active.children ++ [some newNode] }
  let file := { file with active_version := some newNode }
  let file := { file with version_map := file.version_map.put node.version_id (some newNode) }
  { file with total_versions := file.total_versions + 1 }

/-- `FileSystem::insertContent`; `tCreated` is the reading of `time(nullptr)` in the
`TreeNode` constructor (used only when a node is created), `tModified` the one stored in
`last_modified`. -/
def insertContent (fs : FileSystem) (filename content : String) (tCreated tModified : time_t) :
    Option (FileSystem × Output) :=
  match fs.lookup filename with
  | .missing => some (fs, .error .NotFound)
  | .dangling => none
  | .found a file =>
    match file.active_version with
    | none => none
    | some av =>
      match file.nodes[av]? with
      | none => none
      | some active =>
        let file :=
          if active.isSnapshot then
            newVersion file av active (active.content ++ content) tCreated
          else
            file.setNode av { active with content := active.content ++ content }
        let file := { file with last_modified := tModified }
        some (updateAnalytics (fs.setFile a file) filename file, .silent)

/-- `FileSystem::updateContent`; the clock readings are as in `insertContent`. -/
def updateContent (fs : FileSystem) (filename content : String) (tCreated tModified : time_t) :
    Option (FileSystem × Output) :=
  match fs.lookup filename with
  | .missing => some (fs, .error .NotFound)
  | .dangling => none
  | .found a file =>
    match file.active_version with
    | none => none
    | some av =>
      match file.nodes[av]? with
      | none => none
      | some active =>
        let file :=
          if active.isSnapshot then
            newVersion file av active content tCreated
          else
            file.setNode av { active with content := content }
        let file := { file with last_modified := tModified }
        some (updateAnalytics (fs.setFile a file) filename file, .silent)

/-- `FileSystem::createSnapshot`; `tSnapshot` is the reading of `time(nullptr)` stored in
`snapshot_timestamp`, `tModified` the one stored in `last_modified`. -/
def createSnapshot (fs : FileSystem) (filename message : String) (tSnapshot tModified : time_t) :
    Option (FileSystem × Output) :=
  match fs.lookup filename with
  | .missing => some (fs, .error .NotFound)
  | .dangling => none
  | .found a file =>
    match file.active_version with
    | none => none
    | some av =>
      match file.nodes[av]? with
      | none => none
      | some active =>
        if active.isSnapshot then some (fs, .error .AlreadyFrozen)
        else
          let file := file.setNode av
            { active with snapshot_timestamp := tSnapshot, message := message }
          let file := { file with last_modified := tModified }
          some (updateAnalytics (fs.setFile a file) filename file, .silent)

/-- The common tail of `rollback`: `active_version` is repointed, `last_modified` is set
and the analytics are updated. -/
def rollbackTo (fs : FileSystem) (filename : String) (a : Nat) (file : File) (target : Nat)
    (tModified : time_t) : FileSystem × Output :=
  let file := { file with active_version := some target }
  let file := { file with last_modified := tModified }
  (updateAnalytics (fs.setFile a file) filename file, .silent)

/-- `FileSystem::rollback`; a call without a version id is a call with `versionId = -1`. -/
def rollback (fs : FileSystem) (filename : String) (versionId : Int) (tModified : time_t) :
    Option (FileSystem × Output) :=
  match fs.lookup filename with
  | .missing => some (fs, .error .NotFound)
  | .dangling => none
  | .found a file =>
    if versionId = -1 then
      match file.active_version with
      | none => none
      | some av =>
        match file.nodes[av]? with
        | none => none
        | some active =>
          match active.parent with
          | none => some (fs, .error .NoParent)
          | some parent => some (rollbackTo fs filename a file parent tModified)
    else
      match file.version_map.get versionId with
      | none => some (fs, .error .VersionNotFound)
      | some none => some (fs, .error .VersionNotFound)
      | some (some node) => some (rollbackTo fs filename a file node tModified)

/-- The loop `while (current)` of `showHistory`, one unit of fuel per iteration: the
addresses pushed on `path`, or `none` when a dangling pointer is met or the fuel ends. -/
def historyLoop (nodes : List TreeNode) : Nat → Ptr → List Nat → Option (List Nat)
  | _, none, path => some path
  | 0, some _, _ => none
  | fuel + 1, some a, path =>
    match nodes[a]? with
    | none => none
    | some current =>
      historyLoop nodes fuel current.parent (if current.isSnapshot then path ++ [a] else path)

/-- The printing loop of `showHistory` over `path`. -/
def historyLines (nodes : List TreeNode) : List Nat → Option (List (Int × time_t × String))
  | [] => some []
  | a :: rest =>
    match nodes[a]?, historyLines nodes rest with
    | some node, some lines => some ((node.version_id, node.snapshot_timestamp, node.message) :: lines)
    | _, _ => none

/-- `FileSystem::showHistory`, with the fuel of its parent walk. -/
def showHistory (fuel : Nat) (fs : FileSystem) (filename : String) :
    Option (FileSystem × Output) :=
  match fs.lookup filename with
  | .missing => some (fs, .error .NotFound)
  | .dangling => none
  | .found _ file =>
    match historyLoop file.nodes fuel file.active_version [] with
    | none => none
    | some path =>
      match historyLines file.nodes path.reverse with
      | none => none
      | some lines => some (fs, .history filename lines)

/-- The loop `while (!heap.empty()) tempHeap.push_back(heap.pop())`, one unit of fuel per
iteration: the popped items in order and the heap that is left. -/
def drain {T : Type} : Nat → Heap T → List T → List T × Heap T
  | 0, h, acc => (acc, h)
  | fuel + 1, h, acc =>
    if h.empty then (acc, h)
    else
      match h.pop with
      | none => (acc, h)
      | some (item, h1) => drain fuel h1 (acc ++ [item])

/-- The inner loop of the duplicate removal: the first entry with the name of `item` keeps
the larger of the two scores; without such an entry `item` is appended. -/
def mergeUnique (item : Int × String) : List (Int × String) → List (Int × String)
  | [] => [item]
  | u :: rest =>
    if u.2 = item.2 then (if u.1 < item.1 then (item.1, u.2) else u) :: rest
    else u :: mergeUnique item rest

/-- The outer loop of the duplicate removal over `tempHeap`. -/
def uniqueOf (tempHeap : List (Int × String)) : List (Int × String) :=
  tempHeap.foldl (fun uniqueFiles item => mergeUnique item uniqueFiles) []

/-- Insertion of one entry into a list sorted by descending score, after the entries with
an equal score. -/
def sortedInsert (x : Int × String) : List (Int × String) → List (Int × String)
  | [] => [x]
  | y :: rest => if x.1 > y.1 then x :: y :: rest else y :: sortedInsert x rest

/-- The call `sort(uniqueFiles.begin(), uniqueFiles.end(), a.first > b.first)`. The order
that `std::sort` gives to entries with equal scores is unspecified; this embedding keeps
them in their order of arrival (an insertion sort). -/
def sortDesc (l : List (Int × String)) : List (Int × String) :=
  l.foldl (fun sorted x => sortedInsert x sorted) []

/-- The display loop `for (item : uniqueFiles) { if (count >= num) break; ...; count++; }`. -/
def display (num : Int) : Int → List (Int × String) → List (String × Int)
  | _, [] => []
  | count, item :: rest =>
    if count ≥ num then [] else (item.2, item.1) :: display num (count + 1) rest

/-- The restore loop `for (item : tempHeap) heap.push(item)`. -/
def restore {T : Type} (h : Heap T) (tempHeap : List T) : Heap T :=
  tempHeap.foldl (fun h item => h.push item) h

/-- `FileSystem::showRecentFiles`. -/
def showRecentFiles (fs : FileSystem) (num : Int) : Option (FileSystem × Output) :=
  let (tempHeap, heap) := drain fs.recentFilesHeap.size fs.recentFilesHeap []
  let uniqueFiles := sortDesc (uniqueOf tempHeap)
  let fs := { fs with recentFilesHeap := restore heap tempHeap }
  some (fs, .recent (display num 0 uniqueFiles))

/-- `FileSystem::showBiggestTrees`. -/
def showBiggestTrees (fs : FileSystem) (num : Int) : Option (FileSystem × Output) :=
  let (tempHeap, heap) := drain fs.biggestTreesHeap.size fs.biggestTreesHeap []
  let uniqueFiles := sortDesc (uniqueOf tempHeap)
  let fs := { fs with biggestTreesHeap := restore heap tempHeap }
  some (fs, .biggest (display num 0 uniqueFiles))

end FileSystem

/-! ## Commands and reachable states -/

/-- One call of a public operation, with the clock readings it consumes and, for
`showHistory`, the fuel of its loop. -/
inductive Op where
  | createFile (filename : String) (tCreated tSnapshot tModified : time_t)
  | readFile (filename : String)
  | insertContent (filename content : String) (tCreated tModified : time_t)
  | updateContent (filename content : String) (tCreated tModified : time_t)
  | createSnapshot (filename message : String) (tSnapshot tModified : time_t)
  | rollback (filename : String) (versionId : Int) (tModified : time_t)
  | showHistory (fuel : Nat) (filename : String)
  | showRecentFiles (num : Int)
  | showBiggestTrees (num : Int)

/-- The effect of one call. -/
def step [StdHash String] [StdHash Int] (fs : FileSystem) : Op → Option (FileSystem × Output)
  | .createFile f t1 t2 t3 => fs.createFile f t1 t2 t3
  | .readFile f => fs.readFile f
  | .insertContent f c t1 t2 => fs.insertContent f c t1 t2
  | .updateContent f c t1 t2 => fs.updateContent f c t1 t2
  | .createSnapshot f m t1 t2 => fs.createSnapshot f m t1 t2
  | .rollback f v t => fs.rollback f v t
  | .showHistory fuel f => fs.showHistory fuel f
  | .showRecentFiles n => fs.showRecentFiles n
  | .showBiggestTrees n => fs.showBiggestTrees n

/-- The state after a sequence of calls, when every call has a defined result. -/
def run [StdHash String] [StdHash Int] (fs : FileSystem) : List Op → Option FileSystem
  | [] => some fs
  | op :: ops =>
    match step fs op with
    | none => none
    | some (fs1, _) => run fs1 ops

/-- The states reachable from the empty store by a sequence of calls. -/
inductive Reachable [StdHash String] [StdHash Int] : FileSystem → Prop where
  | init : Reachable FileSystem.init
  | step {fs fs1 : FileSystem} {out : Output} (op : Op) :
      Reachable fs → step fs op = some (fs1, out) → Reachable fs1

/-! ## Specification-side notions -/

namespace FileSystem

variable [StdHash String] [StdHash Int]

/-- The `File` object that `createFile` builds, written out. -/
def createdFile (tCreated tSnapshot tModified : time_t) : File :=
  { root := some 0, active_version := some 0,
    version_map := (HashMap.empty : HashMap Int Ptr).put 0 (some 0),
    total_versions := 1, last_modified := tModified,
    nodes := [{ TreeNode.new 0 "" none tCreated with
                snapshot_timestamp := tSnapshot, message := "Initial snapshot" }] }

/-- The `File` registered under a name, when the name is registered and its pointer
addresses a `File` cell. -/
def file? (fs : FileSystem) (filename : String) : Option File :=
  match fs.lookup filename with
  | .found _ file => some file
  | _ => none

end FileSystem

namespace File

/-- The active version of a file as a node. -/
def active? (f : File) : Option TreeNode := f.node f.active_version

/-- The pointer reached from `p` by following `k` parent links (`nullptr` when the walk
leaves the cells of the file). -/
def ancestorAt (f : File) : Nat → Ptr → Ptr
  | 0, p => p
  | k + 1, p =>
    match f.node p with
    | none => none
    | some n => ancestorAt f k n.parent

/-- Whether the cell at address `a` holds a frozen node. -/
def frozenAt (f : File) (a : Nat) : Bool :=
  match f.nodes[a]? with
  | some n => n.isSnapshot
  | none => false

/-- The cells met by following parent links from `p`, `p` first, at most `fuel` of them. -/
def parentWalk (f : File) : Nat → Ptr → List Nat
  | 0, _ => []
  | _ + 1, none => []
  | fuel + 1, some a =>
    match f.nodes[a]? with
    | none => []
    | some n => a :: parentWalk f fuel n.parent

/-- The cells met by following parent links from `p`; a file has no more cells on such a
walk than it has cells. -/
def walk (f : File) (p : Ptr) : List Nat := f.parentWalk f.nodes.length p

/-- The path from the active version up to the root, active version first. -/
def activePath (f : File) : List Nat := f.walk f.active_version

/-- The depth of a cell: the number of parent links between it and the end of its walk. -/
def depth (f : File) (a : Nat) : Nat := (f.walk (some a)).length - 1

/-- The history as the specification words it: the root-to-active path (the path from the
active version, reversed) filtered to the frozen nodes. -/
def shownCells (f : File) : List Nat := f.activePath.reverse.filter f.frozenAt

/-- The line of `showHistory` for the node in cell `a`. -/
def lineAt (f : File) (a : Nat) : Option (Int × time_t × String) :=
  match f.nodes[a]? with
  | some n => some (n.version_id, n.snapshot_timestamp, n.message)
  | none => none

/-- The lines of the history as the specification words it. -/
def historySpec (f : File) : List (Int × time_t × String) := f.shownCells.filterMap f.lineAt

end File

/-- The changes that one successful mutating call makes to the `File` object it works on:
a write (in place or by a new version), a snapshot of a mutable active version, a rollback
to the parent, a rollback to a registered id. -/
inductive FileStep [StdHash Int] : File → File → Prop where
  | write (F : File) (av : Nat) (active : TreeNode) (cNew cSame : String) (t1 t2 : time_t) :
      F.active_version = some av → F.nodes[av]? = some active →
      FileStep F
        { (if active.isSnapshot then FileSystem.newVersion F av active cNew t1
           else F.setNode av { active with content := cSame }) with last_modified := t2 }
  | snapshot (F : File) (av : Nat) (active : TreeNode) (m : String) (t1 t2 : time_t) :
      F.active_version = some av → F.nodes[av]? = some active →
      active.isSnapshot = false →
      FileStep F
        { F.setNode av { active with snapshot_timestamp := t1, message := m } with
          last_modified := t2 }
  | rollbackParent (F : File) (av : Nat) (active : TreeNode) (p : Nat) (t : time_t) :
      F.active_version = some av → F.nodes[av]? = some active → active.parent = some p →
      FileStep F { F with active_version := some p, last_modified := t }
  | rollbackId (F : File) (v : Int) (node : Nat) (t : time_t) :
      v ≠ -1 → F.version_map.get v = some (some node) →
      FileStep F { F with active_version := some node, last_modified := t }

/-! ## Specification-side notions for the heap -/

namespace Heap

variable {T : Type}

/-- The value of `largest` at the end of one iteration of `heapifyDown` at `index`: the
index, among `index` and its children inside the array, that the iteration selects. -/
def largestOf (compare : T → T → Bool) (heap : List T) (index : Nat) : Nat :=
  let size := heap.length
  let left := 2 * index + 1
  let right := 2 * index + 2
  let largest := index
  let largest := if left < size && compareAt compare heap left largest then left else largest
  if right < size && compareAt compare heap right largest then right else largest

/-- The score of the element at index `i` of a backing array (0 outside the array). -/
def scoreAt (score : T → Int) (l : List T) (i : Nat) : Int :=
  match l[i]? with
  | some x => score x
  | none => 0

/-- The max-heap property of a backing array: no element compares greater than its parent
at index `(i - 1) / 2`. -/
def IsMaxHeap (compare : T → T → Bool) (l : List T) : Prop :=
  ∀ i, 0 < i → i < l.length → compareAt compare l i ((i - 1) / 2) = false

/-- The heaps obtained from `Heap(comp)` by calls of `push` and of `pop`. -/
inductive Built (comp : T → T → Bool) : Heap T → Prop where
  | init : Built comp (mk0 comp)
  | push (h : Heap T) (item : T) : Built comp h → Built comp (h.push item)
  | pop (h h1 : Heap T) (item : T) : Built comp h → h.pop = some (item, h1) → Built comp h1

end Heap

/-! ## Specification-side notions for the top-K query -/

/-- The list `u` holds, once per key, the maximum score observed in `obs` for every key
that occurs in `obs`. -/
def MaxPerKey (obs u : List (Int × String)) : Prop :=
  (u.map Prod.snd).Nodup ∧
  (∀ e ∈ u, e ∈ obs ∧ ∀ x ∈ obs, x.2 = e.2 → x.1 ≤ e.1) ∧
  (∀ x ∈ obs, x.2 ∈ u.map Prod.snd)

/-- The number of distinct keys observed in `obs`. -/
def distinctKeys (obs : List (Int × String)) : Nat := (obs.map Prod.snd).dedup.length

/-- The observation that a call reports to the recency heap when it succeeds: the clock
reading that it stores in `last_modified`, with the name of the file. -/
def Op.observation : Op → Option (time_t × String)
  | .createFile f _ _ t => some (t, f)
  | .insertContent f _ _ t => some (t, f)
  | .updateContent f _ _ t => some (t, f)
  | .createSnapshot f _ _ t => some (t, f)
  | .rollback f _ t => some (t, f)
  | _ => none

/-- The calls that mutate no file: `readFile`, `showHistory` and the two analytics
queries. -/
def Op.isQuery : Op → Bool
  | .readFile _ => true
  | .showHistory _ _ => true
  | .showRecentFiles _ => true
  | .showBiggestTrees _ => true
  | _ => false

/-- The address that the name table gives for a name, 0 when it gives none. -/
def FileSystem.addrOf [StdHash String] (fs : FileSystem) (filename : String) : Nat :=
  match fs.files.get filename with
  | some (some a) => a
  | _ => 0

/-- A write that went to a new child. `F1` is `F` after a write of the content `cont` while
the active version, the node `n` at the address `av`, was frozen: the cell `av` holds `n`
with one more child pointer, to the first cell that `F` did not have; that new cell holds
the active version of `F1`, a mutable node without children whose parent pointer is `av`,
whose id is the former `total_versions` and whose content is `cont`; no other cell
changed. -/
def ChildWrite (F F1 : File) (av : Nat) (n : TreeNode) (cont : String) : Prop :=
  ∃ m child : TreeNode,
    F1.nodes[av]? = some m ∧
    m = { n with children := n.children ++ [some F.nodes.length] } ∧
    F1.active_version = some F.nodes.length ∧
    F1.nodes[F.nodes.length]? = some child ∧
    child.parent = some av ∧ child.content = cont ∧
    child.version_id = F.total_versions ∧ child.children = [] ∧
    child.isSnapshot = false ∧
    F1.nodes.length = F.nodes.length + 1 ∧
    ∀ b : Nat, b ≠ av → b < F.nodes.length → F1.nodes[b]? = F.nodes[b]?

/-- A write in place. `F1` is `F` after a write of the content `cont` while the active
version, the node `n` at the address `av`, was mutable: the active version is still the
cell `av`, which holds `n` with the content `cont`; no cell was added and no other cell
changed. -/
def InPlaceWrite (F F1 : File) (av : Nat) (n : TreeNode) (cont : String) : Prop :=
  F1.active_version = some av ∧
  F1.nodes[av]? = some { n with content := cont } ∧
  F1.nodes.length = F.nodes.length ∧
  ∀ b : Nat, b ≠ av → F1.nodes[b]? = F.nodes[b]?

/-! ## Example stores -/

/-- The store after `createFile a`. -/
def storeA : FileSystem :=
  (run FileSystem.init [.createFile "a" 1 1 1]).getD FileSystem.init

/-- The store after `createFile a; insert a hello`. -/
def storeHello : FileSystem :=
  (run FileSystem.init [.createFile "a" 1 1 1, .insertContent "a" "hello" 2 2]).getD
    FileSystem.init

/-- The `File` object of `a` in `storeHello`. -/
def fileHello : File := (storeHello.file? "a").getD File.new

/-- The store after `createFile a; insert a hello; rollback a 0`. -/
def storeRolled : FileSystem :=
  (run FileSystem.init
    [.createFile "a" 1 1 1, .insertContent "a" "hello" 2 2, .rollback "a" 0 3]).getD
    FileSystem.init

/-- The `File` object of `a` in `storeRolled`. -/
def fileRolled : File := (storeRolled.file? "a").getD File.new

/-- The store after `createFile a` with every clock reading 0. -/
def storeZero : FileSystem :=
  (run FileSystem.init [.createFile "a" 0 0 0]).getD FileSystem.init

/-- The store after `createFile a; snapshot a m1`, every clock reading being 0. -/
def storeSnapZero : FileSystem :=
  (run FileSystem.init
    [.createFile "a" 0 0 0, .createSnapshot "a" "m1" 0 0]).getD FileSystem.init

/-- The message and snapshot timestamp of the active version of a file of a store. -/
def activeStamp [StdHash String] (fs : FileSystem) (filename : String) :
    Option (String × time_t) :=
  match fs.file? filename with
  | none => none
  | some file =>
    match file.active? with
    | none => none
    | some n => some (n.message, n.snapshot_timestamp)

/-- The store after `createFile a; insert a x; rollback a 0; insert a y`: node 1 (`x`) and
node 2 (`y`, active) are both children of the root. -/
def storeBranch : FileSystem :=
  (run FileSystem.init
    [.createFile "a" 1 1 1, .insertContent "a" "x" 2 2, .rollback "a" 0 3,
     .insertContent "a" "y" 4 4]).getD FileSystem.init

/-- The `File` object of `a` in `storeBranch`. -/
def fileBranch : File := (storeBranch.file? "a").getD File.new

/-- The id and the parent pointer of the active version of a file of a store. -/
def activeIdParent [StdHash String] (fs : FileSystem) (filename : String) :
    Option (Int × Ptr) :=
  match fs.file? filename with
  | none => none
  | some file =>
    match file.active? with
    | none => none
    | some n => some (n.version_id, n.parent)

/-- The store after `createFile a; insert a hello; snapshot a v1; insert a world`: the
root and node 1 are frozen, the active node 2 is mutable. -/
def storeHist : FileSystem :=
  (run FileSystem.init
    [.createFile "a" 1 1 1, .insertContent "a" "hello" 2 2, .createSnapshot "a" "v1" 3 3,
     .insertContent "a" " world" 4 4]).getD FileSystem.init

/-- The `File` object of `a` in `storeHist`. -/
def fileHist : File := (storeHist.file? "a").getD File.new

/-- The store after the scenario `createFile a; update a x; snapshot a v1; update a y;
rollback a 0` when the file is created at clock reading 0. -/
def storeRootEdited : FileSystem :=
  (run FileSystem.init
    [.createFile "a" 0 0 0, .updateContent "a" "x" 0 0, .createSnapshot "a" "v1" 1 1,
     .updateContent "a" "y" 2 2, .rollback "a" 0 3]).getD FileSystem.init

/-- What the specification asks of the list `out` that a top-K query with count `k`
displays for the observations `obs`: its length is `min (max k 0)` of the number of distinct
keys; its keys are pairwise distinct; every key is paired with the maximum score observed
for it; the scores do not increase along the list; no observation of a key that is not
listed has a score above that of a listed entry (in particular of the last one); and for
`k ≤ 0` the list is empty. -/
def TopKSpec (obs : List (Int × String)) (k : Int) (out : List (String × Int)) : Prop :=
  out.length = min k.toNat (distinctKeys obs) ∧
  (out.map Prod.fst).Nodup ∧
  (∀ e ∈ out, (e.2, e.1) ∈ obs ∧ ∀ x ∈ obs, x.2 = e.1 → x.1 ≤ e.2) ∧
  out.Pairwise (fun a b => a.2 ≥ b.2) ∧
  (∀ x ∈ obs, x.2 ∉ out.map Prod.fst → ∀ e ∈ out, x.1 ≤ e.2) ∧
  (k ≤ 0 → out = [])

/-- The store after `createFile a; createFile b; insert b x` at the clock readings 1, 2
and 3. -/
def storeTwo : FileSystem :=
  (run FileSystem.init
    [.createFile "a" 1 1 1, .createFile "b" 2 2 2, .insertContent "b" "x" 3 3]).getD
    FileSystem.init

/-- The heap after `push (1, a); push (2, b); push (3, b)` with the recency comparison. -/
def heapTwo : Heap (time_t × String) :=
  (((Heap.mk0 compareRecent).push (1, "a")).push (2, "b")).push (3, "b")

/-- The store after `createFile a; createFile b` at the clock readings 1 and 2. -/
def storePair : FileSystem :=
  (run FileSystem.init [.createFile "a" 1 1 1, .createFile "b" 2 2 2]).getD FileSystem.init

/-- The store after `createFile a; createFile b; insert b x`, all at clock reading 1. -/
def storeTie : FileSystem :=
  (run FileSystem.init
    [.createFile "a" 1 1 1, .createFile "b" 1 1 1, .insertContent "b" "x" 1 1]).getD
    FileSystem.init

/-! ## Well-formed stores -/

/-- The shape of the cells of one file that every operation maintains. -/
structure FileWF [StdHash Int] (f : File) : Prop where
  root_eq : f.root = some 0
  active_lt : ∃ av, f.active_version = some av ∧ av < f.nodes.length
  total : f.total_versions = (f.nodes.length : Int)
  pos : 0 < f.nodes.length
  ids : ∀ (a : Nat) (n : TreeNode), f.nodes[a]? = some n → n.version_id = (a : Int)
  root_parent : ∀ n : TreeNode, f.nodes[0]? = some n → n.parent = none
  parent_lt : ∀ (a : Nat) (n : TreeNode), 0 < a → f.nodes[a]? = some n →
    ∃ p, n.parent = some p ∧ p < a
  vmap_in : ∀ a : Nat, a < f.nodes.length → f.version_map.get (a : Int) = some (some a)
  vmap_out : ∀ i : Int, (i < 0 ∨ (f.nodes.length : Int) ≤ i) → f.version_map.get i = none

/-- The shape of the whole store that every operation maintains. -/
structure StoreWF [StdHash String] [StdHash Int] (fs : FileSystem) : Prop where
  files_valid : ∀ name p, fs.files.get name = some p → ∃ a, p = some a ∧ a < fs.fileObjs.length
  file_wf : ∀ (a : Nat) (f : File), fs.fileObjs[a]? = some f → FileWF f

/-- What ties the size heap to the registered files: a `File` cell has one name and every
cell has a name; every element of the heap is keyed by a registered name with a score that
is at most the current `total_versions` of its file; and the heap holds, for every
registered file, an element with its current `total_versions`. -/
structure SizeInv [StdHash String] [StdHash Int] (fs : FileSystem) : Prop where
  inj : ∀ (f g : String) (a : Nat), fs.files.get f = some (some a) →
    fs.files.get g = some (some a) → f = g
  named : ∀ a : Nat, a < fs.fileObjs.length → ∃ f, fs.files.get f = some (some a)
  bounded : ∀ x ∈ fs.biggestTreesHeap.heap, ∃ a F, fs.files.get x.2 = some (some a) ∧
    fs.fileObjs[a]? = some F ∧ x.1 ≤ F.total_versions
  current : ∀ (f : String) (a : Nat) (F : File), fs.files.get f = some (some a) →
    fs.fileObjs[a]? = some F → (F.total_versions, f) ∈ fs.biggestTreesHeap.heap

/-! ## Lemmas on the hash map -/

namespace HashMap

variable {K V : Type} [DecidableEq K]

theorem bucketGet_bucketPut_self (key : K) (value : V) (l : List (K × V)) :
    bucketGet key (bucketPut key value l) = some value := by
  induction l with
  | nil => simp [bucketPut, bucketGet]
  | cons p rest ih =>
    by_cases h : p.1 = key
    · simp [bucketPut, bucketGet, h]
    · simp [bucketPut, bucketGet, h, ih]

theorem bucketGet_bucketPut_ne (key key2 : K) (value : V) (l : List (K × V))
    (hne : key2 ≠ key) : bucketGet key2 (bucketPut key value l) = bucketGet key2 l := by
  induction l with
  | nil => simp [bucketPut, bucketGet, Ne.symm hne]
  | cons p rest ih =>
    by_cases h : p.1 = key
    · have h2 : p.1 ≠ key2 := by rw [h]; exact Ne.symm hne
      simp [bucketPut, bucketGet, h, h2, Ne.symm hne]
    · rw [bucketPut, if_neg h]
      by_cases h3 : p.1 = key2
      · simp [bucketGet, h3]
      · simp [bucketGet, h3, ih]

variable [StdHash K]

theorem get_empty (key : K) : (HashMap.empty : HashMap K V).get key = none := by
  simp [get, empty, bucketGet]

theorem get_put_self (m : HashMap K V) (key : K) (value : V) :
    (m.put key value).get key = some value := by
  simp [get, put, bucketGet_bucketPut_self]

theorem get_put_ne (m : HashMap K V) (key key2 : K) (value : V) (hne : key2 ≠ key) :
    (m.put key value).get key2 = m.get key2 := by
  unfold get put
  by_cases h : hashFunction key2 = hashFunction key
  · simp [h, bucketGet_bucketPut_ne key key2 value _ hne]
  · simp [h]

theorem get_put (m : HashMap K V) (key key2 : K) (value : V) :
    (m.put key value).get key2 = if key2 = key then some value else m.get key2 := by
  by_cases h : key2 = key
  · subst h; simp [get_put_self]
  · simp [h, get_put_ne m key key2 value h]

end HashMap

/-! ## Lemmas on the cells of a file -/

theorem set_length_append_singleton {α : Type} (l : List α) (x y : α) :
    (l ++ [x]).set l.length y = l ++ [y] := by
  induction l with
  | nil => rfl
  | cons a l ih => simp [List.set, ih]

theorem set_append_singleton_lt {α : Type} (l : List α) (x y : α) (i : Nat)
    (hi : i < l.length) : (l ++ [x]).set i y = l.set i y ++ [x] := by
  induction l generalizing i with
  | nil => simp at hi
  | cons a l ih =>
    cases i with
    | zero => simp
    | succ i => simp at hi; simp [ih i hi]

namespace FileSystem

section
variable [StdHash Int]

/-- The cells of `newVersion`, written out. -/
theorem newVersion_eq (file : File) (av : Nat) (active : TreeNode) (cont : String)
    (t : time_t) (hav : av < file.nodes.length) :
    newVersion file av active cont t =
      { root := file.root
        active_version := some file.nodes.length
        version_map := file.version_map.put file.total_versions (some file.nodes.length)
        total_versions := file.total_versions + 1
        last_modified := file.last_modified
        nodes := file.nodes.set av { active with children := active.children ++ [some file.nodes.length] }
          ++ [{ TreeNode.new file.total_versions "" none t with
                content := cont, parent := some av }] } := by
  simp only [newVersion, File.alloc, File.setNode, TreeNode.new]
  rw [set_length_append_singleton, set_append_singleton_lt _ _ _ _ hav]

/-- The file built by `createFile` is well formed. -/
theorem fileWF_create (t1 t2 t3 : time_t) :
    FileWF
      { root := some 0, active_version := some 0,
        version_map := (HashMap.empty : HashMap Int Ptr).put 0 (some 0),
        total_versions := 1, last_modified := t3,
        nodes := [{ TreeNode.new 0 "" none t1 with
                    snapshot_timestamp := t2, message := "Initial snapshot" }] } where
  root_eq := rfl
  active_lt := ⟨0, rfl, by simp⟩
  total := by simp
  pos := by simp
  ids := by
    intro a n h
    cases a with
    | zero => simp at h; subst h; simp [TreeNode.new]
    | succ a => simp at h
  root_parent := by
    intro n h
    simp at h; subst h; simp [TreeNode.new]
  parent_lt := by
    intro a n ha h
    cases a with
    | zero => omega
    | succ a => simp at h
  vmap_in := by
    intro a ha
    simp at ha; subst ha
    simp [HashMap.get_put_self]
  vmap_out := by
    intro i hi
    have hne : i ≠ 0 := by
      rcases hi with h | h
      · omega
      · simp at h; omega
    rw [HashMap.get_put_ne _ _ _ _ hne, HashMap.get_empty]

/-- Changing `last_modified` keeps a file well formed. -/
theorem fileWF_last_modified {f : File} (h : FileWF f) (t : time_t) :
    FileWF { f with last_modified := t } :=
  { root_eq := h.root_eq, active_lt := h.active_lt, total := h.total, pos := h.pos,
    ids := h.ids, root_parent := h.root_parent, parent_lt := h.parent_lt,
    vmap_in := h.vmap_in, vmap_out := h.vmap_out }

/-- Repointing `active_version` to an allocated cell keeps a file well formed. -/
theorem fileWF_active {f : File} (h : FileWF f) (a : Nat) (ha : a < f.nodes.length) :
    FileWF { f with active_version := some a } :=
  { root_eq := h.root_eq, active_lt := ⟨a, rfl, ha⟩, total := h.total, pos := h.pos,
    ids := h.ids, root_parent := h.root_parent, parent_lt := h.parent_lt,
    vmap_in := h.vmap_in, vmap_out := h.vmap_out }

/-- A store to a cell that keeps its `version_id` and `parent` keeps a file well formed. -/
theorem fileWF_setNode {f : File} (h : FileWF f) (a : Nat) (old n : TreeNode)
    (hold : f.nodes[a]? = some old) (hid : n.version_id = old.version_id)
    (hpar : n.parent = old.parent) : FileWF (f.setNode a n) := by
  have key : ∀ (b : Nat) (m : TreeNode), (f.nodes.set a n)[b]? = some m →
      ∃ m0, f.nodes[b]? = some m0 ∧ m.version_id = m0.version_id ∧ m.parent = m0.parent := by
    intro b m hm
    rw [List.getElem?_set] at hm
    by_cases hab : a = b
    · subst hab
      rw [if_pos rfl] at hm
      split at hm
      · cases hm; exact ⟨old, hold, hid, hpar⟩
      · cases hm
    · rw [if_neg hab] at hm
      exact ⟨m, hm, rfl, rfl⟩
  refine
    { root_eq := h.root_eq, active_lt := ?_, total := ?_, pos := ?_, ids := ?_,
      root_parent := ?_, parent_lt := ?_, vmap_in := ?_, vmap_out := ?_ }
  · simpa [File.setNode] using h.active_lt
  · simpa [File.setNode] using h.total
  · simpa [File.setNode] using h.pos
  · intro b m hm
    obtain ⟨m0, h0, hi, _⟩ := key b m hm
    rw [hi]; exact h.ids b m0 h0
  · intro m hm
    obtain ⟨m0, h0, _, hp⟩ := key 0 m hm
    rw [hp]; exact h.root_parent m0 h0
  · intro b m hb hm
    obtain ⟨m0, h0, _, hp⟩ := key b m hm
    rw [hp]; exact h.parent_lt b m0 hb h0
  · intro b hb
    have : b < f.nodes.length := by simpa [File.setNode] using hb
    simpa [File.setNode] using h.vmap_in b this
  · intro i hi
    have : i < 0 ∨ (f.nodes.length : Int) ≤ i := by simpa [File.setNode] using hi
    simpa [File.setNode] using h.vmap_out i this

/-- Allocating a node with the next id under an allocated parent, registering it and
making it active keeps a file well formed. -/
theorem fileWF_append {g : File} (h : FileWF g) (n : TreeNode) (p : Nat)
    (hp : p < g.nodes.length) (hid : n.version_id = g.total_versions)
    (hpar : n.parent = some p) :
    FileWF
      { root := g.root
        active_version := some g.nodes.length
        version_map := g.version_map.put g.total_versions (some g.nodes.length)
        total_versions := g.total_versions + 1
        last_modified := g.last_modified
        nodes := g.nodes ++ [n] } := by
  have key : ∀ (b : Nat) (m : TreeNode), (g.nodes ++ [n])[b]? = some m →
      g.nodes[b]? = some m ∨ (b = g.nodes.length ∧ m = n) := by
    intro b m hm
    by_cases hb : b < g.nodes.length
    · rw [List.getElem?_append_left hb] at hm
      exact Or.inl hm
    · right
      have hb2 : g.nodes.length ≤ b := Nat.le_of_not_lt hb
      rw [List.getElem?_append_right hb2] at hm
      cases hk : b - g.nodes.length with
      | zero =>
        rw [hk] at hm
        simp at hm
        exact ⟨by omega, hm.symm⟩
      | succ k =>
        rw [hk] at hm
        simp at hm
  have htot := h.total
  refine
    { root_eq := h.root_eq, active_lt := ⟨g.nodes.length, rfl, by simp⟩, total := ?_,
      pos := ?_, ids := ?_, root_parent := ?_, parent_lt := ?_, vmap_in := ?_,
      vmap_out := ?_ }
  · simp [htot]
  · simp
  · intro b m hm
    rcases key b m hm with h0 | ⟨hb, hm2⟩
    · exact h.ids b m h0
    · rw [hm2, hid, htot, hb]
  · intro m hm
    rcases key 0 m hm with h0 | ⟨hb, _⟩
    · exact h.root_parent m h0
    · have := h.pos; omega
  · intro b m hb hm
    rcases key b m hm with h0 | ⟨hb2, hm2⟩
    · exact h.parent_lt b m hb h0
    · exact ⟨p, by rw [hm2, hpar], by omega⟩
  · intro a ha
    simp only [List.length_append, List.length_singleton] at ha
    by_cases hal : a = g.nodes.length
    · subst hal
      show (g.version_map.put g.total_versions (some g.nodes.length)).get _ = _
      rw [← htot, HashMap.get_put_self]
    · have ha2 : a < g.nodes.length := by omega
      have hne : (a : Int) ≠ g.total_versions := by rw [htot]; omega
      show (g.version_map.put g.total_versions (some g.nodes.length)).get _ = _
      rw [HashMap.get_put_ne _ _ _ _ hne]
      exact h.vmap_in a ha2
  · intro i hi
    simp only [List.length_append, List.length_singleton] at hi
    have hne : i ≠ g.total_versions := by rw [htot]; omega
    show (g.version_map.put g.total_versions (some g.nodes.length)).get _ = _
    rw [HashMap.get_put_ne _ _ _ _ hne]
    exact h.vmap_out i (by omega)

/-- The branch that creates a new version keeps a file well formed. -/
theorem fileWF_newVersion {f : File} (h : FileWF f) (av : Nat) (active : TreeNode)
    (hact : f.nodes[av]? = some active) (cont : String) (t : time_t) :
    FileWF (newVersion f av active cont t) := by
  have hav : av < f.nodes.length := by
    rcases Nat.lt_or_ge av f.nodes.length with hlt | hge
    · exact hlt
    · rw [List.getElem?_eq_none hge] at hact; cases hact
  rw [newVersion_eq f av active cont t hav]
  have hg := fileWF_setNode h av active
    { active with children := active.children ++ [some f.nodes.length] } hact rfl rfl
  have := fileWF_append hg
    { TreeNode.new f.total_versions "" none t with content := cont, parent := some av } av
    (by simpa [File.setNode] using hav) rfl rfl
  simpa [File.setNode] using this

end

section
variable [StdHash String] [StdHash Int]

theorem lookup_found {fs : FileSystem} {name : String} {a : Nat} {file : File}
    (h : fs.lookup name = .found a file) :
    fs.files.get name = some (some a) ∧ fs.fileObjs[a]? = some file := by
  unfold lookup at h
  split at h
  · cases h
  · cases h
  · next b hb =>
    split at h
    · cases h
    · next g hg =>
      cases h
      exact ⟨hb, hg⟩

theorem lookup_of_get {fs : FileSystem} {name : String} {a : Nat} {file : File}
    (h1 : fs.files.get name = some (some a)) (h2 : fs.fileObjs[a]? = some file) :
    fs.lookup name = .found a file := by
  simp [lookup, h1, h2]

/-- In a well-formed store a lookup never meets a dangling pointer. -/
theorem lookup_cases {fs : FileSystem} (h : StoreWF fs) (name : String) :
    (fs.lookup name = .missing ∧ fs.files.get name = none) ∨
      ∃ a file, fs.lookup name = .found a file ∧ FileWF file := by
  cases hg : fs.files.get name with
  | none => left; simp [lookup, hg]
  | some p =>
    obtain ⟨a, hp, ha⟩ := h.files_valid name p hg
    subst hp
    right
    have hsome : fs.fileObjs[a]? = some (fs.fileObjs[a]) := List.getElem?_eq_getElem ha
    exact ⟨a, fs.fileObjs[a], lookup_of_get hg hsome, h.file_wf a _ hsome⟩

theorem file?_eq_some {fs : FileSystem} {name : String} {file : File} :
    fs.file? name = some file ↔ ∃ a, fs.lookup name = .found a file := by
  unfold file?
  constructor
  · intro h
    split at h
    · next a g hg => cases h; exact ⟨a, hg⟩
    · cases h
  · rintro ⟨a, ha⟩
    simp [ha]

/-- The active version of a well-formed file is an allocated cell. -/
theorem active_cell {file : File} (h : FileWF file) :
    ∃ av active, file.active_version = some av ∧ file.nodes[av]? = some active ∧
      av < file.nodes.length := by
  obtain ⟨av, h1, h2⟩ := h.active_lt
  exact ⟨av, file.nodes[av], h1, List.getElem?_eq_getElem h2, h2⟩

/-- Storing a well-formed file into a cell and updating the analytics keeps the store
well formed. -/
theorem storeWF_setFile {fs : FileSystem} (h : StoreWF fs) (a : Nat) (file : File)
    (hf : FileWF file) (name : String) (g : File) :
    StoreWF (updateAnalytics (fs.setFile a file) name g) where
  files_valid := by
    intro n p hp
    obtain ⟨b, hb1, hb2⟩ := h.files_valid n p hp
    exact ⟨b, hb1, by simpa [updateAnalytics, setFile] using hb2⟩
  file_wf := by
    intro b f2 hb
    simp only [updateAnalytics, setFile] at hb
    rw [List.getElem?_set] at hb
    by_cases hab : a = b
    · rw [if_pos hab] at hb
      split at hb
      · cases hb; exact hf
      · cases hb
    · rw [if_neg hab] at hb
      exact h.file_wf b f2 hb

theorem insertContent_found {fs : FileSystem} {name : String} {a av : Nat} {file : File}
    {active : TreeNode} (hl : fs.lookup name = .found a file)
    (hav : file.active_version = some av) (hn : file.nodes[av]? = some active)
    (c : String) (t1 t2 : time_t) :
    fs.insertContent name c t1 t2 =
      some (updateAnalytics
        (fs.setFile a
          { (if active.isSnapshot then newVersion file av active (active.content ++ c) t1
             else file.setNode av { active with content := active.content ++ c }) with
            last_modified := t2 })
        name
          { (if active.isSnapshot then newVersion file av active (active.content ++ c) t1
             else file.setNode av { active with content := active.content ++ c }) with
            last_modified := t2 }, .silent) := by
  simp [insertContent, hl, hav, hn]

theorem updateContent_found {fs : FileSystem} {name : String} {a av : Nat} {file : File}
    {active : TreeNode} (hl : fs.lookup name = .found a file)
    (hav : file.active_version = some av) (hn : file.nodes[av]? = some active)
    (c : String) (t1 t2 : time_t) :
    fs.updateContent name c t1 t2 =
      some (updateAnalytics
        (fs.setFile a
          { (if active.isSnapshot then newVersion file av active c t1
             else file.setNode av { active with content := c }) with
            last_modified := t2 })
        name
          { (if active.isSnapshot then newVersion file av active c t1
             else file.setNode av { active with content := c }) with
            last_modified := t2 }, .silent) := by
  simp [updateContent, hl, hav, hn]

theorem createSnapshot_found {fs : FileSystem} {name : String} {a av : Nat} {file : File}
    {active : TreeNode} (hl : fs.lookup name = .found a file)
    (hav : file.active_version = some av) (hn : file.nodes[av]? = some active)
    (m : String) (t1 t2 : time_t) :
    fs.createSnapshot name m t1 t2 =
      if active.isSnapshot then some (fs, .error .AlreadyFrozen)
      else
        some (updateAnalytics
          (fs.setFile a
            { file.setNode av { active with snapshot_timestamp := t1, message := m } with
              last_modified := t2 })
          name
            { file.setNode av { active with snapshot_timestamp := t1, message := m } with
              last_modified := t2 }, .silent) := by
  simp [createSnapshot, hl, hav, hn]

theorem rollback_parent_found {fs : FileSystem} {name : String} {a av : Nat} {file : File}
    {active : TreeNode} (hl : fs.lookup name = .found a file)
    (hav : file.active_version = some av) (hn : file.nodes[av]? = some active)
    (t : time_t) :
    fs.rollback name (-1) t =
      match active.parent with
      | none => some (fs, .error .NoParent)
      | some parent => some (rollbackTo fs name a file parent t) := by
  simp [rollback, hl, hav, hn]

theorem rollback_id_found {fs : FileSystem} {name : String} {a : Nat} {file : File}
    (hl : fs.lookup name = .found a file) (v : Int) (hv : v ≠ -1) (t : time_t) :
    fs.rollback name v t =
      match file.version_map.get v with
      | none => some (fs, .error .VersionNotFound)
      | some none => some (fs, .error .VersionNotFound)
      | some (some node) => some (rollbackTo fs name a file node t) := by
  simp [rollback, hl, hv]

theorem createFile_fresh {fs : FileSystem} {name : String}
    (h : fs.files.get name = none) (t1 t2 t3 : time_t) :
    fs.createFile name t1 t2 t3 =
      some (updateAnalytics
        { fs with
          fileObjs := fs.fileObjs ++ [createdFile t1 t2 t3],
          files := fs.files.put name (some fs.fileObjs.length) }
        name (createdFile t1 t2 t3), .created name) := by
  simp [createFile, HashMap.contains, h, createdFile, File.alloc, File.setNode, File.new]

theorem createFile_existing {fs : FileSystem} {name : String} {p : Ptr}
    (h : fs.files.get name = some p) (t1 t2 t3 : time_t) :
    fs.createFile name t1 t2 t3 = some (fs, .error .AlreadyExists) := by
  simp [createFile, HashMap.contains, h]

theorem storeWF_init : StoreWF FileSystem.init where
  files_valid := by
    intro n p hp
    simp [FileSystem.init, HashMap.get_empty] at hp
  file_wf := by
    intro a f hf
    simp [FileSystem.init] at hf

theorem storeWF_createFile {fs fs1 : FileSystem} {out : Output} (h : StoreWF fs)
    (name : String) (t1 t2 t3 : time_t)
    (heq : fs.createFile name t1 t2 t3 = some (fs1, out)) : StoreWF fs1 := by
  cases hg : fs.files.get name with
  | some p =>
    rw [createFile_existing hg] at heq
    cases heq; exact h
  | none =>
    rw [createFile_fresh hg] at heq
    cases heq
    constructor
    · intro n p hp
      simp only [updateAnalytics] at hp
      rw [HashMap.get_put] at hp
      simp only [updateAnalytics, List.length_append, List.length_singleton]
      by_cases hn : n = name
      · rw [if_pos hn] at hp
        cases hp
        exact ⟨_, rfl, by omega⟩
      · rw [if_neg hn] at hp
        obtain ⟨b, hb1, hb2⟩ := h.files_valid n p hp
        exact ⟨b, hb1, by omega⟩
    · intro b f hf
      simp only [updateAnalytics] at hf
      by_cases hb : b < fs.fileObjs.length
      · rw [List.getElem?_append_left hb] at hf
        exact h.file_wf b f hf
      · rw [List.getElem?_append_right (Nat.le_of_not_lt hb)] at hf
        cases hk : b - fs.fileObjs.length with
        | zero =>
          rw [hk] at hf
          simp at hf
          subst hf
          exact fileWF_create t1 t2 t3
        | succ k =>
          rw [hk] at hf
          simp at hf

theorem fileWF_write {file : File} (h : FileWF file) {av : Nat} {active : TreeNode}
    (hn : file.nodes[av]? = some active) (cNew cSame : String) (t1 t2 : time_t) :
    FileWF
      { (if active.isSnapshot then newVersion file av active cNew t1
         else file.setNode av { active with content := cSame }) with last_modified := t2 } := by
  apply fileWF_last_modified
  split
  · exact fileWF_newVersion h av active hn _ _
  · exact fileWF_setNode h av active _ hn rfl rfl

theorem storeWF_rollbackTo {fs : FileSystem} (h : StoreWF fs) (name : String) (a : Nat)
    (file : File) (hf : FileWF file) (target : Nat) (ht : target < file.nodes.length)
    (t : time_t) : StoreWF (rollbackTo fs name a file target t).1 := by
  unfold rollbackTo
  exact storeWF_setFile h a _ (fileWF_last_modified (fileWF_active hf target ht) t) name _

/-- A registered version id maps to an allocated cell. -/
theorem vmap_some {file : File} (h : FileWF file) {v : Int} {node : Nat}
    (hv : file.version_map.get v = some (some node)) :
    node < file.nodes.length ∧ v = (node : Int) := by
  by_cases hout : v < 0 ∨ (file.nodes.length : Int) ≤ v
  · rw [h.vmap_out v hout] at hv; cases hv
  · have h0 : 0 ≤ v := by omega
    have h1 : v < (file.nodes.length : Int) := by omega
    have h2 : v.toNat < file.nodes.length := by omega
    have h3 := h.vmap_in v.toNat h2
    rw [Int.toNat_of_nonneg h0] at h3
    rw [h3] at hv
    cases hv
    exact ⟨h2, (Int.toNat_of_nonneg h0).symm⟩

/-- Every call keeps the store well formed. -/
theorem storeWF_step {fs fs1 : FileSystem} {out : Output} (h : StoreWF fs) (op : Op)
    (heq : step fs op = some (fs1, out)) : StoreWF fs1 := by
  cases op with
  | createFile f t1 t2 t3 => exact storeWF_createFile h f t1 t2 t3 heq
  | readFile f =>
    simp only [step, readFile] at heq
    repeat' split at heq
    all_goals first
      | (cases heq; exact h)
      | cases heq
  | insertContent f c t1 t2 =>
    simp only [step] at heq
    rcases lookup_cases h f with ⟨hm, _⟩ | ⟨a, file, hl, hf⟩
    · simp [insertContent, hm] at heq
      rw [← heq.1]; exact h
    · obtain ⟨av, active, hav, hn, _⟩ := active_cell hf
      rw [insertContent_found hl hav hn] at heq
      cases heq
      exact storeWF_setFile h a _ (fileWF_write hf hn _ _ _ _) f _
  | updateContent f c t1 t2 =>
    simp only [step] at heq
    rcases lookup_cases h f with ⟨hm, _⟩ | ⟨a, file, hl, hf⟩
    · simp [updateContent, hm] at heq
      rw [← heq.1]; exact h
    · obtain ⟨av, active, hav, hn, _⟩ := active_cell hf
      rw [updateContent_found hl hav hn] at heq
      cases heq
      exact storeWF_setFile h a _ (fileWF_write hf hn _ _ _ _) f _
  | createSnapshot f m t1 t2 =>
    simp only [step] at heq
    rcases lookup_cases h f with ⟨hm, _⟩ | ⟨a, file, hl, hf⟩
    · simp [createSnapshot, hm] at heq
      rw [← heq.1]; exact h
    · obtain ⟨av, active, hav, hn, _⟩ := active_cell hf
      rw [createSnapshot_found hl hav hn] at heq
      split at heq
      · cases heq; exact h
      · cases heq
        exact storeWF_setFile h a _
          (fileWF_last_modified (fileWF_setNode hf av active
            { active with snapshot_timestamp := t1, message := m } hn rfl rfl) t2) f _
  | rollback f v t =>
    simp only [step] at heq
    rcases lookup_cases h f with ⟨hm, _⟩ | ⟨a, file, hl, hf⟩
    · simp [rollback, hm] at heq
      rw [← heq.1]; exact h
    · by_cases hv : v = -1
      · subst hv
        obtain ⟨av, active, hav, hn, havlt⟩ := active_cell hf
        rw [rollback_parent_found hl hav hn] at heq
        cases hp : active.parent with
        | none =>
          rw [hp] at heq
          cases heq; exact h
        | some parent =>
          rw [hp] at heq
          have hplt : parent < file.nodes.length := by
            rcases Nat.eq_zero_or_pos av with h0 | hpos
            · subst h0
              rw [hf.root_parent active hn] at hp; cases hp
            · obtain ⟨q, hq1, hq2⟩ := hf.parent_lt av active hpos hn
              rw [hp] at hq1; cases hq1; omega
          have := storeWF_rollbackTo h f a file hf parent hplt t
          simp only [Option.some.injEq] at heq
          rw [heq] at this; exact this
      · rw [rollback_id_found hl v hv] at heq
        split at heq
        · cases heq; exact h
        · cases heq; exact h
        · next node hnode =>
          have := storeWF_rollbackTo h f a file hf node (vmap_some hf hnode).1 t
          simp only [Option.some.injEq] at heq
          rw [heq] at this; exact this
  | showHistory fuel f =>
    simp only [step, showHistory] at heq
    repeat' split at heq
    all_goals first
      | (cases heq; exact h)
      | cases heq
  | showRecentFiles n =>
    simp only [step, showRecentFiles] at heq
    cases heq
    exact ⟨h.files_valid, h.file_wf⟩
  | showBiggestTrees n =>
    simp only [step, showBiggestTrees] at heq
    cases heq
    exact ⟨h.files_valid, h.file_wf⟩

/-- Every reachable store is well formed. -/
theorem storeWF_of_reachable {fs : FileSystem} (h : Reachable fs) : StoreWF fs := by
  induction h with
  | init => exact storeWF_init
  | step op _ heq ih => exact storeWF_step ih op heq

theorem reachable_run {fs fs1 : FileSystem} (ops : List Op) (h : Reachable fs)
    (hr : run fs ops = some fs1) : Reachable fs1 := by
  induction ops generalizing fs with
  | nil => simp only [run, Option.some.injEq] at hr; rw [← hr]; exact h
  | cons op ops ih =>
    simp only [run] at hr
    split at hr
    · cases hr
    · next fs2 out hstep => exact ih (Reachable.step op h hstep) hr

theorem lt_of_getElem?_eq_some {α : Type} {l : List α} {i : Nat} {x : α}
    (h : l[i]? = some x) : i < l.length := by
  rcases Nat.lt_or_ge i l.length with hlt | hge
  · exact hlt
  · rw [List.getElem?_eq_none hge] at h; cases h

/-- After a store to the cell of a file, the name of the file finds the stored value. -/
theorem lookup_setFile {fs : FileSystem} {name : String} {a : Nat} {file : File}
    (hl : fs.lookup name = .found a file) (file2 g : File) (n : String) :
    (updateAnalytics (fs.setFile a file2) n g).lookup name = .found a file2 := by
  obtain ⟨h1, h2⟩ := lookup_found hl
  have ha := lt_of_getElem?_eq_some h2
  apply lookup_of_get
  · simpa [updateAnalytics, setFile] using h1
  · simp [updateAnalytics, setFile, List.getElem?_set, ha]

/-- What the branch that creates a version leaves in the file. -/
theorem newVersion_facts {file : File} {av : Nat} {active : TreeNode}
    (hn : file.nodes[av]? = some active) (cNew : String) (t1 : time_t) :
    (newVersion file av active cNew t1).active_version = some file.nodes.length ∧
    (newVersion file av active cNew t1).nodes[file.nodes.length]? =
      some { TreeNode.new file.total_versions "" none t1 with
             content := cNew, parent := some av } ∧
    (newVersion file av active cNew t1).total_versions = file.total_versions + 1 ∧
    (newVersion file av active cNew t1).nodes[av]? =
      some { active with children := active.children ++ [some file.nodes.length] } ∧
    (∀ b, b ≠ av → b < file.nodes.length →
      (newVersion file av active cNew t1).nodes[b]? = file.nodes[b]?) ∧
    (newVersion file av active cNew t1).nodes.length = file.nodes.length + 1 := by
  have hlt := lt_of_getElem?_eq_some hn
  rw [newVersion_eq file av active cNew t1 hlt]
  refine ⟨rfl, ?_, rfl, ?_, ?_, ?_⟩
  · show (file.nodes.set av _ ++ [_])[file.nodes.length]? = some _
    rw [List.getElem?_append_right (by simp)]
    simp
  · show (file.nodes.set av _ ++ [_])[av]? = some _
    rw [List.getElem?_append_left (by simpa using hlt)]
    simp [List.getElem?_set, hlt]
  · intro b hb hbl
    show (file.nodes.set av _ ++ [_])[b]? = _
    rw [List.getElem?_append_left (by simpa using hbl)]
    simp [List.getElem?_set, Ne.symm hb]
  · show (file.nodes.set av _ ++ [_]).length = _
    simp

/-- What the branch that edits in place leaves in the file. -/
theorem setNode_facts {file : File} {av : Nat} {active : TreeNode}
    (hn : file.nodes[av]? = some active) (n : TreeNode) :
    (file.setNode av n).nodes[av]? = some n ∧
    (∀ b, b ≠ av → (file.setNode av n).nodes[b]? = file.nodes[b]?) ∧
    (file.setNode av n).nodes.length = file.nodes.length := by
  have hlt := lt_of_getElem?_eq_some hn
  refine ⟨?_, ?_, ?_⟩
  · show (file.nodes.set av n)[av]? = some n
    simp [List.getElem?_set, hlt]
  · intro b hb
    show (file.nodes.set av n)[b]? = _
    simp [List.getElem?_set, Ne.symm hb]
  · show (file.nodes.set av n).length = _
    simp

theorem readFile_found {fs : FileSystem} {name : String} {a av : Nat} {file : File}
    {active : TreeNode} (hl : fs.lookup name = .found a file)
    (hav : file.active_version = some av) (hn : file.nodes[av]? = some active) :
    fs.readFile name = some (fs, .content active.content) := by
  simp [readFile, hl, hav, hn]

theorem insertContent_frozen {fs : FileSystem} {name : String} {a av : Nat} {file : File}
    {active : TreeNode} (hl : fs.lookup name = .found a file)
    (hav : file.active_version = some av) (hn : file.nodes[av]? = some active)
    (hs : active.isSnapshot = true) (c : String) (t1 t2 : time_t) :
    fs.insertContent name c t1 t2 =
      some (updateAnalytics
        (fs.setFile a
          { newVersion file av active (active.content ++ c) t1 with last_modified := t2 })
        name { newVersion file av active (active.content ++ c) t1 with last_modified := t2 },
        .silent) := by
  rw [insertContent_found hl hav hn]; simp [hs]

theorem insertContent_mutable {fs : FileSystem} {name : String} {a av : Nat} {file : File}
    {active : TreeNode} (hl : fs.lookup name = .found a file)
    (hav : file.active_version = some av) (hn : file.nodes[av]? = some active)
    (hs : active.isSnapshot = false) (c : String) (t1 t2 : time_t) :
    fs.insertContent name c t1 t2 =
      some (updateAnalytics
        (fs.setFile a
          { file.setNode av { active with content := active.content ++ c } with
            last_modified := t2 })
        name
          { file.setNode av { active with content := active.content ++ c } with
            last_modified := t2 }, .silent) := by
  rw [insertContent_found hl hav hn]; simp [hs]

theorem updateContent_frozen {fs : FileSystem} {name : String} {a av : Nat} {file : File}
    {active : TreeNode} (hl : fs.lookup name = .found a file)
    (hav : file.active_version = some av) (hn : file.nodes[av]? = some active)
    (hs : active.isSnapshot = true) (c : String) (t1 t2 : time_t) :
    fs.updateContent name c t1 t2 =
      some (updateAnalytics
        (fs.setFile a { newVersion file av active c t1 with last_modified := t2 })
        name { newVersion file av active c t1 with last_modified := t2 }, .silent) := by
  rw [updateContent_found hl hav hn]; simp [hs]

theorem updateContent_mutable {fs : FileSystem} {name : String} {a av : Nat} {file : File}
    {active : TreeNode} (hl : fs.lookup name = .found a file)
    (hav : file.active_version = some av) (hn : file.nodes[av]? = some active)
    (hs : active.isSnapshot = false) (c : String) (t1 t2 : time_t) :
    fs.updateContent name c t1 t2 =
      some (updateAnalytics
        (fs.setFile a { file.setNode av { active with content := c } with last_modified := t2 })
        name { file.setNode av { active with content := c } with last_modified := t2 },
        .silent) := by
  rw [updateContent_found hl hav hn]; simp [hs]

/-- Reading a file after a store to its cell returns the content of the active version
of the stored value. -/
theorem readFile_setFile {fs : FileSystem} {name : String} {a : Nat} {file : File}
    (hl : fs.lookup name = .found a file) (file2 : File) (av2 : Nat) (n2 : TreeNode)
    (hav2 : file2.active_version = some av2) (hn2 : file2.nodes[av2]? = some n2) :
    (updateAnalytics (fs.setFile a file2) name file2).readFile name =
      some (updateAnalytics (fs.setFile a file2) name file2, .content n2.content) :=
  readFile_found (lookup_setFile hl file2 file2 name) hav2 hn2

/-- A call on a named file either returns the store as it was, or found the file and the
cell of its active version. -/
theorem insertContent_cases {fs fs1 : FileSystem} {out : Output} {name c : String}
    {t1 t2 : time_t} (h : fs.insertContent name c t1 t2 = some (fs1, out)) :
    (fs1 = fs ∧ out = .error .NotFound) ∨ ∃ a file av active, fs.lookup name = .found a file ∧
      file.active_version = some av ∧ file.nodes[av]? = some active := by
  unfold insertContent at h
  split at h
  · cases h; exact Or.inl ⟨rfl, rfl⟩
  · cases h
  · next a file hl =>
    split at h
    · cases h
    · next av hav =>
      split at h
      · cases h
      · next active hn => exact Or.inr ⟨a, file, av, active, hl, hav, hn⟩

theorem updateContent_cases {fs fs1 : FileSystem} {out : Output} {name c : String}
    {t1 t2 : time_t} (h : fs.updateContent name c t1 t2 = some (fs1, out)) :
    (fs1 = fs ∧ out = .error .NotFound) ∨ ∃ a file av active, fs.lookup name = .found a file ∧
      file.active_version = some av ∧ file.nodes[av]? = some active := by
  unfold updateContent at h
  split at h
  · cases h; exact Or.inl ⟨rfl, rfl⟩
  · cases h
  · next a file hl =>
    split at h
    · cases h
    · next av hav =>
      split at h
      · cases h
      · next active hn => exact Or.inr ⟨a, file, av, active, hl, hav, hn⟩

theorem createSnapshot_cases {fs fs1 : FileSystem} {out : Output} {name m : String}
    {t1 t2 : time_t} (h : fs.createSnapshot name m t1 t2 = some (fs1, out)) :
    (fs1 = fs ∧ out = .error .NotFound) ∨ ∃ a file av active, fs.lookup name = .found a file ∧
      file.active_version = some av ∧ file.nodes[av]? = some active := by
  unfold createSnapshot at h
  split at h
  · cases h; exact Or.inl ⟨rfl, rfl⟩
  · cases h
  · next a file hl =>
    split at h
    · cases h
    · next av hav =>
      split at h
      · cases h
      · next active hn => exact Or.inr ⟨a, file, av, active, hl, hav, hn⟩

/-- A call of `rollback` either returns the store as it was, with an error, or repoints the
active version of the file it found. -/
theorem rollback_cases {fs fs1 : FileSystem} {out : Output} {name : String} {v : Int}
    {t : time_t} (h : fs.rollback name v t = some (fs1, out)) :
    (fs1 = fs ∧ ∃ e, out = .error e) ∨ ∃ a file target, fs.lookup name = .found a file ∧
      (fs1, out) = rollbackTo fs name a file target t := by
  unfold rollback at h
  split at h
  · cases h; exact Or.inl ⟨rfl, _, rfl⟩
  · cases h
  · next a file hl =>
    split at h
    · split at h
      · cases h
      · split at h
        · cases h
        · split at h
          · cases h; exact Or.inl ⟨rfl, _, rfl⟩
          · next parent _ => cases h; exact Or.inr ⟨a, file, parent, hl, rfl⟩
    · split at h
      · cases h; exact Or.inl ⟨rfl, _, rfl⟩
      · cases h; exact Or.inl ⟨rfl, _, rfl⟩
      · next node _ => cases h; exact Or.inr ⟨a, file, node, hl, rfl⟩

/-- The cells of the other files, and the cells of a file whose stored value keeps them,
survive a store to a file cell. -/
theorem cells_kept_setFile {fs : FileSystem} {name : String} {a : Nat} {file : File}
    (hl : fs.lookup name = .found a file) (file2 g : File) (nm : String)
    (P : TreeNode → TreeNode → Prop) (hrefl : ∀ n, P n n) (fa na : Nat) (F : File)
    (n : TreeNode) (hF : fs.fileObjs[fa]? = some F) (hn : F.nodes[na]? = some n)
    (hkeep : file.nodes[na]? = some n → ∃ n1, file2.nodes[na]? = some n1 ∧ P n1 n) :
    ∃ F1 n1, (updateAnalytics (fs.setFile a file2) nm g).fileObjs[fa]? = some F1 ∧
      F1.nodes[na]? = some n1 ∧ P n1 n := by
  have hcell := (lookup_found hl).2
  have ha := lt_of_getElem?_eq_some hcell
  by_cases hfa : fa = a
  · subst hfa
    rw [hcell] at hF; cases hF
    obtain ⟨n1, h1, h2⟩ := hkeep hn
    refine ⟨file2, n1, ?_, h1, h2⟩
    simp [updateAnalytics, setFile, List.getElem?_set, ha]
  · refine ⟨F, n, ?_, hn, hrefl n⟩
    simp [updateAnalytics, setFile, List.getElem?_set, Ne.symm hfa, hF]

/-- A write keeps the content, message and snapshot timestamp of every frozen cell. -/
theorem write_keeps_frozen {file : File} {av : Nat} {active : TreeNode}
    (hact : file.nodes[av]? = some active) (cNew cSame : String) (t1 t2 : time_t)
    (na : Nat) (n : TreeNode) (hn : file.nodes[na]? = some n) (hfr : n.isSnapshot = true) :
    ∃ n1,
      ({ (if active.isSnapshot then newVersion file av active cNew t1
          else file.setNode av { active with content := cSame }) with
          last_modified := t2 } : File).nodes[na]? = some n1 ∧
      n1.content = n.content ∧ n1.message = n.message ∧
      n1.snapshot_timestamp = n.snapshot_timestamp := by
  have hna := lt_of_getElem?_eq_some hn
  cases hsnap : active.isSnapshot with
  | true =>
    simp only [if_true]
    obtain ⟨_, _, _, h4, h5, _⟩ := newVersion_facts hact cNew t1
    by_cases hb : na = av
    · subst hb
      rw [hact] at hn; cases hn
      exact ⟨_, h4, rfl, rfl, rfl⟩
    · exact ⟨n, (h5 na hb hna).trans hn, rfl, rfl, rfl⟩
  | false =>
    simp only [Bool.false_eq_true, if_false]
    obtain ⟨_, h2, _⟩ := setNode_facts hact { active with content := cSame }
    by_cases hb : na = av
    · subst hb
      rw [hact] at hn; cases hn
      rw [hsnap] at hfr; cases hfr
    · exact ⟨n, (h2 na hb).trans hn, rfl, rfl, rfl⟩

theorem createFile_cases {fs fs1 : FileSystem} {out : Output} {name : String}
    {t1 t2 t3 : time_t} (h : fs.createFile name t1 t2 t3 = some (fs1, out)) :
    (fs1 = fs ∧ out = .error .AlreadyExists) ∨
      (fs.files.get name = none ∧ out = .created name ∧
        fs1 = updateAnalytics
          { fs with
            fileObjs := fs.fileObjs ++ [createdFile t1 t2 t3],
            files := fs.files.put name (some fs.fileObjs.length) }
          name (createdFile t1 t2 t3)) := by
  cases hg : fs.files.get name with
  | some p =>
    rw [createFile_existing hg] at h
    cases h; exact Or.inl ⟨rfl, rfl⟩
  | none =>
    rw [createFile_fresh hg] at h
    cases h; exact Or.inr ⟨rfl, rfl, rfl⟩

/-- `readFile` returns the store as it was. -/
theorem readFile_state {fs fs1 : FileSystem} {out : Output} {name : String}
    (h : fs.readFile name = some (fs1, out)) : fs1 = fs := by
  simp only [readFile] at h
  repeat' split at h
  all_goals first
    | (cases h; rfl)
    | cases h

/-- `showHistory` returns the store as it was. -/
theorem showHistory_state {fs fs1 : FileSystem} {out : Output} {name : String} {fuel : Nat}
    (h : fs.showHistory fuel name = some (fs1, out)) : fs1 = fs := by
  simp only [showHistory] at h
  repeat' split at h
  all_goals first
    | (cases h; rfl)
    | cases h

/-- In a well-formed file the parent links lead from every cell to cell 0. -/
theorem ancestorAt_root {file : File} (h : FileWF file) (a : Nat)
    (ha : a < file.nodes.length) : ∃ k, k ≤ a ∧ file.ancestorAt k (some a) = some 0 := by
  induction a using Nat.strong_induction_on with
  | _ a ih =>
    rcases Nat.eq_zero_or_pos a with h0 | hpos
    · subst h0; exact ⟨0, Nat.le_refl 0, rfl⟩
    · have hcell : file.nodes[a]? = some (file.nodes[a]) := List.getElem?_eq_getElem ha
      obtain ⟨p, hp1, hp2⟩ := h.parent_lt a _ hpos hcell
      obtain ⟨k, hk1, hk2⟩ := ih p hp2 (by omega)
      refine ⟨k + 1, by omega, ?_⟩
      simp only [File.ancestorAt, File.node, hcell, hp1]
      exact hk2

theorem parentWalk_none (file : File) (fuel : Nat) : file.parentWalk fuel none = [] := by
  cases fuel <;> rfl

/-- With enough fuel the walk from a cell of a well-formed file is the cell followed by
the walk from its parent, whatever the fuel. -/
theorem parentWalk_stable {file : File} (h : FileWF file) (a : Nat) :
    ∀ fuel n, a < fuel → file.nodes[a]? = some n →
      file.parentWalk fuel (some a) = a :: file.walk n.parent := by
  induction a using Nat.strong_induction_on with
  | _ a ih =>
    intro fuel n hfuel hn
    have hlen := lt_of_getElem?_eq_some hn
    obtain ⟨k, rfl⟩ : ∃ k, fuel = k + 1 := ⟨fuel - 1, by omega⟩
    simp only [File.parentWalk, hn]
    congr 1
    rcases Nat.eq_zero_or_pos a with h0 | hpos
    · subst h0
      rw [h.root_parent n hn, File.walk, parentWalk_none, parentWalk_none]
    · obtain ⟨p, hp1, hp2⟩ := h.parent_lt a n hpos hn
      have hpl : p < file.nodes.length := by omega
      have hcell : file.nodes[p]? = some (file.nodes[p]) := List.getElem?_eq_getElem hpl
      rw [hp1, File.walk, ih p hp2 k _ (by omega) hcell, ih p hp2 _ _ hpl hcell]

theorem walk_cons {file : File} (h : FileWF file) {a : Nat} {n : TreeNode}
    (hn : file.nodes[a]? = some n) : file.walk (some a) = a :: file.walk n.parent :=
  parentWalk_stable h a _ n (lt_of_getElem?_eq_some hn) hn

theorem walk_none (file : File) : file.walk none = [] := parentWalk_none file _

/-- The loop of `showHistory` collects, after what it was given, the frozen cells of the
walk from its starting point, provided the fuel exceeds the starting address. -/
theorem historyLoop_eq {file : File} (h : FileWF file) (a : Nat) :
    ∀ fuel n acc, a < fuel → file.nodes[a]? = some n →
      historyLoop file.nodes fuel (some a) acc =
        some (acc ++ (file.walk (some a)).filter file.frozenAt) := by
  induction a using Nat.strong_induction_on with
  | _ a ih =>
    intro fuel n acc hfuel hn
    obtain ⟨k, rfl⟩ : ∃ k, fuel = k + 1 := ⟨fuel - 1, by omega⟩
    have hfr : file.frozenAt a = n.isSnapshot := by simp [File.frozenAt, hn]
    rw [walk_cons h hn]
    simp only [historyLoop, hn, List.filter_cons, hfr]
    rcases Nat.eq_zero_or_pos a with h0 | hpos
    · subst h0
      rw [h.root_parent n hn, walk_none]
      cases n.isSnapshot <;> cases k <;> simp [historyLoop]
    · obtain ⟨p, hp1, hp2⟩ := h.parent_lt a n hpos hn
      have hpl : p < file.nodes.length := by
        have := lt_of_getElem?_eq_some hn; omega
      have hcell : file.nodes[p]? = some (file.nodes[p]) := List.getElem?_eq_getElem hpl
      rw [hp1, ih p hp2 k _ _ (by omega) hcell]
      cases n.isSnapshot <;> simp

theorem walk_pos {file : File} (h : FileWF file) {a : Nat} (ha : a < file.nodes.length) :
    0 < (file.walk (some a)).length := by
  rw [walk_cons h (List.getElem?_eq_getElem ha)]
  simp

/-- The shape of the walk from a cell of a well-formed file: it ends at cell 0, each cell
is followed by its parent, the addresses do not exceed the start, the walks of its members
are no longer than it, its length less one is the number of steps to the root, and the
depth decreases strictly along it. -/
theorem walk_props {file : File} (h : FileWF file) (a : Nat) :
    a < file.nodes.length →
      (file.walk (some a)).getLast? = some 0 ∧
      List.Chain' (fun x y => ∃ n, file.nodes[x]? = some n ∧ n.parent = some y)
        (file.walk (some a)) ∧
      (∀ x ∈ file.walk (some a), x ≤ a) ∧
      (∀ y ∈ file.walk (some a),
        (file.walk (some y)).length ≤ (file.walk (some a)).length) ∧
      file.ancestorAt ((file.walk (some a)).length - 1) (some a) = some 0 ∧
      List.Pairwise (fun x y => file.depth x > file.depth y) (file.walk (some a)) := by
  induction a using Nat.strong_induction_on with
  | _ a ih =>
    intro ha
    have hn : file.nodes[a]? = some (file.nodes[a]) := List.getElem?_eq_getElem ha
    rcases Nat.eq_zero_or_pos a with h0 | hpos
    · subst h0
      rw [walk_cons h hn, h.root_parent _ hn, walk_none]
      refine ⟨rfl, List.chain'_singleton _, ?_, ?_, rfl, List.pairwise_singleton _ _⟩
      · intro x hx; simp at hx; omega
      · intro y hy
        simp at hy; subst hy
        rw [walk_cons h hn, h.root_parent _ hn, walk_none]
    · obtain ⟨p, hp1, hp2⟩ := h.parent_lt a _ hpos hn
      have hpl : p < file.nodes.length := by omega
      have hpn : file.nodes[p]? = some (file.nodes[p]) := List.getElem?_eq_getElem hpl
      obtain ⟨i1, i2, i3, i4, i5, i6⟩ := ih p hp2 hpl
      have hwa : file.walk (some a) = a :: file.walk (some p) := by
        rw [walk_cons h hn, hp1]
      have hwp : file.walk (some p) = p :: file.walk (file.nodes[p]).parent := walk_cons h hpn
      have hppos := walk_pos h hpl
      rw [hwa]
      refine ⟨?_, ?_, ?_, ?_, ?_, ?_⟩
      · rw [hwp, List.getLast?_cons_cons, ← hwp]; exact i1
      · rw [hwp, List.chain'_cons, ← hwp]
        exact ⟨⟨_, hn, hp1⟩, i2⟩
      · intro x hx
        rcases List.mem_cons.mp hx with hxa | hxw
        · omega
        · have := i3 x hxw; omega
      · intro y hy
        rcases List.mem_cons.mp hy with hya | hyw
        · subst hya; rw [hwa]
        · have := i4 y hyw
          simp only [List.length_cons]; omega
      · obtain ⟨k, hk⟩ : ∃ k, (file.walk (some p)).length = k + 1 :=
          ⟨(file.walk (some p)).length - 1, by omega⟩
        simp only [List.length_cons, Nat.add_sub_cancel, hk]
        simp only [File.ancestorAt, File.node, hn, hp1]
        rw [hk] at i5
        exact i5
      · refine List.pairwise_cons.mpr ⟨?_, i6⟩
        intro y hy
        have hyl : y < file.nodes.length := by have := i3 y hy; omega
        have h1 := i4 y hy
        have h2 := walk_pos h hyl
        simp only [File.depth, hwa, List.length_cons, Nat.add_sub_cancel]
        omega

/-- The printing loop of `showHistory` prints the line of every cell it is given when
these are allocated cells. -/
theorem historyLines_eq (file : File) (l : List Nat)
    (hl : ∀ x ∈ l, x < file.nodes.length) :
    historyLines file.nodes l = some (l.filterMap file.lineAt) ∧
      (l.filterMap file.lineAt).length = l.length := by
  induction l with
  | nil => exact ⟨rfl, rfl⟩
  | cons a l ih =>
    have ha : a < file.nodes.length := hl a (List.mem_cons_self a l)
    have hn : file.nodes[a]? = some (file.nodes[a]) := List.getElem?_eq_getElem ha
    obtain ⟨ih1, ih2⟩ := ih (fun x hx => hl x (List.mem_cons_of_mem a hx))
    have hline : file.lineAt a = some
        ((file.nodes[a]).version_id, (file.nodes[a]).snapshot_timestamp,
          (file.nodes[a]).message) := by
      simp [File.lineAt, hn]
    constructor
    · simp only [historyLines, hn, ih1, List.filterMap_cons, hline]
    · simp only [List.filterMap_cons, hline, List.length_cons, ih2]

/-- The lines printed for allocated cells of a well-formed file carry the addresses of
the cells as version ids. -/
theorem lineAt_ids {file : File} (h : FileWF file) (l : List Nat)
    (hl : ∀ x ∈ l, x < file.nodes.length) :
    (l.filterMap file.lineAt).map (fun line => line.1) = l.map Int.ofNat := by
  induction l with
  | nil => rfl
  | cons a l ih =>
    have ha : a < file.nodes.length := hl a (List.mem_cons_self a l)
    have hn : file.nodes[a]? = some (file.nodes[a]) := List.getElem?_eq_getElem ha
    have hline : file.lineAt a = some
        ((file.nodes[a]).version_id, (file.nodes[a]).snapshot_timestamp,
          (file.nodes[a]).message) := by
      simp [File.lineAt, hn]
    simp only [List.filterMap_cons, hline, List.map_cons,
      ih (fun x hx => hl x (List.mem_cons_of_mem a hx)), h.ids a _ hn]
    rfl

theorem showHistory_found {fs : FileSystem} {name : String} {a : Nat} {file : File}
    (hl : fs.lookup name = .found a file) (fuel : Nat) (path : List Nat)
    (lines : List (Int × time_t × String))
    (hp : historyLoop file.nodes fuel file.active_version [] = some path)
    (hlines : historyLines file.nodes path.reverse = some lines) :
    fs.showHistory fuel name = some (fs, .history name lines) := by
  simp [showHistory, hl, hp, hlines]

/-- The active version of a file, from its pointer and its cell. -/
theorem active?_eq {file : File} {av : Nat} {n : TreeNode}
    (hav : file.active_version = some av) (hn : file.nodes[av]? = some n) :
    file.active? = some n := by
  simp [File.active?, File.node, hav, hn]

end

end FileSystem

/-! ## The claims -/

open FileSystem

theorem reachable_storeA : Reachable storeA :=
  reachable_run [.createFile "a" 1 1 1] Reachable.init rfl

theorem reachable_storeHello : Reachable storeHello :=
  reachable_run [.createFile "a" 1 1 1, .insertContent "a" "hello" 2 2] Reachable.init rfl

/-- C1. In a reachable store, for an existing file and any payload, `insertContent` and
`updateContent` both succeed; when the active version is frozen before the call,
`total_versions` grows by exactly 1 and the id of the active version changes to the old
`total_versions`; when it is mutable, `total_versions` and the id of the active version
stay as they were. -/
theorem write_revision_count [StdHash String] [StdHash Int] (s : FileSystem)
    (hs : Reachable s) (f p : String) (t1 t2 : time_t) (F : File)
    (hF : s.file? f = some F) :
    ∃ n, F.active? = some n ∧
      (∃ s1 F1 n1, s.insertContent f p t1 t2 = some (s1, .silent) ∧
        s1.file? f = some F1 ∧ F1.active? = some n1 ∧
        (n.isSnapshot = true →
          F1.total_versions = F.total_versions + 1 ∧ n1.version_id = F.total_versions ∧
          n1.version_id ≠ n.version_id) ∧
        (n.isSnapshot = false →
          F1.total_versions = F.total_versions ∧ n1.version_id = n.version_id)) ∧
      (∃ s2 F2 n2, s.updateContent f p t1 t2 = some (s2, .silent) ∧
        s2.file? f = some F2 ∧ F2.active? = some n2 ∧
        (n.isSnapshot = true →
          F2.total_versions = F.total_versions + 1 ∧ n2.version_id = F.total_versions ∧
          n2.version_id ≠ n.version_id) ∧
        (n.isSnapshot = false →
          F2.total_versions = F.total_versions ∧ n2.version_id = n.version_id)) := by
  obtain ⟨a, hl⟩ := file?_eq_some.mp hF
  have hwf : FileWF F := (storeWF_of_reachable hs).file_wf a F (lookup_found hl).2
  obtain ⟨av, n, hav, hn, hlt⟩ := active_cell hwf
  have hid : F.total_versions ≠ n.version_id := by
    rw [hwf.total, hwf.ids av n hn]; omega
  refine ⟨n, active?_eq hav hn, ?_, ?_⟩
  · cases hsnap : n.isSnapshot with
    | true =>
      obtain ⟨h1, h2, h3, _⟩ := newVersion_facts hn (n.content ++ p) t1
      exact ⟨_, _, _, insertContent_frozen hl hav hn hsnap p t1 t2,
        file?_eq_some.mpr ⟨a, lookup_setFile hl _ _ _⟩, active?_eq h1 h2,
        fun _ => ⟨h3, rfl, hid⟩, fun hc => Bool.noConfusion hc⟩
    | false =>
      obtain ⟨h1, _, _⟩ := setNode_facts hn { n with content := n.content ++ p }
      exact ⟨_, _, _, insertContent_mutable hl hav hn hsnap p t1 t2,
        file?_eq_some.mpr ⟨a, lookup_setFile hl _ _ _⟩, active?_eq hav h1,
        fun hc => Bool.noConfusion hc, fun _ => ⟨rfl, rfl⟩⟩
  · cases hsnap : n.isSnapshot with
    | true =>
      obtain ⟨h1, h2, h3, _⟩ := newVersion_facts hn p t1
      exact ⟨_, _, _, updateContent_frozen hl hav hn hsnap p t1 t2,
        file?_eq_some.mpr ⟨a, lookup_setFile hl _ _ _⟩, active?_eq h1 h2,
        fun _ => ⟨h3, rfl, hid⟩, fun hc => Bool.noConfusion hc⟩
    | false =>
      obtain ⟨h1, _, _⟩ := setNode_facts hn { n with content := p }
      exact ⟨_, _, _, updateContent_mutable hl hav hn hsnap p t1 t2,
        file?_eq_some.mpr ⟨a, lookup_setFile hl _ _ _⟩, active?_eq hav h1,
        fun hc => Bool.noConfusion hc, fun _ => ⟨rfl, rfl⟩⟩

/-- Witness of C1, the scenario of the specification: after `createFile a` the root is
frozen, so `insert a hello` creates the node with id 1 (two versions); the active version
is then mutable, so `insert a world` creates no node. -/
theorem write_revision_count_witness :
    Reachable storeA ∧ storeA.file? "a" = some (createdFile 1 1 1) ∧
    Reachable storeHello ∧ storeHello.file? "a" = some fileHello ∧
    (∃ s1 F1 n1, storeA.insertContent "a" "hello" 2 2 = some (s1, .silent) ∧
      s1.file? "a" = some F1 ∧ F1.active? = some n1 ∧
      F1.total_versions = 2 ∧ n1.version_id = 1) ∧
    (∃ s2 F2 n2, storeHello.insertContent "a" " world" 3 3 = some (s2, .silent) ∧
      s2.file? "a" = some F2 ∧ F2.active? = some n2 ∧
      F2.total_versions = 2 ∧ n2.version_id = 1) := by
  refine ⟨reachable_storeA, rfl, reachable_storeHello, rfl, ?_, ?_⟩
  · obtain ⟨n, hn, ⟨s1, F1, n1, h1, h2, h3, h4, _⟩, _⟩ :=
      write_revision_count storeA reachable_storeA "a" "hello" 2 2 (createdFile 1 1 1) rfl
    have hn2 : some n = (createdFile 1 1 1).active? := hn.symm
    have hsnap : n.isSnapshot = true := by
      have h0 : (createdFile 1 1 1).active? = some
          { TreeNode.new 0 "" none 1 with
            snapshot_timestamp := 1, message := "Initial snapshot" } := rfl
      rw [h0] at hn2; cases hn2; rfl
    obtain ⟨h5, h6, _⟩ := h4 hsnap
    exact ⟨s1, F1, n1, h1, h2, h3, h5, h6⟩
  · obtain ⟨n, hn, ⟨s2, F2, n2, h1, h2, h3, _, h4⟩, _⟩ :=
      write_revision_count storeHello reachable_storeHello "a" " world" 3 3 fileHello rfl
    have hn2 : some n = fileHello.active? := hn.symm
    have h0 : fileHello.active? = some
        { TreeNode.new 1 "" none 2 with content := "hello", parent := some 0 } := rfl
    rw [h0] at hn2; cases hn2
    obtain ⟨h5, h6⟩ := h4 rfl
    exact ⟨s2, F2, n2, h1, h2, h3, h5, h6⟩

/-- What `newVersion` leaves, as a `ChildWrite`; the later store to `last_modified` does not
touch the cells. -/
theorem childWrite_newVersion [StdHash Int] {F : File} {av : Nat} {n : TreeNode}
    (hn : F.nodes[av]? = some n) (cont : String) (t1 t2 : time_t) :
    ChildWrite F { FileSystem.newVersion F av n cont t1 with last_modified := t2 } av n
      cont := by
  obtain ⟨h1, h2, _, h4, h5, h6⟩ := FileSystem.newVersion_facts hn cont t1
  exact ⟨_, _, h4, rfl, h1, h2, rfl, rfl, rfl, rfl, rfl, h6, h5⟩

/-- What the store to the active cell leaves, as an `InPlaceWrite`. -/
theorem inPlaceWrite_setNode {F : File} {av : Nat} {n : TreeNode}
    (hav : F.active_version = some av) (hn : F.nodes[av]? = some n) (cont : String)
    (t2 : time_t) :
    InPlaceWrite F { F.setNode av { n with content := cont } with last_modified := t2 } av n
      cont := by
  obtain ⟨h1, h2, h3⟩ := FileSystem.setNode_facts hn { n with content := cont }
  exact ⟨hav, h1, h3, h2⟩

/-- C2. In a reachable store, for an existing file whose active version holds content `c`
and any payload `p`: after `insertContent` the content read from the file is `c ++ p`, after
`updateContent` it is exactly `p`, whether the active version was frozen or mutable; and when
it was frozen, the cell of the former active version still holds `c` afterwards, because the
edit went to a new child of it (`ChildWrite`: the new active version is a new cell whose
parent is the former active version, which gained exactly that child pointer); when it was
mutable the edit was made in place and no cell was added (`InPlaceWrite`). -/
theorem write_content [StdHash String] [StdHash Int] (s : FileSystem)
    (hs : Reachable s) (f p : String) (t1 t2 : time_t) (F : File)
    (hF : s.file? f = some F) :
    ∃ av n, F.active_version = some av ∧ F.nodes[av]? = some n ∧
      s.readFile f = some (s, .content n.content) ∧
      (∃ s1 F1, s.insertContent f p t1 t2 = some (s1, .silent) ∧
        s1.readFile f = some (s1, .content (n.content ++ p)) ∧
        s1.file? f = some F1 ∧
        (n.isSnapshot = true → ∃ m, F1.nodes[av]? = some m ∧ m.content = n.content) ∧
        (n.isSnapshot = true → ChildWrite F F1 av n (n.content ++ p)) ∧
        (n.isSnapshot = false → InPlaceWrite F F1 av n (n.content ++ p))) ∧
      (∃ s2 F2, s.updateContent f p t1 t2 = some (s2, .silent) ∧
        s2.readFile f = some (s2, .content p) ∧
        s2.file? f = some F2 ∧
        (n.isSnapshot = true → ∃ m, F2.nodes[av]? = some m ∧ m.content = n.content) ∧
        (n.isSnapshot = true → ChildWrite F F2 av n p) ∧
        (n.isSnapshot = false → InPlaceWrite F F2 av n p)) := by
  obtain ⟨a, hl⟩ := file?_eq_some.mp hF
  have hwf : FileWF F := (storeWF_of_reachable hs).file_wf a F (lookup_found hl).2
  obtain ⟨av, n, hav, hn, hlt⟩ := active_cell hwf
  refine ⟨av, n, hav, hn, readFile_found hl hav hn, ?_, ?_⟩
  · cases hsnap : n.isSnapshot with
    | true =>
      obtain ⟨h1, h2, _, h4, _⟩ := newVersion_facts hn (n.content ++ p) t1
      exact ⟨_, _, insertContent_frozen hl hav hn hsnap p t1 t2,
        readFile_setFile hl
          { newVersion F av n (n.content ++ p) t1 with last_modified := t2 } _ _ h1 h2,
        file?_eq_some.mpr ⟨a, lookup_setFile hl _ _ _⟩, (fun _ => ⟨_, h4, rfl⟩),
        (fun _ => childWrite_newVersion hn (n.content ++ p) t1 t2),
        (fun hc => Bool.noConfusion hc)⟩
    | false =>
      obtain ⟨h1, _, _⟩ := setNode_facts hn { n with content := n.content ++ p }
      exact ⟨_, _, insertContent_mutable hl hav hn hsnap p t1 t2,
        readFile_setFile hl
          { F.setNode av { n with content := n.content ++ p } with last_modified := t2 }
          _ _ hav h1,
        file?_eq_some.mpr ⟨a, lookup_setFile hl _ _ _⟩, (fun hc => Bool.noConfusion hc),
        (fun hc => Bool.noConfusion hc),
        (fun _ => inPlaceWrite_setNode hav hn (n.content ++ p) t2)⟩
  · cases hsnap : n.isSnapshot with
    | true =>
      obtain ⟨h1, h2, _, h4, _⟩ := newVersion_facts hn p t1
      exact ⟨_, _, updateContent_frozen hl hav hn hsnap p t1 t2,
        readFile_setFile hl { newVersion F av n p t1 with last_modified := t2 } _ _ h1 h2,
        file?_eq_some.mpr ⟨a, lookup_setFile hl _ _ _⟩, (fun _ => ⟨_, h4, rfl⟩),
        (fun _ => childWrite_newVersion hn p t1 t2),
        (fun hc => Bool.noConfusion hc)⟩
    | false =>
      obtain ⟨h1, _, _⟩ := setNode_facts hn { n with content := p }
      exact ⟨_, _, updateContent_mutable hl hav hn hsnap p t1 t2,
        readFile_setFile hl
          { F.setNode av { n with content := p } with last_modified := t2 } _ _ hav h1,
        file?_eq_some.mpr ⟨a, lookup_setFile hl _ _ _⟩, (fun hc => Bool.noConfusion hc),
        (fun hc => Bool.noConfusion hc),
        (fun _ => inPlaceWrite_setNode hav hn p t2)⟩

/-- Witness of C2 on both branches. On the store after `createFile a`, whose active version
is the frozen root (cell 0, content empty): `insert a hello` reads back `hello`, the new
active version is the new cell 1 with parent 0, and the root still holds the empty content
and has the child pointer 1. On the store after `createFile a; insert a hello`, whose active
version is the mutable node 1 holding `hello`: appending ` world` reads back `hello world`
and replacing by `x` reads back `x`, both in the cell 1, with still two cells. -/
theorem write_content_witness :
    Reachable storeA ∧ storeA.file? "a" = some (FileSystem.createdFile 1 1 1) ∧
    storeA.readFile "a" = some (storeA, .content "") ∧
    (∃ s1 F1 m child, storeA.insertContent "a" "hello" 2 2 = some (s1, .silent) ∧
      s1.readFile "a" = some (s1, .content "hello") ∧ s1.file? "a" = some F1 ∧
      F1.nodes[0]? = some m ∧ m.content = "" ∧ m.children = [some 1] ∧
      F1.active_version = some 1 ∧ F1.nodes[1]? = some child ∧
      child.parent = some 0 ∧ child.content = "hello" ∧ F1.nodes.length = 2) ∧
    Reachable storeHello ∧ storeHello.file? "a" = some fileHello ∧
    storeHello.readFile "a" = some (storeHello, .content "hello") ∧
    (∃ s1 F1 m, storeHello.insertContent "a" " world" 3 3 = some (s1, .silent) ∧
      s1.readFile "a" = some (s1, .content "hello world") ∧ s1.file? "a" = some F1 ∧
      F1.active_version = some 1 ∧ F1.nodes[1]? = some m ∧ m.content = "hello world" ∧
      F1.nodes.length = 2) ∧
    (∃ s2, storeHello.updateContent "a" "x" 3 3 = some (s2, .silent) ∧
      s2.readFile "a" = some (s2, .content "x")) := by
  refine ⟨reachable_storeA, rfl, ?_, ?_, reachable_storeHello, rfl, ?_, ?_, ?_⟩
  · obtain ⟨av, n, hav, hn, h0, _⟩ :=
      write_content storeA reachable_storeA "a" "hello" 2 2 (FileSystem.createdFile 1 1 1) rfl
    have hav2 : (FileSystem.createdFile 1 1 1).active_version = some 0 := rfl
    rw [hav2] at hav; cases hav
    have hn2 : (FileSystem.createdFile 1 1 1).nodes[0]? = some
        { TreeNode.new 0 "" none 1 with
          snapshot_timestamp := 1, message := "Initial snapshot" } := rfl
    rw [hn2] at hn; cases hn
    exact h0
  · obtain ⟨av, n, hav, hn, _, ⟨s1, F1, h1, h2, h3, _, h5, _⟩, _⟩ :=
      write_content storeA reachable_storeA "a" "hello" 2 2 (FileSystem.createdFile 1 1 1) rfl
    have hav2 : (FileSystem.createdFile 1 1 1).active_version = some 0 := rfl
    rw [hav2] at hav; cases hav
    have hn2 : (FileSystem.createdFile 1 1 1).nodes[0]? = some
        { TreeNode.new 0 "" none 1 with
          snapshot_timestamp := 1, message := "Initial snapshot" } := rfl
    rw [hn2] at hn; cases hn
    obtain ⟨m, child, c1, c2, c3, c4, c5, c6, _, _, _, c10, _⟩ := h5 rfl
    exact ⟨s1, F1, m, child, h1, h2, h3, c1, (by rw [c2]; rfl), (by rw [c2]; rfl), c3, c4, c5,
      c6,
      c10⟩
  · obtain ⟨av, n, hav, hn, h0, _⟩ :=
      write_content storeHello reachable_storeHello "a" " world" 3 3 fileHello rfl
    have hav2 : fileHello.active_version = some 1 := rfl
    rw [hav2] at hav; cases hav
    have hn2 : fileHello.nodes[1]? = some
        { TreeNode.new 1 "" none 2 with content := "hello", parent := some 0 } := rfl
    rw [hn2] at hn; cases hn
    exact h0
  · obtain ⟨av, n, hav, hn, _, ⟨s1, F1, h1, h2, h3, _, _, h6⟩, _⟩ :=
      write_content storeHello reachable_storeHello "a" " world" 3 3 fileHello rfl
    have hav2 : fileHello.active_version = some 1 := rfl
    rw [hav2] at hav; cases hav
    have hn2 : fileHello.nodes[1]? = some
        { TreeNode.new 1 "" none 2 with content := "hello", parent := some 0 } := rfl
    rw [hn2] at hn; cases hn
    obtain ⟨c1, c2, c3, _⟩ := h6 rfl
    exact ⟨s1, F1, _, h1, h2, h3, c1, c2, rfl, c3⟩
  · obtain ⟨av, n, hav, hn, _, _, ⟨s2, _, h3, h4, _⟩⟩ :=
      write_content storeHello reachable_storeHello "a" "x" 3 3 fileHello rfl
    have hav2 : fileHello.active_version = some 1 := rfl
    rw [hav2] at hav; cases hav
    have hn2 : fileHello.nodes[1]? = some
        { TreeNode.new 1 "" none 2 with content := "hello", parent := some 0 } := rfl
    rw [hn2] at hn; cases hn
    exact ⟨s2, h3, h4⟩

/-- C3. Frozen nodes are immutable. In every store state (in particular in every reachable
one), for every file cell `fa` and node cell `na` holding a frozen node, and for every call
of every operation with any arguments, the same cell holds after the call a node with the
same content, message and snapshot timestamp. -/
theorem frozen_immutable [StdHash String] [StdHash Int] (s s1 : FileSystem) (op : Op)
    (out : Output) (hstep : step s op = some (s1, out)) (fa na : Nat) (F : File)
    (n : TreeNode) (hF : s.fileObjs[fa]? = some F) (hn : F.nodes[na]? = some n)
    (hfrozen : n.isSnapshot = true) :
    ∃ F1 n1, s1.fileObjs[fa]? = some F1 ∧ F1.nodes[na]? = some n1 ∧
      n1.content = n.content ∧ n1.message = n.message ∧
      n1.snapshot_timestamp = n.snapshot_timestamp := by
  have same : ∃ F1 n1, s.fileObjs[fa]? = some F1 ∧ F1.nodes[na]? = some n1 ∧
      n1.content = n.content ∧ n1.message = n.message ∧
      n1.snapshot_timestamp = n.snapshot_timestamp := ⟨F, n, hF, hn, rfl, rfl, rfl⟩
  cases op with
  | createFile f t1 t2 t3 =>
    rcases createFile_cases hstep with ⟨h1, _⟩ | ⟨_, _, h1⟩
    · rw [h1]; exact same
    · rw [h1]
      refine ⟨F, n, ?_, hn, rfl, rfl, rfl⟩
      show (s.fileObjs ++ [_])[fa]? = some F
      rw [List.getElem?_append_left (lt_of_getElem?_eq_some hF)]
      exact hF
  | readFile f => rw [readFile_state hstep]; exact same
  | insertContent f c t1 t2 =>
    rcases insertContent_cases hstep with ⟨h1, _⟩ | ⟨a, file, av, active, hl, hav, hact⟩
    · rw [h1]; exact same
    · simp only [step] at hstep
      rw [insertContent_found hl hav hact] at hstep
      cases hstep
      exact cells_kept_setFile hl _ _ _
        (fun n1 n => n1.content = n.content ∧ n1.message = n.message ∧
          n1.snapshot_timestamp = n.snapshot_timestamp)
        (fun _ => ⟨rfl, rfl, rfl⟩) fa na F n hF hn
        (fun h => write_keeps_frozen hact _ _ t1 t2 na n h hfrozen)
  | updateContent f c t1 t2 =>
    rcases updateContent_cases hstep with ⟨h1, _⟩ | ⟨a, file, av, active, hl, hav, hact⟩
    · rw [h1]; exact same
    · simp only [step] at hstep
      rw [updateContent_found hl hav hact] at hstep
      cases hstep
      exact cells_kept_setFile hl _ _ _
        (fun n1 n => n1.content = n.content ∧ n1.message = n.message ∧
          n1.snapshot_timestamp = n.snapshot_timestamp)
        (fun _ => ⟨rfl, rfl, rfl⟩) fa na F n hF hn
        (fun h => write_keeps_frozen hact _ _ t1 t2 na n h hfrozen)
  | createSnapshot f m t1 t2 =>
    rcases createSnapshot_cases hstep with ⟨h1, _⟩ | ⟨a, file, av, active, hl, hav, hact⟩
    · rw [h1]; exact same
    · simp only [step] at hstep
      rw [createSnapshot_found hl hav hact] at hstep
      cases hsnap : active.isSnapshot with
      | true =>
        rw [hsnap] at hstep
        simp only [if_true] at hstep
        cases hstep; exact same
      | false =>
        rw [hsnap] at hstep
        simp only [Bool.false_eq_true, if_false] at hstep
        cases hstep
        refine cells_kept_setFile hl _ _ _
          (fun n1 n => n1.content = n.content ∧ n1.message = n.message ∧
            n1.snapshot_timestamp = n.snapshot_timestamp)
          (fun _ => ⟨rfl, rfl, rfl⟩) fa na F n hF hn ?_
        intro h
        obtain ⟨_, h2, _⟩ := setNode_facts hact
          { active with snapshot_timestamp := t1, message := m }
        by_cases hb : na = av
        · subst hb
          rw [hact] at h; cases h
          rw [hsnap] at hfrozen; cases hfrozen
        · exact ⟨n, (h2 na hb).trans h, rfl, rfl, rfl⟩
  | rollback f v t =>
    rcases rollback_cases hstep with ⟨h1, _⟩ | ⟨a, file, target, hl, h1⟩
    · rw [h1]; exact same
    · simp only [rollbackTo, Prod.mk.injEq] at h1
      rw [h1.1]
      exact cells_kept_setFile hl _ _ _
        (fun n1 n => n1.content = n.content ∧ n1.message = n.message ∧
          n1.snapshot_timestamp = n.snapshot_timestamp)
        (fun _ => ⟨rfl, rfl, rfl⟩) fa na F n hF hn
        (fun h => ⟨n, h, rfl, rfl, rfl⟩)
  | showHistory fuel f => rw [showHistory_state hstep]; exact same
  | showRecentFiles k =>
    simp only [step, showRecentFiles] at hstep
    cases hstep; exact same
  | showBiggestTrees k =>
    simp only [step, showBiggestTrees] at hstep
    cases hstep; exact same

/-- Witness of C3: `insert a hello` on the store after `createFile a` leaves the frozen
root (file cell 0, node cell 0) with its content, message and snapshot timestamp. -/
theorem frozen_immutable_witness :
    step storeA (.insertContent "a" "hello" 2 2) = some (storeHello, .silent) ∧
    storeA.fileObjs[0]? = some (createdFile 1 1 1) ∧
    (createdFile 1 1 1).nodes[0]? = some
      { TreeNode.new 0 "" none 1 with
        snapshot_timestamp := 1, message := "Initial snapshot" } ∧
    ∃ F1 n1, storeHello.fileObjs[0]? = some F1 ∧ F1.nodes[0]? = some n1 ∧
      n1.content = "" ∧ n1.message = "Initial snapshot" ∧ n1.snapshot_timestamp = 1 :=
  ⟨rfl, rfl, rfl,
    frozen_immutable storeA storeHello (.insertContent "a" "hello" 2 2) .silent (by rfl) 0 0
      (createdFile 1 1 1)
      { TreeNode.new 0 "" none 1 with
        snapshot_timestamp := 1, message := "Initial snapshot" } (by rfl) (by rfl) (by rfl)⟩

theorem reachable_storeRolled : Reachable storeRolled :=
  reachable_run
    [.createFile "a" 1 1 1, .insertContent "a" "hello" 2 2, .rollback "a" 0 3]
    Reachable.init rfl

/-- C4. In every reachable store and for every file, the active version is not null, the
root is the node with id 0, and following parent links from the active version reaches the
root after finitely many steps (`k` of them). As rollback is one of the calls, this holds
in particular in the store left by a rollback to any registered id. -/
theorem active_reaches_root [StdHash String] [StdHash Int] (s : FileSystem)
    (hs : Reachable s) (f : String) (F : File) (hF : s.file? f = some F) :
    (∃ av r k, F.active_version = some av ∧ F.node F.root = some r ∧ r.version_id = 0 ∧
      F.ancestorAt k (some av) = F.root) ∧
    (∀ (v : Int) (t : time_t) (s1 : FileSystem) (out : Output) (F1 : File),
      s.rollback f v t = some (s1, out) → s1.file? f = some F1 →
      ∃ av r k, F1.active_version = some av ∧ F1.node F1.root = some r ∧
        r.version_id = 0 ∧ F1.ancestorAt k (some av) = F1.root) := by
  have main : ∀ (s : FileSystem), Reachable s → ∀ F, s.file? f = some F →
      ∃ av r k, F.active_version = some av ∧ F.node F.root = some r ∧ r.version_id = 0 ∧
        F.ancestorAt k (some av) = F.root := by
    intro s hs F hF
    obtain ⟨a, hl⟩ := file?_eq_some.mp hF
    have hwf : FileWF F := (storeWF_of_reachable hs).file_wf a F (lookup_found hl).2
    obtain ⟨av, hav, hlt⟩ := hwf.active_lt
    obtain ⟨k, _, hk⟩ := ancestorAt_root hwf av hlt
    have hroot : F.nodes[0]? = some (F.nodes[0]) := List.getElem?_eq_getElem hwf.pos
    refine ⟨av, F.nodes[0], k, hav, ?_, ?_, ?_⟩
    · rw [hwf.root_eq]; exact hroot
    · simpa using hwf.ids 0 _ hroot
    · rw [hwf.root_eq]; exact hk
  refine ⟨main s hs F hF, ?_⟩
  intro v t s1 out F1 hr hF1
  exact main s1 (Reachable.step (.rollback f v t) hs hr) F1 hF1

/-- Witness of C4 on the store after `createFile a; insert a hello; rollback a 0`. -/
theorem active_reaches_root_witness :
    Reachable storeRolled ∧ storeRolled.file? "a" = some fileRolled ∧
    ∃ av r k, fileRolled.active_version = some av ∧ fileRolled.node fileRolled.root = some r ∧
      r.version_id = 0 ∧ fileRolled.ancestorAt k (some av) = fileRolled.root :=
  ⟨reachable_storeRolled, by rfl,
    (active_reaches_root storeRolled reachable_storeRolled "a" fileRolled (by rfl)).1⟩

theorem reachable_storeZero : Reachable storeZero :=
  reachable_run [.createFile "a" 0 0 0] Reachable.init rfl

/-- Counterexample to C5 as stated (every pair of clock readings). While the clock reads 0,
`createFile a` and then `snapshot a m1` succeed; the `snapshot a m2` that follows at once,
at clock reading 1, does not fail with AlreadyFrozen: it succeeds and overwrites the
message and timestamp of the first snapshot. -/
theorem snapshot_twice_counterexample :
    Reachable storeZero ∧
    storeZero.createSnapshot "a" "m1" 0 0 = some (storeSnapZero, .silent) ∧
    activeStamp storeSnapZero "a" = some ("m1", 0) ∧
    (∃ s2, storeSnapZero.createSnapshot "a" "m2" 1 1 = some (s2, .silent) ∧
      activeStamp s2 "a" = some ("m2", 1)) ∧
    ¬ ∃ s2, storeSnapZero.createSnapshot "a" "m2" 1 1 = some (s2, .error .AlreadyFrozen) := by
  have h2 : ∃ s2, storeSnapZero.createSnapshot "a" "m2" 1 1 = some (s2, .silent) ∧
      activeStamp s2 "a" = some ("m2", 1) := ⟨_, rfl, rfl⟩
  refine ⟨reachable_storeZero, rfl, rfl, h2, ?_⟩
  rintro ⟨s3, h3⟩
  obtain ⟨s2, h4, _⟩ := h2
  rw [h4] at h3
  have h5 := congrArg (fun o => Option.map Prod.snd o) h3
  simp at h5

/-- C5, amended. For every store, file name, pair of messages and clock readings such that
the first snapshot is taken at a nonzero clock reading: when `createSnapshot f m1` succeeds
and `createSnapshot f m2` follows it at once, the second call fails with AlreadyFrozen and
returns the store as the first call left it, with the message and timestamp of the first
snapshot in place. And `createSnapshot` fails with AlreadyFrozen exactly when the file
exists and its active version is a snapshot. -/
theorem snapshot_twice [StdHash String] [StdHash Int] (s : FileSystem) (f m1 m2 : String)
    (tS1 tM1 tS2 tM2 : time_t) :
    (∀ s1, tS1 ≠ 0 → s.createSnapshot f m1 tS1 tM1 = some (s1, .silent) →
      s1.createSnapshot f m2 tS2 tM2 = some (s1, .error .AlreadyFrozen) ∧
      activeStamp s1 f = some (m1, tS1)) ∧
    ((∃ s1, s.createSnapshot f m1 tS1 tM1 = some (s1, .error .AlreadyFrozen)) ↔
      ∃ F n, s.file? f = some F ∧ F.active? = some n ∧ n.isSnapshot = true) := by
  constructor
  · intro s1 hnz h1
    rcases createSnapshot_cases h1 with ⟨_, hc⟩ | ⟨a, file, av, active, hl, hav, hact⟩
    · cases hc
    · rw [createSnapshot_found hl hav hact] at h1
      cases hsnap : active.isSnapshot with
      | true =>
        rw [hsnap] at h1
        simp only [if_true, Option.some.injEq, Prod.mk.injEq] at h1
        have := h1.2; cases this
      | false =>
        rw [hsnap] at h1
        simp only [Bool.false_eq_true, if_false, Option.some.injEq, Prod.mk.injEq] at h1
        obtain ⟨h1, _⟩ := h1
        obtain ⟨hcell, _, _⟩ := setNode_facts hact
          { active with snapshot_timestamp := tS1, message := m1 }
        have hl1 := lookup_setFile hl
          { file.setNode av { active with snapshot_timestamp := tS1, message := m1 } with
            last_modified := tM1 }
          { file.setNode av { active with snapshot_timestamp := tS1, message := m1 } with
            last_modified := tM1 } f
        rw [h1] at hl1
        have hfrozen : TreeNode.isSnapshot
            { active with snapshot_timestamp := tS1, message := m1 } = true := by
          simp [TreeNode.isSnapshot, hnz]
        constructor
        · rw [createSnapshot_found hl1 hav hcell, if_pos hfrozen]
        · have hact2 : File.active?
              { file.setNode av { active with snapshot_timestamp := tS1, message := m1 } with
                last_modified := tM1 } =
              some { active with snapshot_timestamp := tS1, message := m1 } :=
            active?_eq hav hcell
          simp only [activeStamp, file?_eq_some.mpr ⟨a, hl1⟩, hact2]
  · constructor
    · rintro ⟨s1, h1⟩
      rcases createSnapshot_cases h1 with ⟨_, hc⟩ | ⟨a, file, av, active, hl, hav, hact⟩
      · cases hc
      · refine ⟨file, active, file?_eq_some.mpr ⟨a, hl⟩, active?_eq hav hact, ?_⟩
        rw [createSnapshot_found hl hav hact] at h1
        cases hsnap : active.isSnapshot with
        | true => rfl
        | false =>
          rw [hsnap] at h1
          simp only [Bool.false_eq_true, if_false, Option.some.injEq, Prod.mk.injEq] at h1
          have := h1.2; cases this
    · rintro ⟨F, n, hF, hn, hsnap⟩
      obtain ⟨a, hl⟩ := file?_eq_some.mp hF
      unfold File.active? File.node at hn
      split at hn
      · cases hn
      · next av hav =>
        exact ⟨s, by rw [createSnapshot_found hl hav hn, if_pos hsnap]⟩

/-- Witness of C5 amended: on the store after `createFile a; insert a hello`,
`snapshot a m1` at clock reading 7 succeeds and the `snapshot a m2` that follows fails with
AlreadyFrozen, the first message and timestamp staying in place. -/
theorem snapshot_twice_witness :
    ∃ s1, (7 : time_t) ≠ 0 ∧ storeHello.createSnapshot "a" "m1" 7 8 = some (s1, .silent) ∧
      s1.createSnapshot "a" "m2" 9 9 = some (s1, .error .AlreadyFrozen) ∧
      activeStamp s1 "a" = some ("m1", 7) :=
  ⟨_, by decide, by rfl,
    (snapshot_twice storeHello "a" "m1" "m2" 7 8 9 9).1 _ (by decide) (by rfl)⟩

/-- C6. In a reachable store and for an existing file, `rollback` without a version id
(the call with `versionId = -1`) fails with NoParent and returns the store unchanged when
the active version is the root; when the active version is not the root it succeeds, the
new active version is the parent of the former one, and so its id is the id of that
parent. -/
theorem rollback_to_parent [StdHash String] [StdHash Int] (s : FileSystem)
    (hs : Reachable s) (f : String) (t : time_t) (F : File) (hF : s.file? f = some F) :
    ∃ av n, F.active_version = some av ∧ F.nodes[av]? = some n ∧
      (F.active_version = F.root → s.rollback f (-1) t = some (s, .error .NoParent)) ∧
      (F.active_version ≠ F.root →
        ∃ pn s1 F1 n1, F.node n.parent = some pn ∧
          s.rollback f (-1) t = some (s1, .silent) ∧ s1.file? f = some F1 ∧
          F1.active_version = n.parent ∧ F1.active? = some n1 ∧
          n1.version_id = pn.version_id) := by
  obtain ⟨a, hl⟩ := file?_eq_some.mp hF
  have hwf : FileWF F := (storeWF_of_reachable hs).file_wf a F (lookup_found hl).2
  obtain ⟨av, n, hav, hn, hlt⟩ := active_cell hwf
  refine ⟨av, n, hav, hn, ?_, ?_⟩
  · intro hroot
    rw [hav, hwf.root_eq] at hroot
    cases hroot
    rw [rollback_parent_found hl hav hn, hwf.root_parent n hn]
  · intro hne
    have hpos : 0 < av := by
      rcases Nat.eq_zero_or_pos av with h0 | hpos
      · subst h0; rw [hav, hwf.root_eq] at hne; exact absurd rfl hne
      · exact hpos
    obtain ⟨p, hp1, hp2⟩ := hwf.parent_lt av n hpos hn
    have hpl : p < F.nodes.length := by omega
    have hcell : F.nodes[p]? = some (F.nodes[p]) := List.getElem?_eq_getElem hpl
    refine ⟨F.nodes[p], (rollbackTo s f a F p t).1,
      { F with active_version := some p, last_modified := t }, F.nodes[p],
      ?_, ?_, ?_, ?_, ?_, rfl⟩
    · rw [hp1]; exact hcell
    · rw [rollback_parent_found hl hav hn, hp1]; rfl
    · exact file?_eq_some.mpr ⟨a, lookup_setFile hl _ _ _⟩
    · exact hp1.symm
    · exact active?_eq rfl hcell

/-- Witness of C6: on the store after `createFile a; insert a hello` the active version is
node 1, whose parent is the root, and `rollback a` makes the node with id 0 active; on the
store after `createFile a` alone the same call is refused with NoParent. -/
theorem rollback_to_parent_witness :
    Reachable storeHello ∧ storeHello.file? "a" = some fileHello ∧
    fileHello.active_version ≠ fileHello.root ∧
    (∃ s1 F1 n1, storeHello.rollback "a" (-1) 3 = some (s1, .silent) ∧
      s1.file? "a" = some F1 ∧ F1.active? = some n1 ∧ n1.version_id = 0) ∧
    storeA.rollback "a" (-1) 3 = some (storeA, .error .NoParent) := by
  have hne : fileHello.active_version ≠ fileHello.root := by
    have h1 : fileHello.active_version = some 1 := rfl
    have h2 : fileHello.root = some 0 := rfl
    rw [h1, h2]; decide
  refine ⟨reachable_storeHello, rfl, hne, ?_, ?_⟩
  · obtain ⟨av, n, hav, hn, _, h⟩ :=
      rollback_to_parent storeHello reachable_storeHello "a" 3 fileHello rfl
    obtain ⟨pn, s1, F1, n1, hpn, h1, h2, _, h4, h5⟩ := h hne
    have hav2 : fileHello.active_version = some 1 := rfl
    rw [hav2] at hav; cases hav
    have hn2 : fileHello.nodes[1]? = some
        { TreeNode.new 1 "" none 2 with content := "hello", parent := some 0 } := rfl
    rw [hn2] at hn; cases hn
    have hpn2 : fileHello.node (some 0) = some
        { TreeNode.new 0 "" none 1 with
          snapshot_timestamp := 1, message := "Initial snapshot",
          children := [some 1] } := rfl
    have hpn3 : some pn = fileHello.node (some 0) := hpn.symm
    rw [hpn2] at hpn3; cases hpn3
    exact ⟨s1, F1, n1, h1, h2, h4, h5⟩
  · obtain ⟨_, _, _, _, h, _⟩ :=
      rollback_to_parent storeA reachable_storeA "a" 3 (createdFile 1 1 1) rfl
    exact h rfl

/-- Counterexample to C7 as stated (every integer version id). On the store after
`createFile a; insert a hello` the id -1 is absent from the version map of `a`, yet the call
`rollback a -1` does not fail with VersionNotFound: it succeeds and moves the active
version from node 1 to the root. -/
theorem rollback_sentinel_counterexample :
    Reachable storeHello ∧ storeHello.file? "a" = some fileHello ∧
    fileHello.version_map.get (-1) = none ∧
    activeIdParent storeHello "a" = some (1, some 0) ∧
    ∃ s1, storeHello.rollback "a" (-1) 3 = some (s1, .silent) ∧
      activeIdParent s1 "a" = some (0, none) :=
  ⟨reachable_storeHello, rfl, rfl, rfl, _, rfl, rfl⟩

theorem reachable_storeBranch : Reachable storeBranch :=
  reachable_run
    [.createFile "a" 1 1 1, .insertContent "a" "x" 2 2, .rollback "a" 0 3,
     .insertContent "a" "y" 4 4]
    Reachable.init rfl

/-- C7, amended. In a reachable store, for an existing file and every integer version id
other than -1 passed to `rollback`: when the id is absent from the version map of the file
the call fails with VersionNotFound and returns the store unchanged; otherwise the id is
registered for an allocated node carrying that id, the call succeeds, and the active
version becomes exactly that node, whatever its position in the tree (no ancestor relation
to the former active version is required), the cells of the file staying as they were. -/
theorem rollback_checkout [StdHash String] [StdHash Int] (s : FileSystem) (hs : Reachable s)
    (f : String) (v : Int) (hv : v ≠ -1) (t : time_t) (F : File)
    (hF : s.file? f = some F) :
    (F.version_map.get v = none → s.rollback f v t = some (s, .error .VersionNotFound)) ∧
    (F.version_map.get v ≠ none →
      ∃ node n s1 F1, F.version_map.get v = some (some node) ∧
        F.nodes[node]? = some n ∧ n.version_id = v ∧
        s.rollback f v t = some (s1, .silent) ∧ s1.file? f = some F1 ∧
        F1.active_version = some node ∧ F1.active? = some n ∧ F1.nodes = F.nodes) := by
  obtain ⟨a, hl⟩ := file?_eq_some.mp hF
  have hwf : FileWF F := (storeWF_of_reachable hs).file_wf a F (lookup_found hl).2
  constructor
  · intro hnone
    rw [rollback_id_found hl v hv, hnone]
  · intro hsome
    have hin : ¬ (v < 0 ∨ (F.nodes.length : Int) ≤ v) := fun hout => hsome (hwf.vmap_out v hout)
    have h0 : 0 ≤ v := by omega
    have hlt : v.toNat < F.nodes.length := by omega
    have hget : F.version_map.get v = some (some v.toNat) := by
      have := hwf.vmap_in v.toNat hlt
      rwa [Int.toNat_of_nonneg h0] at this
    have hcell : F.nodes[v.toNat]? = some (F.nodes[v.toNat]) := List.getElem?_eq_getElem hlt
    refine ⟨v.toNat, F.nodes[v.toNat], (rollbackTo s f a F v.toNat t).1,
      { F with active_version := some v.toNat, last_modified := t },
      hget, hcell, ?_, ?_, ?_, rfl, ?_, rfl⟩
    · rw [hwf.ids v.toNat _ hcell, Int.toNat_of_nonneg h0]
    · rw [rollback_id_found hl v hv, hget]; rfl
    · exact file?_eq_some.mpr ⟨a, lookup_setFile hl _ _ _⟩
    · exact active?_eq rfl hcell

/-- Witness of C7 amended, with a jump to a node that is not an ancestor: in the store after
`createFile a; insert a x; rollback a 0; insert a y` the active version is node 2, a child
of the root; `rollback a 1` makes node 1, another child of the root, active, and
`rollback a 5` is refused with VersionNotFound. -/
theorem rollback_checkout_witness :
    Reachable storeBranch ∧ storeBranch.file? "a" = some fileBranch ∧ (1 : Int) ≠ -1 ∧
    activeIdParent storeBranch "a" = some (2, some 0) ∧
    (∃ s1, storeBranch.rollback "a" 1 5 = some (s1, .silent) ∧
      activeIdParent s1 "a" = some (1, some 0)) ∧
    storeBranch.rollback "a" 5 5 = some (storeBranch, .error .VersionNotFound) := by
  refine ⟨reachable_storeBranch, rfl, by decide, rfl, ⟨_, rfl, rfl⟩, ?_⟩
  exact (rollback_checkout storeBranch reachable_storeBranch "a" 5 (by decide) 5 fileBranch
    (by rfl)).1 (by rfl)

/-- C8. In a reachable store and for an existing file: the path `activePath` starts at the
active version, follows parent links and ends at the root, without repetition; with any
fuel not below the number of cells, `showHistory` returns the store unchanged and prints
exactly the lines of `shownCells`, the reversed path filtered to the frozen nodes, one line
per cell with the id of the cell; `shownCells` holds no mutable node, holds every frozen
node of the path exactly once, and is ordered by strictly increasing depth, where the
depth of a cell of the path is the number of parent steps from it to the root. -/
theorem showHistory_spec [StdHash String] [StdHash Int] (s : FileSystem)
    (hs : Reachable s) (f : String) (F : File) (hF : s.file? f = some F) :
    F.activePath.head? = F.active_version ∧ F.activePath.getLast? = F.root ∧
    List.Chain' (fun x y => ∃ n, F.nodes[x]? = some n ∧ n.parent = some y) F.activePath ∧
    F.activePath.Nodup ∧
    (∀ fuel, F.nodes.length ≤ fuel →
      s.showHistory fuel f = some (s, .history f F.historySpec)) ∧
    F.historySpec.map (fun line => line.1) = F.shownCells.map Int.ofNat ∧
    (∀ a ∈ F.shownCells, F.frozenAt a = true) ∧
    (∀ a ∈ F.activePath, F.frozenAt a = true → F.shownCells.count a = 1) ∧
    List.Pairwise (fun x y => F.depth x < F.depth y) F.shownCells ∧
    (∀ a ∈ F.activePath, F.ancestorAt (F.depth a) (some a) = F.root) := by
  obtain ⟨a, hl⟩ := file?_eq_some.mp hF
  have hwf : FileWF F := (storeWF_of_reachable hs).file_wf a F (lookup_found hl).2
  obtain ⟨av, n, hav, hn, hlt⟩ := active_cell hwf
  obtain ⟨p1, p2, p3, _, _, p6⟩ := walk_props hwf av hlt
  have hpath : F.activePath = F.walk (some av) := by rw [File.activePath, hav]
  have hvalid : ∀ x ∈ F.activePath, x < F.nodes.length := by
    intro x hx
    rw [hpath] at hx
    have := p3 x hx; omega
  have hnodup : F.activePath.Nodup := by
    rw [hpath]
    exact List.Pairwise.imp (fun hab heq => by rw [heq] at hab; exact Nat.lt_irrefl _ hab) p6
  have hshown_nodup : F.shownCells.Nodup :=
    List.Nodup.filter _ (List.nodup_reverse.mpr hnodup)
  have hshown_valid : ∀ x ∈ F.shownCells, x < F.nodes.length := by
    intro x hx
    exact hvalid x (List.mem_reverse.mp (List.mem_filter.mp hx).1)
  refine ⟨?_, ?_, ?_, hnodup, ?_, lineAt_ids hwf _ hshown_valid, ?_, ?_, ?_, ?_⟩
  · rw [hpath, walk_cons hwf hn, hav]; rfl
  · rw [hpath, hwf.root_eq]; exact p1
  · rw [hpath]; exact p2
  · intro fuel hfuel
    have hloop : historyLoop F.nodes fuel F.active_version [] =
        some ([] ++ List.filter F.frozenAt (F.walk (some av))) := by
      rw [hav]; exact historyLoop_eq hwf av fuel n [] (by omega) hn
    refine showHistory_found hl fuel _ _ hloop ?_
    have hrev : ([] ++ List.filter F.frozenAt (F.walk (some av))).reverse = F.shownCells := by
      rw [List.nil_append, File.shownCells, hpath, List.filter_reverse]
    rw [hrev]
    exact (historyLines_eq F _ hshown_valid).1
  · intro x hx
    exact (List.mem_filter.mp hx).2
  · intro x hx hfr
    exact List.count_eq_one_of_mem hshown_nodup
      (List.mem_filter.mpr ⟨List.mem_reverse.mpr hx, hfr⟩)
  · apply List.Pairwise.filter
    rw [List.pairwise_reverse, hpath]
    exact p6
  · intro x hx
    obtain ⟨_, _, _, _, q5, _⟩ := walk_props hwf x (hvalid x hx)
    rw [hwf.root_eq]
    exact q5

theorem reachable_storeHist : Reachable storeHist :=
  reachable_run
    [.createFile "a" 1 1 1, .insertContent "a" "hello" 2 2, .createSnapshot "a" "v1" 3 3,
     .insertContent "a" " world" 4 4]
    Reachable.init rfl

/-- Witness of C8: after `createFile a; insert a hello; snapshot a v1; insert a world` the
path from the active version is 2, 1, 0; node 2 is mutable, so the history shows the
cells 0 and 1, root first. -/
theorem showHistory_spec_witness :
    Reachable storeHist ∧ storeHist.file? "a" = some fileHist ∧
    fileHist.activePath = [2, 1, 0] ∧ fileHist.shownCells = [0, 1] ∧
    storeHist.showHistory 3 "a" =
      some (storeHist, .history "a" [(0, 1, "Initial snapshot"), (1, 3, "v1")]) :=
  ⟨reachable_storeHist, by rfl, by rfl, by rfl,
    (showHistory_spec storeHist reachable_storeHist "a" fileHist (by rfl)).2.2.2.2.1 3
      (by decide)⟩

/-- C9. Failures are atomic, in every store state. Whenever a call of an operation prints
an error, the store it returns is the store it was given, equal in every component (file
cells with their trees, active versions, version counts and modification times, the name
table, and both heaps). And each failure of the specification is such a call: `createFile`
on a registered name; `readFile`, `insertContent`, `updateContent`, `createSnapshot`,
`rollback` and `showHistory` on an unknown name; `createSnapshot` on a frozen active
version; `rollback` to the parent at a node without parent; `rollback` to an unregistered
id. -/
theorem failures_atomic [StdHash String] [StdHash Int] (s : FileSystem) :
    (∀ (op : Op) (s1 : FileSystem) (e : Error),
      step s op = some (s1, .error e) → s1 = s) ∧
    (∀ (f : String) (t1 t2 t3 : time_t), s.files.contains f = true →
      s.createFile f t1 t2 t3 = some (s, .error .AlreadyExists)) ∧
    (∀ (f c : String) (v : Int) (t1 t2 : time_t) (fuel : Nat), s.lookup f = .missing →
      s.readFile f = some (s, .error .NotFound) ∧
      s.insertContent f c t1 t2 = some (s, .error .NotFound) ∧
      s.updateContent f c t1 t2 = some (s, .error .NotFound) ∧
      s.createSnapshot f c t1 t2 = some (s, .error .NotFound) ∧
      s.rollback f v t1 = some (s, .error .NotFound) ∧
      s.showHistory fuel f = some (s, .error .NotFound)) ∧
    (∀ (f m : String) (t1 t2 : time_t) (F : File) (n : TreeNode),
      s.file? f = some F → F.active? = some n → n.isSnapshot = true →
      s.createSnapshot f m t1 t2 = some (s, .error .AlreadyFrozen)) ∧
    (∀ (f : String) (t : time_t) (F : File) (n : TreeNode),
      s.file? f = some F → F.active? = some n → n.parent = none →
      s.rollback f (-1) t = some (s, .error .NoParent)) ∧
    (∀ (f : String) (v : Int) (t : time_t) (F : File),
      s.file? f = some F → v ≠ -1 → F.version_map.get v = none →
      s.rollback f v t = some (s, .error .VersionNotFound)) := by
  refine ⟨?_, ?_, ?_, ?_, ?_, ?_⟩
  · intro op s1 e hstep
    cases op with
    | createFile f t1 t2 t3 =>
      rcases createFile_cases hstep with ⟨h1, _⟩ | ⟨_, h1, _⟩
      · exact h1
      · cases h1
    | readFile f => exact readFile_state hstep
    | insertContent f c t1 t2 =>
      rcases insertContent_cases hstep with ⟨h1, _⟩ | ⟨a, file, av, active, hl, hav, hact⟩
      · exact h1
      · simp only [step] at hstep
        rw [insertContent_found hl hav hact] at hstep
        simp only [Option.some.injEq, Prod.mk.injEq] at hstep
        have := hstep.2; cases this
    | updateContent f c t1 t2 =>
      rcases updateContent_cases hstep with ⟨h1, _⟩ | ⟨a, file, av, active, hl, hav, hact⟩
      · exact h1
      · simp only [step] at hstep
        rw [updateContent_found hl hav hact] at hstep
        simp only [Option.some.injEq, Prod.mk.injEq] at hstep
        have := hstep.2; cases this
    | createSnapshot f m t1 t2 =>
      rcases createSnapshot_cases hstep with ⟨h1, _⟩ | ⟨a, file, av, active, hl, hav, hact⟩
      · exact h1
      · simp only [step] at hstep
        rw [createSnapshot_found hl hav hact] at hstep
        split at hstep
        · simp only [Option.some.injEq, Prod.mk.injEq] at hstep
          exact hstep.1.symm
        · simp only [Option.some.injEq, Prod.mk.injEq] at hstep
          have := hstep.2; cases this
    | rollback f v t =>
      rcases rollback_cases hstep with ⟨h1, _⟩ | ⟨a, file, target, hl, h1⟩
      · exact h1
      · simp only [rollbackTo, Prod.mk.injEq] at h1
        have := h1.2; cases this
    | showHistory fuel f => exact showHistory_state hstep
    | showRecentFiles k =>
      simp only [step, showRecentFiles, Option.some.injEq, Prod.mk.injEq] at hstep
      have := hstep.2; cases this
    | showBiggestTrees k =>
      simp only [step, showBiggestTrees, Option.some.injEq, Prod.mk.injEq] at hstep
      have := hstep.2; cases this
  · intro f t1 t2 t3 hc
    simp [createFile, hc]
  · intro f c v t1 t2 fuel hm
    simp [readFile, insertContent, updateContent, createSnapshot, rollback, showHistory, hm]
  · intro f m t1 t2 F n hF hn hsnap
    obtain ⟨a, hl⟩ := file?_eq_some.mp hF
    unfold File.active? File.node at hn
    split at hn
    · cases hn
    · next av hav => rw [createSnapshot_found hl hav hn, if_pos hsnap]
  · intro f t F n hF hn hpar
    obtain ⟨a, hl⟩ := file?_eq_some.mp hF
    unfold File.active? File.node at hn
    split at hn
    · cases hn
    · next av hav => rw [rollback_parent_found hl hav hn, hpar]
  · intro f v t F hF hv hnone
    obtain ⟨a, hl⟩ := file?_eq_some.mp hF
    rw [rollback_id_found hl v hv, hnone]

/-- Witness of C9 on the store after `createFile a`: a second `createFile a` prints
AlreadyExists, an insert into the unknown name `b` prints NotFound, and a rollback to the
parent at the root prints NoParent; each returns the store it was given. -/
theorem failures_atomic_witness :
    storeA.files.contains "a" = true ∧
    storeA.createFile "a" 5 5 5 = some (storeA, .error .AlreadyExists) ∧
    storeA.lookup "b" = .missing ∧
    storeA.insertContent "b" "x" 5 5 = some (storeA, .error .NotFound) ∧
    step storeA (.rollback "a" (-1) 5) = some (storeA, .error .NoParent) ∧
    (∀ s1, step storeA (.rollback "a" (-1) 5) = some (s1, .error .NoParent) → s1 = storeA) :=
  ⟨by rfl, (failures_atomic storeA).2.1 "a" 5 5 5 (by rfl), by rfl,
    ((failures_atomic storeA).2.2.1 "b" "x" 0 5 5 0 (by rfl)).2.1, by rfl,
    fun s1 h => (failures_atomic storeA).1 (.rollback "a" (-1) 5) s1 .NoParent h⟩

/-- Counterexample to C10 as stated (every clock reading). On the empty store,
`createFile a` at clock reading 0 succeeds, but the root it creates is not frozen
(`isSnapshot` is false) and `showHistory a` prints no entry. -/
theorem createFile_counterexample :
    FileSystem.init.files.contains "a" = false ∧
    FileSystem.init.createFile "a" 0 0 0 = some (storeZero, .created "a") ∧
    storeZero.file? "a" = some (createdFile 0 0 0) ∧
    ((createdFile 0 0 0).node (createdFile 0 0 0).root).map TreeNode.isSnapshot = some false ∧
    storeZero.showHistory 1 "a" = some (storeZero, .history "a" []) :=
  ⟨rfl, rfl, rfl, rfl, rfl⟩

/-- C10, amended. For every store, file name and clock readings of which the one stored as
snapshot timestamp is not zero: `createFile` fails with AlreadyExists exactly when the name
is registered; otherwise it succeeds and the file then has a root with id 0, empty content,
no parent and message "Initial snapshot" that is frozen, the active version is the root,
`total_versions` is 1, `last_modified` is the clock reading taken for it, `showHistory`
prints exactly the entry of the root, and the other names and all earlier file cells are as
before. -/
theorem createFile_spec [StdHash String] [StdHash Int] (s : FileSystem) (f : String)
    (t1 t2 t3 : time_t) (ht : t2 ≠ 0) :
    ((∃ s1, s.createFile f t1 t2 t3 = some (s1, .error .AlreadyExists)) ↔
      s.files.contains f = true) ∧
    (s.files.contains f = false →
      ∃ s1 F r, s.createFile f t1 t2 t3 = some (s1, .created f) ∧
        s1.file? f = some F ∧ F.node F.root = some r ∧
        r.version_id = 0 ∧ r.content = "" ∧ r.parent = none ∧
        r.message = "Initial snapshot" ∧ r.isSnapshot = true ∧
        F.active_version = F.root ∧ F.total_versions = 1 ∧ F.last_modified = t3 ∧
        (∀ fuel, 1 ≤ fuel →
          s1.showHistory fuel f = some (s1, .history f [(0, t2, "Initial snapshot")])) ∧
        (∀ g, g ≠ f → s1.files.get g = s.files.get g) ∧
        (∀ (a : Nat) (G : File), s.fileObjs[a]? = some G → s1.fileObjs[a]? = some G) ∧
        (∀ g G, g ≠ f → s.file? g = some G → s1.file? g = some G)) := by
  constructor
  · constructor
    · rintro ⟨s1, h1⟩
      cases hg : s.files.get f with
      | some p => simp [HashMap.contains, hg]
      | none =>
        rw [createFile_fresh hg] at h1
        simp only [Option.some.injEq, Prod.mk.injEq] at h1
        have := h1.2; cases this
    · intro hc
      exact ⟨s, by simp [createFile, hc]⟩
  · intro hc
    have hg : s.files.get f = none := by
      cases hg : s.files.get f with
      | none => rfl
      | some p => simp [HashMap.contains, hg] at hc
    have hget : ∀ g, g ≠ f →
        (s.files.put f (some s.fileObjs.length)).get g = s.files.get g :=
      fun g hgf => HashMap.get_put_ne _ _ _ _ hgf
    have hcells : ∀ (a : Nat) (G : File), s.fileObjs[a]? = some G →
        (s.fileObjs ++ [createdFile t1 t2 t3])[a]? = some G := by
      intro a G hG
      rw [List.getElem?_append_left (lt_of_getElem?_eq_some hG)]
      exact hG
    have hl : (updateAnalytics
        { s with
          fileObjs := s.fileObjs ++ [createdFile t1 t2 t3],
          files := s.files.put f (some s.fileObjs.length) }
        f (createdFile t1 t2 t3)).lookup f = .found s.fileObjs.length (createdFile t1 t2 t3) := by
      apply lookup_of_get
      · show (s.files.put f (some s.fileObjs.length)).get f = _
        rw [HashMap.get_put_self]
      · show (s.fileObjs ++ [createdFile t1 t2 t3])[s.fileObjs.length]? = _
        rw [List.getElem?_append_right (Nat.le_refl _)]
        simp
    refine ⟨_, createdFile t1 t2 t3,
      { TreeNode.new 0 "" none t1 with
        snapshot_timestamp := t2, message := "Initial snapshot" },
      createFile_fresh hg t1 t2 t3, file?_eq_some.mpr ⟨_, hl⟩, rfl, rfl, rfl, rfl, rfl,
      ?_, rfl, rfl, rfl, ?_, hget, hcells, ?_⟩
    · simp [TreeNode.isSnapshot, ht]
    · intro fuel hfuel
      obtain ⟨k, rfl⟩ : ∃ k, fuel = k + 1 := ⟨fuel - 1, by omega⟩
      refine showHistory_found hl (k + 1) [0] _ ?_ ?_
      · cases k <;> simp [createdFile, historyLoop, TreeNode.new, TreeNode.isSnapshot, ht]
      · simp [createdFile, historyLines, TreeNode.new]
    · intro g G hgf hG
      obtain ⟨a, hla⟩ := file?_eq_some.mp hG
      obtain ⟨h1, h2⟩ := lookup_found hla
      refine file?_eq_some.mpr ⟨a, lookup_of_get ?_ (hcells a G h2)⟩
      show (s.files.put f (some s.fileObjs.length)).get g = _
      rw [hget g hgf]; exact h1

/-- Witness of C10 amended: `createFile b` at clock reading 9 on the store that holds `a`
succeeds, `showHistory b` prints the entry of the root, and `a` is still there. -/
theorem createFile_spec_witness :
    (9 : time_t) ≠ 0 ∧ storeA.files.contains "b" = false ∧
    ∃ s1, storeA.createFile "b" 9 9 9 = some (s1, .created "b") ∧
      s1.showHistory 1 "b" = some (s1, .history "b" [(0, 9, "Initial snapshot")]) ∧
      s1.file? "a" = some (createdFile 1 1 1) := by
  obtain ⟨s1, F, r, h1, _, _, _, _, _, _, _, _, _, _, h2, _, _, h3⟩ :=
    (createFile_spec storeA "b" 9 9 9 (by decide)).2 (by rfl)
  exact ⟨by decide, by rfl, s1, h1, h2 1 (Nat.le_refl 1),
    h3 "a" (createdFile 1 1 1) (by decide) (by rfl)⟩

/-! ## The shape of one call -/

namespace FileSystem

section
variable [StdHash String] [StdHash Int]

/-- `showRecentFiles` only touches the recency heap. -/
theorem showRecentFiles_eq (fs : FileSystem) (k : Int) :
    fs.showRecentFiles k =
      some ({ fs with
              recentFilesHeap :=
                restore (drain fs.recentFilesHeap.size fs.recentFilesHeap []).2
                  (drain fs.recentFilesHeap.size fs.recentFilesHeap []).1 },
            .recent (display k 0
              (sortDesc (uniqueOf (drain fs.recentFilesHeap.size fs.recentFilesHeap []).1)))) :=
  rfl

/-- `showBiggestTrees` only touches the size heap. -/
theorem showBiggestTrees_eq (fs : FileSystem) (k : Int) :
    fs.showBiggestTrees k =
      some ({ fs with
              biggestTreesHeap :=
                restore (drain fs.biggestTreesHeap.size fs.biggestTreesHeap []).2
                  (drain fs.biggestTreesHeap.size fs.biggestTreesHeap []).1 },
            .biggest (display k 0
              (sortDesc (uniqueOf (drain fs.biggestTreesHeap.size fs.biggestTreesHeap []).1)))) :=
  rfl

/-- Every call with a result is of one of five shapes: it returns the store it was given;
it is a query of the recency heap; a query of the size heap; it creates a file under a
fresh name; or it changes the `File` object of a registered name by a `FileStep` and
reports the new value to the analytics. -/
theorem step_shape {fs fs1 : FileSystem} {out : Output} (op : Op)
    (h : step fs op = some (fs1, out)) :
    fs1 = fs ∨
    (∃ k, op = .showRecentFiles k) ∨
    (∃ k, op = .showBiggestTrees k) ∨
    (∃ f t1 t2 t3, op = .createFile f t1 t2 t3 ∧ fs.files.get f = none ∧
      fs1 = updateAnalytics
        { fs with
          fileObjs := fs.fileObjs ++ [createdFile t1 t2 t3],
          files := fs.files.put f (some fs.fileObjs.length) }
        f (createdFile t1 t2 t3)) ∨
    (∃ f a F F1, fs.lookup f = .found a F ∧ FileStep F F1 ∧
      fs1 = updateAnalytics (fs.setFile a F1) f F1) := by
  cases op with
  | createFile f t1 t2 t3 =>
    rcases createFile_cases h with ⟨h1, _⟩ | ⟨h1, _, h2⟩
    · exact Or.inl h1
    · exact Or.inr (Or.inr (Or.inr (Or.inl ⟨f, t1, t2, t3, rfl, h1, h2⟩)))
  | readFile f => exact Or.inl (readFile_state h)
  | insertContent f c t1 t2 =>
    rcases insertContent_cases h with ⟨h1, _⟩ | ⟨a, file, av, active, hl, hav, hact⟩
    · exact Or.inl h1
    · simp only [step] at h
      rw [insertContent_found hl hav hact] at h
      cases h
      exact Or.inr (Or.inr (Or.inr (Or.inr
        ⟨f, a, file, _, hl, FileStep.write file av active _ _ t1 t2 hav hact, rfl⟩)))
  | updateContent f c t1 t2 =>
    rcases updateContent_cases h with ⟨h1, _⟩ | ⟨a, file, av, active, hl, hav, hact⟩
    · exact Or.inl h1
    · simp only [step] at h
      rw [updateContent_found hl hav hact] at h
      cases h
      exact Or.inr (Or.inr (Or.inr (Or.inr
        ⟨f, a, file, _, hl, FileStep.write file av active _ _ t1 t2 hav hact, rfl⟩)))
  | createSnapshot f m t1 t2 =>
    rcases createSnapshot_cases h with ⟨h1, _⟩ | ⟨a, file, av, active, hl, hav, hact⟩
    · exact Or.inl h1
    · simp only [step] at h
      rw [createSnapshot_found hl hav hact] at h
      cases hsnap : active.isSnapshot with
      | true =>
        rw [hsnap] at h
        simp only [if_true] at h
        cases h; exact Or.inl rfl
      | false =>
        rw [hsnap] at h
        simp only [Bool.false_eq_true, if_false] at h
        cases h
        exact Or.inr (Or.inr (Or.inr (Or.inr
          ⟨f, a, file, _, hl, FileStep.snapshot file av active m t1 t2 hav hact hsnap, rfl⟩)))
  | rollback f v t =>
    simp only [step] at h
    unfold rollback at h
    split at h
    · cases h; exact Or.inl rfl
    · cases h
    · next a file hl =>
      split at h
      · next hv =>
        split at h
        · cases h
        · next av hav =>
          split at h
          · cases h
          · next active hact =>
            split at h
            · cases h; exact Or.inl rfl
            · next parent hp =>
              cases h
              exact Or.inr (Or.inr (Or.inr (Or.inr
                ⟨f, a, file, _, hl, FileStep.rollbackParent file av active parent t hav hact hp,
                  rfl⟩)))
      · next hv =>
        split at h
        · cases h; exact Or.inl rfl
        · cases h; exact Or.inl rfl
        · next node hnode =>
          cases h
          exact Or.inr (Or.inr (Or.inr (Or.inr
            ⟨f, a, file, _, hl, FileStep.rollbackId file v node t hv hnode, rfl⟩)))
  | showHistory fuel f => exact Or.inl (showHistory_state h)
  | showRecentFiles k => exact Or.inr (Or.inl ⟨k, rfl⟩)
  | showBiggestTrees k => exact Or.inr (Or.inr (Or.inl ⟨k, rfl⟩))

end

end FileSystem

namespace FileSystem

section
variable [StdHash String] [StdHash Int]

/-- What a `FileStep` keeps in a well-formed file: well-formedness, the cells with their ids
and parents (cells are only added), the content and the frozen state of frozen cells, the
entries of the version map, and a version count that does not decrease. -/
theorem fileStep_facts {F F1 : File} (hwf : FileWF F) (hs : FileStep F F1) :
    FileWF F1 ∧ F.nodes.length ≤ F1.nodes.length ∧ F.total_versions ≤ F1.total_versions ∧
    (∀ (v : Int) (p : Ptr), F.version_map.get v = some p → F1.version_map.get v = some p) ∧
    (∀ (a : Nat) (n : TreeNode), F.nodes[a]? = some n →
      ∃ n1, F1.nodes[a]? = some n1 ∧ n1.version_id = n.version_id ∧ n1.parent = n.parent ∧
        (n.isSnapshot = true → n1.content = n.content ∧ n1.isSnapshot = true)) := by
  cases hs with
  | write av active cNew cSame t1 t2 hav hact =>
    refine ⟨fileWF_write hwf hact _ _ _ _, ?_, ?_, ?_, ?_⟩
    · cases hsnap : active.isSnapshot with
      | true =>
        obtain ⟨_, _, _, _, _, h6⟩ := newVersion_facts hact cNew t1
        simp only [if_true]; omega
      | false =>
        obtain ⟨_, _, h3⟩ := setNode_facts hact { active with content := cSame }
        simp only [Bool.false_eq_true, if_false]; omega
    · cases hsnap : active.isSnapshot with
      | true =>
        obtain ⟨_, _, h3, _⟩ := newVersion_facts hact cNew t1
        simp only [if_true]; omega
      | false =>
        simp only [Bool.false_eq_true, if_false]
        exact Int.le_refl _
    · intro v p hv
      cases hsnap : active.isSnapshot with
      | true =>
        simp only [if_true]
        rw [newVersion_eq F av active cNew t1 (lt_of_getElem?_eq_some hact)]
        have hne : v ≠ F.total_versions := by
          intro hc
          rw [hc, hwf.vmap_out F.total_versions (Or.inr (by rw [hwf.total]))] at hv
          cases hv
        show (F.version_map.put F.total_versions _).get v = some p
        rw [HashMap.get_put_ne _ _ _ _ hne]; exact hv
      | false =>
        simp only [Bool.false_eq_true, if_false]
        exact hv
    · intro a n hn
      have hna := lt_of_getElem?_eq_some hn
      cases hsnap : active.isSnapshot with
      | true =>
        simp only [if_true]
        obtain ⟨_, _, _, h4, h5, _⟩ := newVersion_facts hact cNew t1
        by_cases hb : a = av
        · subst hb
          rw [hact] at hn; cases hn
          exact ⟨_, h4, rfl, rfl, fun h => ⟨rfl, h⟩⟩
        · exact ⟨n, (h5 a hb hna).trans hn, rfl, rfl, fun h => ⟨rfl, h⟩⟩
      | false =>
        simp only [Bool.false_eq_true, if_false]
        obtain ⟨h1, h2, _⟩ := setNode_facts hact { active with content := cSame }
        by_cases hb : a = av
        · subst hb
          rw [hact] at hn; cases hn
          refine ⟨_, h1, rfl, rfl, fun h => ?_⟩
          rw [hsnap] at h; cases h
        · exact ⟨n, (h2 a hb).trans hn, rfl, rfl, fun h => ⟨rfl, h⟩⟩
  | snapshot av active m t1 t2 hav hact hsnap =>
    obtain ⟨h1, h2, h3⟩ := setNode_facts hact
      { active with snapshot_timestamp := t1, message := m }
    refine ⟨fileWF_last_modified (fileWF_setNode hwf av active
      { active with snapshot_timestamp := t1, message := m } hact rfl rfl) t2, ?_,
      Int.le_refl _, fun v p hv => hv, ?_⟩
    · show F.nodes.length ≤ (F.setNode av _).nodes.length
      omega
    · intro a n hn
      by_cases hb : a = av
      · subst hb
        rw [hact] at hn; cases hn
        refine ⟨_, h1, rfl, rfl, fun h => ?_⟩
        rw [hsnap] at h; cases h
      · exact ⟨n, (h2 a hb).trans hn, rfl, rfl, fun h => ⟨rfl, h⟩⟩
  | rollbackParent av active p t hav hact hp =>
    have hplt : p < F.nodes.length := by
      have hav2 := lt_of_getElem?_eq_some hact
      rcases Nat.eq_zero_or_pos av with h0 | hpos
      · subst h0
        rw [hwf.root_parent active hact] at hp; cases hp
      · obtain ⟨q, hq1, hq2⟩ := hwf.parent_lt av active hpos hact
        rw [hp] at hq1; cases hq1; omega
    exact ⟨fileWF_last_modified (fileWF_active hwf p hplt) t, Nat.le_refl _, Int.le_refl _,
      fun v q hv => hv, fun a n hn => ⟨n, hn, rfl, rfl, fun h => ⟨rfl, h⟩⟩⟩
  | rollbackId v node t hv hnode =>
    exact ⟨fileWF_last_modified (fileWF_active hwf node (vmap_some hwf hnode).1) t,
      Nat.le_refl _, Int.le_refl _,
      fun v q hv => hv, fun a n hn => ⟨n, hn, rfl, rfl, fun h => ⟨rfl, h⟩⟩⟩

/-- What one call keeps of every `File` cell of a well-formed store. -/
theorem step_file_facts {fs fs1 : FileSystem} {out : Output} (hwf : StoreWF fs) (op : Op)
    (h : step fs op = some (fs1, out)) (fa : Nat) (F : File)
    (hF : fs.fileObjs[fa]? = some F) :
    ∃ F1, fs1.fileObjs[fa]? = some F1 ∧
      F.nodes.length ≤ F1.nodes.length ∧ F.total_versions ≤ F1.total_versions ∧
      (∀ (v : Int) (p : Ptr), F.version_map.get v = some p → F1.version_map.get v = some p) ∧
      (∀ (a : Nat) (n : TreeNode), F.nodes[a]? = some n →
        ∃ n1, F1.nodes[a]? = some n1 ∧ n1.version_id = n.version_id ∧
          n1.parent = n.parent ∧
          (n.isSnapshot = true → n1.content = n.content ∧ n1.isSnapshot = true)) := by
  have same : ∃ F1, fs.fileObjs[fa]? = some F1 ∧
      F.nodes.length ≤ F1.nodes.length ∧ F.total_versions ≤ F1.total_versions ∧
      (∀ (v : Int) (p : Ptr), F.version_map.get v = some p → F1.version_map.get v = some p) ∧
      (∀ (a : Nat) (n : TreeNode), F.nodes[a]? = some n →
        ∃ n1, F1.nodes[a]? = some n1 ∧ n1.version_id = n.version_id ∧
          n1.parent = n.parent ∧
          (n.isSnapshot = true → n1.content = n.content ∧ n1.isSnapshot = true)) :=
    ⟨F, hF, Nat.le_refl _, Int.le_refl _, fun _ _ hv => hv,
      fun a n hn => ⟨n, hn, rfl, rfl, fun h => ⟨rfl, h⟩⟩⟩
  rcases step_shape op h with h1 | ⟨k, rfl⟩ | ⟨k, rfl⟩ | ⟨f, t1, t2, t3, _, _, h1⟩ |
    ⟨f, a, G, G1, hl, hstep, h1⟩
  · rw [h1]; exact same
  · simp only [step, showRecentFiles_eq, Option.some.injEq, Prod.mk.injEq] at h
    rw [← h.1]; exact same
  · simp only [step, showBiggestTrees_eq, Option.some.injEq, Prod.mk.injEq] at h
    rw [← h.1]; exact same
  · rw [h1]
    obtain ⟨F1, h2, h3⟩ := same
    refine ⟨F1, ?_, h3⟩
    show (fs.fileObjs ++ [_])[fa]? = some F1
    rw [List.getElem?_append_left (lt_of_getElem?_eq_some hF)]
    exact h2
  · rw [h1]
    have hcell := (lookup_found hl).2
    have ha := lt_of_getElem?_eq_some hcell
    by_cases hfa : fa = a
    · subst hfa
      rw [hcell] at hF; cases hF
      obtain ⟨_, h3⟩ := fileStep_facts (hwf.file_wf fa F hcell) hstep
      refine ⟨G1, ?_, h3⟩
      simp [updateAnalytics, setFile, List.getElem?_set, ha]
    · obtain ⟨F1, h2, h3⟩ := same
      refine ⟨F1, ?_, h3⟩
      simp [updateAnalytics, setFile, List.getElem?_set, Ne.symm hfa, h2]

end

end FileSystem

namespace FileSystem

section
variable [StdHash String] [StdHash Int]

/-- A registered name stays registered for the same `File` cell through every call. -/
theorem step_files_get {fs fs1 : FileSystem} {out : Output} (op : Op)
    (h : step fs op = some (fs1, out)) (f : String) (a : Nat)
    (hf : fs.files.get f = some (some a)) : fs1.files.get f = some (some a) := by
  rcases step_shape op h with h1 | ⟨k, rfl⟩ | ⟨k, rfl⟩ | ⟨g, t1, t2, t3, _, hg, h1⟩ |
    ⟨g, b, G, G1, hl, hstep, h1⟩
  · rw [h1]; exact hf
  · simp only [step, showRecentFiles_eq, Option.some.injEq, Prod.mk.injEq] at h
    rw [← h.1]; exact hf
  · simp only [step, showBiggestTrees_eq, Option.some.injEq, Prod.mk.injEq] at h
    rw [← h.1]; exact hf
  · rw [h1]
    have hne : f ≠ g := by
      intro hc; rw [hc, hg] at hf; cases hf
    show (fs.files.put g _).get f = _
    rw [HashMap.get_put_ne _ _ _ _ hne]; exact hf
  · rw [h1]; exact hf

/-- The ids of the cells of a well-formed file are their addresses. -/
theorem ids_eq_range {F : File} (hwf : FileWF F) :
    F.nodes.map (fun n => n.version_id) = (List.range F.nodes.length).map Int.ofNat := by
  apply List.ext_getElem?
  intro i
  rw [List.getElem?_map, List.getElem?_map]
  by_cases hi : i < F.nodes.length
  · have hn : F.nodes[i]? = some (F.nodes[i]) := List.getElem?_eq_getElem hi
    rw [hn, List.getElem?_range hi]
    simp only [Option.map_some']
    rw [hwf.ids i _ hn]; rfl
  · rw [List.getElem?_eq_none (Nat.le_of_not_lt hi),
      List.getElem?_eq_none (by simpa using Nat.le_of_not_lt hi)]
    rfl

end

end FileSystem

/-- C16. In every reachable store and for every file: the ids of the cells, in creation
(allocation) order, are exactly 0, 1, ..., `total_versions - 1`, hence pairwise distinct and
strictly increasing in creation order; the version map sends the id of every node to the
cell of that node and holds nothing else; and after any call the file is still registered
under its name, every entry of its version map is as before, every earlier cell keeps its
id, and every cell created by the call has an id greater than the ids of all earlier
cells. -/
theorem ids_and_version_map [StdHash String] [StdHash Int] (s : FileSystem)
    (hs : Reachable s) (f : String) (F : File) (hF : s.file? f = some F) :
    F.nodes.map (fun n => n.version_id) = (List.range F.nodes.length).map Int.ofNat ∧
    F.total_versions = Int.ofNat F.nodes.length ∧
    (F.nodes.map (fun n => n.version_id)).Nodup ∧
    (∀ (a : Nat) (n : TreeNode), F.nodes[a]? = some n →
      F.version_map.get n.version_id = some (some a)) ∧
    (∀ (v : Int) (p : Ptr), F.version_map.get v = some p →
      ∃ a n, p = some a ∧ F.nodes[a]? = some n ∧ n.version_id = v) ∧
    (∀ (op : Op) (s1 : FileSystem) (out : Output), step s op = some (s1, out) →
      ∃ F1, s1.file? f = some F1 ∧
        (∀ (v : Int) (p : Ptr), F.version_map.get v = some p →
          F1.version_map.get v = some p) ∧
        (∀ (a : Nat) (n : TreeNode), F.nodes[a]? = some n →
          ∃ n1, F1.nodes[a]? = some n1 ∧ n1.version_id = n.version_id) ∧
        (∀ (a : Nat) (n1 : TreeNode), F.nodes.length ≤ a → F1.nodes[a]? = some n1 →
          ∀ (b : Nat) (n : TreeNode), F.nodes[b]? = some n →
            n.version_id < n1.version_id)) := by
  obtain ⟨fa, hl⟩ := file?_eq_some.mp hF
  obtain ⟨hget, hcell⟩ := lookup_found hl
  have hswf := storeWF_of_reachable hs
  have hwf : FileWF F := hswf.file_wf fa F hcell
  refine ⟨ids_eq_range hwf, hwf.total, ?_, ?_, ?_, ?_⟩
  · rw [ids_eq_range hwf]
    exact List.Nodup.map (fun a b hab => Int.ofNat.inj hab) (List.nodup_range _)
  · intro a n hn
    rw [hwf.ids a n hn]
    exact hwf.vmap_in a (lt_of_getElem?_eq_some hn)
  · intro v p hv
    by_cases hout : v < 0 ∨ (F.nodes.length : Int) ≤ v
    · rw [hwf.vmap_out v hout] at hv; cases hv
    · have h0 : 0 ≤ v := by omega
      have hlt : v.toNat < F.nodes.length := by omega
      have h3 := hwf.vmap_in v.toNat hlt
      rw [Int.toNat_of_nonneg h0] at h3
      rw [h3] at hv
      have hn : F.nodes[v.toNat]? = some (F.nodes[v.toNat]) := List.getElem?_eq_getElem hlt
      refine ⟨v.toNat, F.nodes[v.toNat], (Option.some.inj hv).symm, hn, ?_⟩
      rw [hwf.ids _ _ hn, Int.toNat_of_nonneg h0]
  · intro op s1 out hstep
    obtain ⟨F1, hc1, _, _, hmap, hcells⟩ := step_file_facts hswf op hstep fa F hcell
    have hwf1 : FileWF F1 := (storeWF_step hswf op hstep).file_wf fa F1 hc1
    refine ⟨F1, file?_eq_some.mpr ⟨fa, lookup_of_get (step_files_get op hstep f fa hget) hc1⟩,
      hmap, ?_, ?_⟩
    · intro a n hn
      obtain ⟨n1, h1, h2, _⟩ := hcells a n hn
      exact ⟨n1, h1, h2⟩
    · intro a n1 ha hn1 b n hn
      rw [hwf.ids b n hn, hwf1.ids a n1 hn1]
      have := lt_of_getElem?_eq_some hn
      omega

/-- Witness of C16 on the store after `createFile a; insert a hello`: the ids of the two
cells are 0 and 1, the version count is 2, and after `insert a x` the entry of id 1 in the
version map is still cell 1. -/
theorem ids_and_version_map_witness :
    Reachable storeHello ∧ storeHello.file? "a" = some fileHello ∧
    fileHello.nodes.map (fun n => n.version_id) = [0, 1] ∧ fileHello.total_versions = 2 ∧
    fileHello.version_map.get 1 = some (some 1) ∧
    ∃ s1 F1, step storeHello (.insertContent "a" "x" 3 3) = some (s1, .silent) ∧
      s1.file? "a" = some F1 ∧ F1.version_map.get 1 = some (some 1) := by
  obtain ⟨h1, h2, _, _, _, h6⟩ :=
    ids_and_version_map storeHello reachable_storeHello "a" fileHello (by rfl)
  obtain ⟨F1, h7, h8, _⟩ := h6 (.insertContent "a" "x" 3 3) _ .silent (by rfl)
  exact ⟨reachable_storeHello, by rfl, h1, h2, by rfl, _, F1, by rfl, h7,
    h8 1 (some 1) (by rfl)⟩

namespace FileSystem

section
variable [StdHash String] [StdHash Int]

/-- The walk from cell `a` of a well-formed file has at most `a + 1` cells. -/
theorem walk_length_le {file : File} (h : FileWF file) (a : Nat) :
    a < file.nodes.length → (file.walk (some a)).length ≤ a + 1 := by
  induction a using Nat.strong_induction_on with
  | _ a ih =>
    intro ha
    have hn : file.nodes[a]? = some (file.nodes[a]) := List.getElem?_eq_getElem ha
    rw [walk_cons h hn]
    rcases Nat.eq_zero_or_pos a with h0 | hpos
    · subst h0
      rw [h.root_parent _ hn, walk_none]; simp
    · obtain ⟨p, hp1, hp2⟩ := h.parent_lt a _ hpos hn
      rw [hp1]
      have := ih p hp2 (by omega)
      simp only [List.length_cons]; omega

/-- With fuel above the address of the active version, `showHistory` prints the history of
the specification and returns the store it was given. -/
theorem showHistory_fuel {fs : FileSystem} {name : String} {a av : Nat} {file : File}
    (hl : fs.lookup name = .found a file) (hwf : FileWF file)
    (hav : file.active_version = some av) (fuel : Nat) (hfuel : av < fuel) :
    fs.showHistory fuel name = some (fs, .history name file.historySpec) := by
  obtain ⟨av2, hav2, hlt⟩ := hwf.active_lt
  rw [hav] at hav2; cases hav2
  have hn : file.nodes[av]? = some (file.nodes[av]) := List.getElem?_eq_getElem hlt
  obtain ⟨_, _, p3, _⟩ := walk_props hwf av hlt
  have hpath : file.activePath = file.walk (some av) := by rw [File.activePath, hav]
  have hvalid : ∀ x ∈ file.shownCells, x < file.nodes.length := by
    intro x hx
    have hx2 := List.mem_reverse.mp (List.mem_filter.mp hx).1
    rw [hpath] at hx2
    have := p3 x hx2; omega
  have hloop : historyLoop file.nodes fuel file.active_version [] =
      some ([] ++ List.filter file.frozenAt (file.walk (some av))) := by
    rw [hav]; exact historyLoop_eq hwf av fuel _ [] hfuel hn
  refine showHistory_found hl fuel _ _ hloop ?_
  have hrev : ([] ++ List.filter file.frozenAt (file.walk (some av))).reverse =
      file.shownCells := by
    rw [List.nil_append, File.shownCells, hpath, List.filter_reverse]
  rw [hrev]
  exact (historyLines_eq file _ hvalid).1

end

end FileSystem

/-- C19. In every reachable store and for every file: the root has id 0 and no parent;
every other node has a parent whose id is strictly smaller than its own; hence the path
from the active version has at most `active.version_id + 1` cells, and the parent walk of
`showHistory` finishes, with its result, within any fuel of at least
`active.version_id + 1` iterations. -/
theorem parent_ids_decrease [StdHash String] [StdHash Int] (s : FileSystem)
    (hs : Reachable s) (f : String) (F : File) (hF : s.file? f = some F) :
    (∃ r, F.node F.root = some r ∧ r.version_id = 0 ∧ r.parent = none) ∧
    (∀ (a : Nat) (n : TreeNode), F.nodes[a]? = some n → some a ≠ F.root →
      ∃ p pn, n.parent = some p ∧ F.nodes[p]? = some pn ∧ pn.version_id < n.version_id) ∧
    (∃ n, F.active? = some n ∧ 0 ≤ n.version_id ∧
      F.activePath.length ≤ n.version_id.toNat + 1 ∧
      ∀ fuel, n.version_id.toNat + 1 ≤ fuel →
        s.showHistory fuel f = some (s, .history f F.historySpec)) := by
  obtain ⟨fa, hl⟩ := file?_eq_some.mp hF
  have hwf : FileWF F := (storeWF_of_reachable hs).file_wf fa F (lookup_found hl).2
  have hpos0 : 0 < F.nodes.length := hwf.pos
  have hroot : F.nodes[0]? = some (F.nodes[0]) := List.getElem?_eq_getElem hpos0
  refine ⟨⟨F.nodes[0], ?_, ?_, hwf.root_parent _ hroot⟩, ?_, ?_⟩
  · rw [hwf.root_eq]; exact hroot
  · simpa using hwf.ids 0 _ hroot
  · intro a n hn hne
    have hpos : 0 < a := by
      rcases Nat.eq_zero_or_pos a with h0 | hpos
      · subst h0; rw [hwf.root_eq] at hne; exact absurd rfl hne
      · exact hpos
    obtain ⟨p, hp1, hp2⟩ := hwf.parent_lt a n hpos hn
    have hpl : p < F.nodes.length := by have := lt_of_getElem?_eq_some hn; omega
    have hpn : F.nodes[p]? = some (F.nodes[p]) := List.getElem?_eq_getElem hpl
    refine ⟨p, F.nodes[p], hp1, hpn, ?_⟩
    rw [hwf.ids p _ hpn, hwf.ids a n hn]
    omega
  · obtain ⟨av, n, hav, hn, hlt⟩ := active_cell hwf
    have hid := hwf.ids av n hn
    refine ⟨n, active?_eq hav hn, by omega, ?_, ?_⟩
    · have hpath : F.activePath = F.walk (some av) := by rw [File.activePath, hav]
      rw [hpath, hid]
      exact walk_length_le hwf av hlt
    · intro fuel hfuel
      rw [hid] at hfuel
      exact showHistory_fuel hl hwf hav fuel (by simpa using hfuel)

/-- Witness of C19 on the store after `createFile a; insert a hello; snapshot a v1;
insert a world`: the active version has id 2, and `showHistory` with fuel 3 prints the two
frozen ancestors. -/
theorem parent_ids_decrease_witness :
    Reachable storeHist ∧ storeHist.file? "a" = some fileHist ∧
    (fileHist.active?.map fun n => n.version_id) = some 2 ∧
    fileHist.activePath.length ≤ 3 ∧
    storeHist.showHistory 3 "a" =
      some (storeHist, .history "a" [(0, 1, "Initial snapshot"), (1, 3, "v1")]) := by
  obtain ⟨_, _, n, hn, _, h1, h2⟩ :=
    parent_ids_decrease storeHist reachable_storeHist "a" fileHist (by rfl)
  have h0 : fileHist.active? = some
      { TreeNode.new 2 "" none 4 with content := "hello world", parent := some 1 } := by rfl
  rw [h0] at hn; cases hn
  exact ⟨reachable_storeHist, by rfl, by rfl, h1, h2 3 (by decide)⟩

namespace FileSystem

section
variable [StdHash String] [StdHash Int]

/-- A property kept by every call holds after a sequence of calls. -/
theorem run_invariant (P : FileSystem → Prop)
    (hstep : ∀ (fs fs1 : FileSystem) (op : Op) (out : Output),
      P fs → step fs op = some (fs1, out) → P fs1)
    {fs fs1 : FileSystem} (ops : List Op) (h : P fs) (hr : run fs ops = some fs1) :
    P fs1 := by
  induction ops generalizing fs with
  | nil => simp only [run, Option.some.injEq] at hr; rw [← hr]; exact h
  | cons op ops ih =>
    simp only [run] at hr
    split at hr
    · cases hr
    · next fs2 out hs => exact ih (hstep _ _ op out h hs) hr

/-- A file whose root is frozen with empty content keeps such a root, under the same name,
through every call on a well-formed store. -/
theorem root_kept_step {fs fs1 : FileSystem} {out : Output} (op : Op) (f : String)
    (h : StoreWF fs ∧ ∃ a F r, fs.lookup f = .found a F ∧ F.nodes[0]? = some r ∧
      r.isSnapshot = true ∧ r.content = "")
    (hs : step fs op = some (fs1, out)) :
    StoreWF fs1 ∧ ∃ a F r, fs1.lookup f = .found a F ∧ F.nodes[0]? = some r ∧
      r.isSnapshot = true ∧ r.content = "" := by
  obtain ⟨hwf, a, F, r, hl, hr, hfr, hc⟩ := h
  obtain ⟨hget, hcell⟩ := lookup_found hl
  obtain ⟨F1, hc1, _, _, _, hcells⟩ := step_file_facts hwf op hs a F hcell
  obtain ⟨r1, hr1, _, _, hkeep⟩ := hcells 0 r hr
  obtain ⟨hk1, hk2⟩ := hkeep hfr
  exact ⟨storeWF_step hwf op hs, a, F1, r1,
    lookup_of_get (step_files_get op hs f a hget) hc1, hr1, hk2, by rw [hk1, hc]⟩

end

end FileSystem

/-- Counterexample to C14 as stated (every file created by `createFile`). When the file is
created at clock reading 0, the scenario `createFile a; update a x; snapshot a v1;
update a y; rollback a 0` ends with `readFile a` printing `x`, not the empty string: the
root was not frozen, so the first update edited it in place. -/
theorem rollback_root_counterexample :
    run FileSystem.init
      [.createFile "a" 0 0 0, .updateContent "a" "x" 0 0, .createSnapshot "a" "v1" 1 1,
       .updateContent "a" "y" 2 2, .rollback "a" 0 3] = some storeRootEdited ∧
    storeRootEdited.readFile "a" = some (storeRootEdited, .content "x") ∧
    storeRootEdited.readFile "a" ≠ some (storeRootEdited, .content "") := by
  refine ⟨rfl, rfl, ?_⟩
  intro h
  have h2 : storeRootEdited.readFile "a" = some (storeRootEdited, .content "x") := rfl
  rw [h2] at h
  have h3 := congrArg (fun o => Option.map Prod.snd o) h
  simp at h3

/-- C14, amended. For every reachable store, every file created in it by `createFile` with
a nonzero clock reading stored as snapshot timestamp, and every sequence of calls after the
creation: `rollback f 0` succeeds and `readFile f` then returns the empty string. -/
theorem rollback_root_reads_empty [StdHash String] [StdHash Int] (s0 s1 s2 : FileSystem)
    (hs0 : Reachable s0) (f : String) (t1 t2 t3 : time_t) (ht : t2 ≠ 0)
    (hcreate : s0.createFile f t1 t2 t3 = some (s1, .created f))
    (ops : List Op) (hrun : run s1 ops = some s2) (t : time_t) :
    ∃ s3, s2.rollback f 0 t = some (s3, .silent) ∧
      s3.readFile f = some (s3, .content "") := by
  have hwf0 := storeWF_of_reachable hs0
  have hwf1 : StoreWF s1 := storeWF_createFile hwf0 f t1 t2 t3 hcreate
  have hinv1 : StoreWF s1 ∧ ∃ a F r, s1.lookup f = .found a F ∧ F.nodes[0]? = some r ∧
      r.isSnapshot = true ∧ r.content = "" := by
    refine ⟨hwf1, ?_⟩
    rcases createFile_cases hcreate with ⟨_, hc⟩ | ⟨hg, _, h1⟩
    · cases hc
    · refine ⟨s0.fileObjs.length, createdFile t1 t2 t3,
        { TreeNode.new 0 "" none t1 with
          snapshot_timestamp := t2, message := "Initial snapshot" }, ?_, rfl, ?_, rfl⟩
      · rw [h1]
        apply lookup_of_get
        · show (s0.files.put f (some s0.fileObjs.length)).get f = _
          rw [HashMap.get_put_self]
        · show (s0.fileObjs ++ [createdFile t1 t2 t3])[s0.fileObjs.length]? = _
          rw [List.getElem?_append_right (Nat.le_refl _)]
          simp
      · simp [TreeNode.isSnapshot, ht]
  obtain ⟨hwf2, a, F, r, hl, hr, _, hc⟩ :=
    run_invariant
      (fun fs => StoreWF fs ∧ ∃ a F r, fs.lookup f = .found a F ∧ F.nodes[0]? = some r ∧
        r.isSnapshot = true ∧ r.content = "")
      (fun _ _ op _ h hs => root_kept_step op f h hs) ops hinv1 hrun
  have hF : FileWF F := hwf2.file_wf a F (lookup_found hl).2
  have hget : F.version_map.get 0 = some (some 0) := hF.vmap_in 0 hF.pos
  refine ⟨(rollbackTo s2 f a F 0 t).1, ?_, ?_⟩
  · rw [rollback_id_found hl 0 (by decide), hget]; rfl
  · have := readFile_setFile hl
      { F with active_version := some 0, last_modified := t } 0 r rfl hr
    rw [hc] at this
    exact this

/-- Witness of C14 amended, the scenario of the specification with the file created at
clock reading 1: after `createFile a; update a x; snapshot a v1; update a y`,
`rollback a 0` succeeds and `readFile a` returns the empty string. -/
theorem rollback_root_reads_empty_witness :
    Reachable FileSystem.init ∧ (1 : time_t) ≠ 0 ∧
    FileSystem.init.createFile "a" 1 1 1 = some (storeA, .created "a") ∧
    ∃ s2 s3, run storeA [.updateContent "a" "x" 1 1, .createSnapshot "a" "v1" 1 1,
        .updateContent "a" "y" 2 2] = some s2 ∧
      s2.rollback "a" 0 3 = some (s3, .silent) ∧
      s3.readFile "a" = some (s3, .content "") := by
  obtain ⟨s3, h1, h2⟩ :=
    rollback_root_reads_empty FileSystem.init storeA _ Reachable.init "a" 1 1 1 (by decide)
      (by rfl)
      [.updateContent "a" "x" 1 1, .createSnapshot "a" "v1" 1 1, .updateContent "a" "y" 2 2]
      (by rfl) 3
  exact ⟨Reachable.init, by decide, by rfl, _, s3, by rfl, h1, h2⟩

/-! ## Lemmas on the heap: the stored elements -/

namespace Heap

variable {T : Type}

theorem set_cons_perm (x y : T) :
    ∀ (t : List T) (k : Nat), t[k]? = some y → (y :: t.set k x).Perm (x :: t)
  | [], k, h => by simp at h
  | a :: t, 0, h => by
    simp only [List.getElem?_cons_zero, Option.some.injEq] at h
    subst h
    exact List.Perm.swap x a t
  | a :: t, k + 1, h => by
    simp only [List.getElem?_cons_succ] at h
    have ih := set_cons_perm x y t k h
    show (y :: a :: t.set k x).Perm (x :: a :: t)
    exact (List.Perm.swap a y _).trans ((ih.cons a).trans (List.Perm.swap x a t))

theorem swapAt_perm : ∀ (l : List T) (i j : Nat), (swapAt l i j).Perm l
  | [], i, j => by simp [swapAt]
  | a :: t, 0, 0 => by simp [swapAt]
  | a :: t, 0, j + 1 => by
    unfold swapAt
    cases h : t[j]? with
    | none => simp [h]
    | some y =>
      simp only [List.getElem?_cons_zero, List.getElem?_cons_succ, h, List.set_cons_zero,
        List.set_cons_succ]
      exact set_cons_perm a y t j h
  | a :: t, i + 1, 0 => by
    unfold swapAt
    cases h : t[i]? with
    | none => simp [h]
    | some x =>
      simp only [List.getElem?_cons_zero, List.getElem?_cons_succ, h, List.set_cons_zero,
        List.set_cons_succ]
      exact set_cons_perm a x t i h
  | a :: t, i + 1, j + 1 => by
    have ih := swapAt_perm t i j
    unfold swapAt at ih ⊢
    simp only [List.getElem?_cons_succ]
    cases hi : t[i]? with
    | none => simp
    | some x =>
      cases hj : t[j]? with
      | none => simp
      | some y =>
        simp only [hi, hj] at ih
        simp only [List.set_cons_succ]
        exact ih.cons a

theorem heapifyUpLoop_succ (compare : T → T → Bool) (fuel : Nat) (l : List T) (i : Nat) :
    heapifyUpLoop compare (fuel + 1) l i =
      if 0 < i then
        if compareAt compare l i ((i - 1) / 2) then
          heapifyUpLoop compare fuel (swapAt l i ((i - 1) / 2)) ((i - 1) / 2)
        else l
      else l := rfl

theorem heapifyDownLoop_succ (compare : T → T → Bool) (fuel : Nat) (l : List T) (i : Nat) :
    heapifyDownLoop compare (fuel + 1) l i =
      if largestOf compare l i ≠ i then
        heapifyDownLoop compare fuel (swapAt l i (largestOf compare l i)) (largestOf compare l i)
      else l := rfl

theorem heapifyUpLoop_perm (compare : T → T → Bool) :
    ∀ (fuel : Nat) (l : List T) (i : Nat), (heapifyUpLoop compare fuel l i).Perm l
  | 0, l, i => List.Perm.refl l
  | fuel + 1, l, i => by
    rw [heapifyUpLoop_succ]
    split
    · split
      · exact (heapifyUpLoop_perm compare fuel _ _).trans (swapAt_perm l i _)
      · exact List.Perm.refl l
    · exact List.Perm.refl l

theorem heapifyDownLoop_perm (compare : T → T → Bool) :
    ∀ (fuel : Nat) (l : List T) (i : Nat), (heapifyDownLoop compare fuel l i).Perm l
  | 0, l, i => List.Perm.refl l
  | fuel + 1, l, i => by
    rw [heapifyDownLoop_succ]
    split
    · exact (heapifyDownLoop_perm compare fuel _ _).trans (swapAt_perm l i _)
    · exact List.Perm.refl l

/-- `push` adds the item to the stored elements and keeps the comparison function. -/
theorem push_perm (h : Heap T) (x : T) :
    (h.push x).heap.Perm (h.heap ++ [x]) ∧ (h.push x).compare = h.compare :=
  ⟨heapifyUpLoop_perm _ _ _ _, rfl⟩

theorem pop_nil (h : Heap T) (hnil : h.heap = []) : h.pop = none := by
  unfold pop; rw [hnil]

theorem dropLast_append_getLast_cons (a : T) (t : List T) :
    ((a :: t).set 0 ((a :: t).getLast (List.cons_ne_nil a t))).dropLast.Perm t := by
  cases t with
  | nil => simp
  | cons b t =>
    have h1 : (a :: b :: t).getLast (List.cons_ne_nil a (b :: t)) =
        (b :: t).getLast (List.cons_ne_nil b t) := rfl
    rw [h1, List.set_cons_zero, List.dropLast_cons₂]
    have h2 := List.dropLast_append_getLast (List.cons_ne_nil b t)
    have h3 : ((b :: t).getLast (List.cons_ne_nil b t) :: (b :: t).dropLast).Perm
        ((b :: t).dropLast ++ [(b :: t).getLast (List.cons_ne_nil b t)]) :=
      (List.perm_append_singleton _ _).symm
    rw [h2] at h3
    exact h3

/-- `pop` on a non-empty heap returns the first element of the backing array, removes one
occurrence of it from the stored elements and keeps the comparison function. -/
theorem pop_cons (h : Heap T) (a : T) (t : List T) (hl : h.heap = a :: t) :
    ∃ h1, h.pop = some (a, h1) ∧ h1.heap.Perm t ∧ h1.compare = h.compare ∧
      h1.heap.length = t.length := by
  have hp := dropLast_append_getLast_cons a t
  unfold pop
  rw [hl]
  simp only
  split
  · exact ⟨_, rfl, hp, rfl, hp.length_eq⟩
  · refine ⟨_, rfl, ?_, rfl, ?_⟩
    · exact (heapifyDownLoop_perm _ _ _ _).trans hp
    · exact ((heapifyDownLoop_perm _ _ _ _).trans hp).length_eq

end Heap

namespace FileSystem

/-- The draining loop, given fuel for every stored element, pops all of them: what it
appends to `acc` is a permutation of the stored elements, and it leaves the heap empty. -/
theorem drain_spec {T : Type} :
    ∀ (fuel : Nat) (h : Heap T) (acc : List T), h.heap.length ≤ fuel →
      ∃ popped, (drain fuel h acc).1 = acc ++ popped ∧ popped.Perm h.heap ∧
        (drain fuel h acc).2.heap = [] ∧ (drain fuel h acc).2.compare = h.compare
  | 0, h, acc, hlen => by
    have hnil : h.heap = [] := List.length_eq_zero.mp (Nat.le_zero.mp hlen)
    exact ⟨[], by simp [drain], by rw [hnil], by simp [drain, hnil], rfl⟩
  | fuel + 1, h, acc, hlen => by
    cases hl : h.heap with
    | nil =>
      have he : h.empty = true := by simp [Heap.empty, hl]
      exact ⟨[], by simp [drain, he], List.Perm.refl _, by simp [drain, he, hl],
        by simp [drain, he]⟩
    | cons a t =>
      have he : h.empty = false := by simp [Heap.empty, hl]
      obtain ⟨h1, hpop, hperm, hcmp, hlen1⟩ := Heap.pop_cons h a t hl
      have hlen2 : h1.heap.length ≤ fuel := by
        rw [hl] at hlen; simp only [List.length_cons] at hlen; omega
      obtain ⟨popped, i1, i2, i3, i4⟩ := drain_spec fuel h1 (acc ++ [a]) hlen2
      have hd : drain (fuel + 1) h acc = drain fuel h1 (acc ++ [a]) := by
        simp [drain, he, hpop]
      rw [hd]
      refine ⟨a :: popped, ?_, (i2.trans hperm).cons a, i3, i4.trans hcmp⟩
      rw [i1]; simp

/-- The restoring loop adds the items to the stored elements. -/
theorem restore_spec {T : Type} :
    ∀ (l : List T) (h : Heap T),
      (restore h l).heap.Perm (h.heap ++ l) ∧ (restore h l).compare = h.compare
  | [], h => ⟨by simp [restore], rfl⟩
  | x :: l, h => by
    obtain ⟨i1, i2⟩ := restore_spec l (h.push x)
    obtain ⟨p1, p2⟩ := Heap.push_perm h x
    have hr : restore h (x :: l) = restore (h.push x) l := rfl
    rw [hr]
    refine ⟨?_, i2.trans p2⟩
    have h3 : ((h.push x).heap ++ l).Perm ((h.heap ++ [x]) ++ l) := p1.append_right l
    have h4 : (h.heap ++ [x]) ++ l = h.heap ++ x :: l := by simp
    rw [h4] at h3
    exact i1.trans h3

/-- What a query pops from a heap is a permutation of its stored elements, and the heap it
restores holds a permutation of them too, with the same comparison function. -/
theorem query_heap {T : Type} (h : Heap T) :
    (drain h.size h []).1.Perm h.heap ∧
    (restore (drain h.size h []).2 (drain h.size h []).1).heap.Perm h.heap ∧
    (restore (drain h.size h []).2 (drain h.size h []).1).compare = h.compare := by
  obtain ⟨popped, i1, i2, i3, i4⟩ := drain_spec h.size h [] (Nat.le_refl _)
  obtain ⟨r1, r2⟩ := restore_spec (drain h.size h []).1 (drain h.size h []).2
  rw [List.nil_append] at i1
  rw [i3, List.nil_append] at r1
  refine ⟨by rw [i1]; exact i2, ?_, r2.trans i4⟩
  exact r1.trans (by rw [i1]; exact i2)

end FileSystem

/-! ## Lemmas on the top-K query -/

namespace FileSystem

theorem mergeUnique_keys (item : Int × String) :
    ∀ u : List (Int × String),
      (mergeUnique item u).map Prod.snd =
        if item.2 ∈ u.map Prod.snd then u.map Prod.snd else u.map Prod.snd ++ [item.2]
  | [] => by simp [mergeUnique]
  | a :: rest => by
    by_cases h : a.2 = item.2
    · have hm : (mergeUnique item (a :: rest)).map Prod.snd = a.2 :: rest.map Prod.snd := by
        simp only [mergeUnique, if_pos h]
        split <;> simp
      rw [hm]
      simp [h]
    · have ih := mergeUnique_keys item rest
      have hne : ¬ item.2 = a.2 := fun hc => h hc.symm
      simp only [mergeUnique, if_neg h, List.map_cons, ih, List.mem_cons, hne, false_or]
      split <;> simp

theorem mergeUnique_mem (item : Int × String) :
    ∀ u : List (Int × String), (u.map Prod.snd).Nodup →
      ∀ e ∈ mergeUnique item u,
        (e ∈ u ∧ (e.2 ≠ item.2 ∨ item.1 ≤ e.1)) ∨
        (e = item ∧ ∀ x ∈ u, x.2 = item.2 → x.1 < item.1)
  | [], _, e, he => by
    simp only [mergeUnique, List.mem_singleton] at he
    exact Or.inr ⟨he, fun x hx => by simp at hx⟩
  | a :: rest, hnd, e, he => by
    have hnd2 : a.2 ∉ rest.map Prod.snd ∧ (rest.map Prod.snd).Nodup := by
      simpa using hnd
    by_cases h : a.2 = item.2
    · simp only [mergeUnique, if_pos h, List.mem_cons] at he
      rcases he with he | he
      · by_cases hlt : a.1 < item.1
        · rw [if_pos hlt] at he
          right
          refine ⟨by rw [he, h], ?_⟩
          intro x hx hx2
          rcases List.mem_cons.mp hx with hxa | hxr
          · rw [hxa]; exact hlt
          · exfalso
            apply hnd2.1
            rw [h, ← hx2]
            exact List.mem_map_of_mem _ hxr
        · rw [if_neg hlt] at he
          left
          rw [he]
          exact ⟨List.mem_cons_self _ _, Or.inr (by omega)⟩
      · left
        refine ⟨List.mem_cons_of_mem _ he, Or.inl ?_⟩
        intro hc
        apply hnd2.1
        rw [h, ← hc]
        exact List.mem_map_of_mem _ he
    · simp only [mergeUnique, if_neg h, List.mem_cons] at he
      rcases he with he | he
      · left
        rw [he]
        exact ⟨List.mem_cons_self _ _, Or.inl h⟩
      · rcases mergeUnique_mem item rest hnd2.2 e he with ⟨h1, h2⟩ | ⟨h1, h2⟩
        · exact Or.inl ⟨List.mem_cons_of_mem _ h1, h2⟩
        · right
          refine ⟨h1, ?_⟩
          intro x hx hx2
          rcases List.mem_cons.mp hx with hxa | hxr
          · rw [hxa] at hx2; exact absurd hx2 h
          · exact h2 x hxr hx2

/-- One step of the duplicate removal keeps the list of maxima per key up to date. -/
theorem mergeUnique_maxPerKey (pre u : List (Int × String)) (item : Int × String)
    (h : MaxPerKey pre u) : MaxPerKey (pre ++ [item]) (mergeUnique item u) := by
  obtain ⟨h1, h2, h3⟩ := h
  have hkeys := mergeUnique_keys item u
  refine ⟨?_, ?_, ?_⟩
  · rw [hkeys]
    split
    · exact h1
    · next hn =>
      exact List.Nodup.append h1 (List.nodup_singleton _) (by simpa using hn)
  · intro e he
    rcases mergeUnique_mem item u h1 e he with ⟨m1, m2⟩ | ⟨m1, m2⟩
    · obtain ⟨p1, p2⟩ := h2 e m1
      refine ⟨List.mem_append_left _ p1, ?_⟩
      intro x hx hx2
      rcases List.mem_append.mp hx with hxp | hxi
      · exact p2 x hxp hx2
      · simp only [List.mem_singleton] at hxi
        subst hxi
        rcases m2 with m2 | m2
        · exact absurd hx2.symm m2
        · exact m2
    · subst m1
      refine ⟨List.mem_append_right _ (List.mem_singleton_self _), ?_⟩
      intro x hx hx2
      rcases List.mem_append.mp hx with hxp | hxi
      · obtain ⟨y, hy, hy2⟩ := List.mem_map.mp (h3 x hxp)
        obtain ⟨_, p2⟩ := h2 y hy
        have := p2 x hxp hy2.symm
        have := m2 y hy (hy2.trans hx2)
        omega
      · simp only [List.mem_singleton] at hxi
        rw [hxi]
  · intro x hx
    rw [hkeys]
    rcases List.mem_append.mp hx with hxp | hxi
    · split
      · exact h3 x hxp
      · exact List.mem_append_left _ (h3 x hxp)
    · simp only [List.mem_singleton] at hxi
      subst hxi
      split
      · next hin => exact hin
      · exact List.mem_append_right _ (List.mem_singleton_self _)

theorem foldl_mergeUnique (l : List (Int × String)) :
    ∀ (pre u : List (Int × String)), MaxPerKey pre u →
      MaxPerKey (pre ++ l) (l.foldl (fun uniqueFiles item => mergeUnique item uniqueFiles) u) := by
  induction l with
  | nil => intro pre u h; simpa using h
  | cons x l ih =>
    intro pre u h
    have := ih (pre ++ [x]) (mergeUnique x u) (mergeUnique_maxPerKey pre u x h)
    simpa using this

/-- The duplicate removal yields, once per key, the maximum score of every key. -/
theorem uniqueOf_maxPerKey (obs : List (Int × String)) : MaxPerKey obs (uniqueOf obs) := by
  have h0 : MaxPerKey [] [] := ⟨List.nodup_nil, fun e he => by simp at he,
    fun x hx => by simp at hx⟩
  have := foldl_mergeUnique obs [] [] h0
  simpa [uniqueOf] using this

/-- `MaxPerKey` does not depend on the order of either list. -/
theorem maxPerKey_perm {obs obs1 u u1 : List (Int × String)} (ho : obs.Perm obs1)
    (hu : u.Perm u1) (h : MaxPerKey obs u) : MaxPerKey obs1 u1 := by
  obtain ⟨h1, h2, h3⟩ := h
  refine ⟨(hu.map Prod.snd).nodup_iff.mp h1, ?_, ?_⟩
  · intro e he
    obtain ⟨p1, p2⟩ := h2 e (hu.mem_iff.mpr he)
    exact ⟨ho.mem_iff.mp p1, fun x hx => p2 x (ho.mem_iff.mpr hx)⟩
  · intro x hx
    exact (hu.map Prod.snd).mem_iff.mp (h3 x (ho.mem_iff.mpr hx))

end FileSystem

namespace FileSystem

theorem sortedInsert_perm (x : Int × String) :
    ∀ l : List (Int × String), (sortedInsert x l).Perm (x :: l)
  | [] => List.Perm.refl _
  | y :: rest => by
    by_cases h : x.1 > y.1
    · simp only [sortedInsert, if_pos h]; exact List.Perm.refl _
    · simp only [sortedInsert, if_neg h]
      exact ((sortedInsert_perm x rest).cons y).trans (List.Perm.swap x y rest)

theorem sortedInsert_sorted (x : Int × String) :
    ∀ l : List (Int × String), l.Pairwise (fun a b => a.1 ≥ b.1) →
      (sortedInsert x l).Pairwise (fun a b => a.1 ≥ b.1)
  | [], _ => List.pairwise_singleton _ _
  | y :: rest, hs => by
    obtain ⟨hy, hrest⟩ := List.pairwise_cons.mp hs
    by_cases h : x.1 > y.1
    · simp only [sortedInsert, if_pos h]
      refine List.pairwise_cons.mpr ⟨?_, hs⟩
      intro z hz
      rcases List.mem_cons.mp hz with hzy | hzr
      · rw [hzy]; omega
      · have := hy z hzr; omega
    · simp only [sortedInsert, if_neg h]
      refine List.pairwise_cons.mpr ⟨?_, sortedInsert_sorted x rest hrest⟩
      intro z hz
      rcases List.mem_cons.mp ((sortedInsert_perm x rest).mem_iff.mp hz) with hzx | hzr
      · rw [hzx]; omega
      · exact hy z hzr

theorem foldl_sortedInsert (l : List (Int × String)) :
    ∀ acc : List (Int × String), acc.Pairwise (fun a b => a.1 ≥ b.1) →
      (l.foldl (fun sorted x => sortedInsert x sorted) acc).Perm (acc ++ l) ∧
      (l.foldl (fun sorted x => sortedInsert x sorted) acc).Pairwise (fun a b => a.1 ≥ b.1) := by
  induction l with
  | nil => intro acc h; exact ⟨by simp, h⟩
  | cons x l ih =>
    intro acc h
    obtain ⟨i1, i2⟩ := ih (sortedInsert x acc) (sortedInsert_sorted x acc h)
    refine ⟨?_, i2⟩
    have h1 : (sortedInsert x acc ++ l).Perm ((x :: acc) ++ l) :=
      (sortedInsert_perm x acc).append_right l
    have h2 : ((x :: acc) ++ l).Perm (acc ++ x :: l) := by
      simpa using (@List.perm_middle _ x acc l).symm
    exact i1.trans (h1.trans h2)

/-- The sort yields a permutation of its input with non-increasing scores. -/
theorem sortDesc_spec (l : List (Int × String)) :
    (sortDesc l).Perm l ∧ (sortDesc l).Pairwise (fun a b => a.1 ≥ b.1) := by
  have := foldl_sortedInsert l [] List.Pairwise.nil
  simpa [sortDesc] using this

/-- The display loop prints the first `num - count` entries, none when that is not
positive. -/
theorem display_eq (num : Int) :
    ∀ (l : List (Int × String)) (count : Int),
      display num count l = (l.take (num - count).toNat).map (fun item => (item.2, item.1))
  | [], count => by simp [display]
  | item :: rest, count => by
    by_cases h : count ≥ num
    · have h0 : (num - count).toNat = 0 := by omega
      simp [display, h, h0]
    · have h1 : (num - count).toNat = (num - (count + 1)).toNat + 1 := by omega
      simp only [display, if_neg h, h1, List.take_succ_cons, List.map_cons,
        display_eq num rest (count + 1)]

end FileSystem

namespace FileSystem

/-- The list of maxima per key has one entry per distinct key. -/
theorem maxPerKey_length {obs u : List (Int × String)} (h : MaxPerKey obs u) :
    u.length = distinctKeys obs := by
  obtain ⟨h1, h2, h3⟩ := h
  have hperm : (u.map Prod.snd).Perm (obs.map Prod.snd).dedup := by
    apply (List.perm_ext_iff_of_nodup h1 (List.nodup_dedup _)).mpr
    intro key
    rw [List.mem_dedup]
    constructor
    · intro hk
      obtain ⟨e, he, hek⟩ := List.mem_map.mp hk
      exact List.mem_map.mpr ⟨e, (h2 e he).1, hek⟩
    · intro hk
      obtain ⟨x, hx, hxk⟩ := List.mem_map.mp hk
      rw [← hxk]; exact h3 x hx
  have := hperm.length_eq
  simpa [distinctKeys] using this

/-- What the first `n` entries of a sorted list of maxima per key satisfy. -/
theorem topK_props {obs full : List (Int × String)} (hm : MaxPerKey obs full)
    (hs : full.Pairwise (fun a b => a.1 ≥ b.1)) (n : Nat) :
    ((full.take n).map (fun item => (item.2, item.1))).length = min n (distinctKeys obs) ∧
    (((full.take n).map (fun item => (item.2, item.1))).map Prod.fst).Nodup ∧
    (∀ e ∈ (full.take n).map (fun item => (item.2, item.1)),
      (e.2, e.1) ∈ obs ∧ ∀ x ∈ obs, x.2 = e.1 → x.1 ≤ e.2) ∧
    ((full.take n).map (fun item => (item.2, item.1))).Pairwise (fun a b => a.2 ≥ b.2) ∧
    (∀ x ∈ obs, x.2 ∉ ((full.take n).map (fun item => (item.2, item.1))).map Prod.fst →
      ∀ e ∈ (full.take n).map (fun item => (item.2, item.1)), x.1 ≤ e.2) := by
  obtain ⟨h1, h2, h3⟩ := hm
  have hkeys : ((full.take n).map (fun item => (item.2, item.1))).map Prod.fst =
      (full.take n).map Prod.snd := by
    rw [List.map_map]; rfl
  refine ⟨?_, ?_, ?_, ?_, ?_⟩
  · rw [List.length_map, List.length_take, maxPerKey_length ⟨h1, h2, h3⟩]
  · rw [hkeys]
    exact List.Nodup.sublist ((List.take_sublist n full).map Prod.snd) h1
  · intro e he
    obtain ⟨y, hy, hye⟩ := List.mem_map.mp he
    subst hye
    exact h2 y ((List.take_sublist n full).subset hy)
  · rw [List.pairwise_map]
    exact List.Pairwise.sublist (List.take_sublist n full) hs
  · intro x hx hnot e he
    rw [hkeys] at hnot
    obtain ⟨y, hy, hyx⟩ := List.mem_map.mp (h3 x hx)
    have hxy := (h2 y hy).2 x hx hyx.symm
    have hsplit : full = full.take n ++ full.drop n := (List.take_append_drop n full).symm
    rw [hsplit] at hy hs
    rcases List.mem_append.mp hy with hyt | hyd
    · exact absurd (List.mem_map.mpr ⟨y, hyt, hyx⟩) hnot
    · obtain ⟨z, hz, hze⟩ := List.mem_map.mp he
      subst hze
      have := (List.pairwise_append.mp hs).2.2 z hz y hyd
      show x.1 ≤ z.1
      omega

/-- The entries a top-K query displays from a heap whose stored elements are the
observations `obs`: the first `k` entries (none for `k ≤ 0`) of a list that holds the
maximum per key once per key, sorted by non-increasing score. -/
theorem query_output (h : Heap (Int × String)) (obs : List (Int × String))
    (hobs : h.heap.Perm obs) (k : Int) :
    MaxPerKey obs (sortDesc (uniqueOf (drain h.size h []).1)) ∧
    (sortDesc (uniqueOf (drain h.size h []).1)).Pairwise (fun a b => a.1 ≥ b.1) ∧
    display k 0 (sortDesc (uniqueOf (drain h.size h []).1)) =
      ((sortDesc (uniqueOf (drain h.size h []).1)).take k.toNat).map
        (fun item => (item.2, item.1)) := by
  obtain ⟨hd, _, _⟩ := query_heap h
  obtain ⟨s1, s2⟩ := sortDesc_spec (uniqueOf (drain h.size h []).1)
  refine ⟨?_, s2, ?_⟩
  · exact maxPerKey_perm (hd.trans hobs) s1.symm (uniqueOf_maxPerKey _)
  · rw [display_eq]; simp

end FileSystem

namespace FileSystem

theorem topKSpec_of_query (h : Heap (Int × String)) (obs : List (Int × String))
    (hobs : h.heap.Perm obs) (k : Int) :
    TopKSpec obs k (display k 0 (sortDesc (uniqueOf (drain h.size h []).1))) := by
  obtain ⟨q1, q2, q3⟩ := query_output h obs hobs k
  obtain ⟨p1, p2, p3, p4, p5⟩ := topK_props q1 q2 k.toNat
  rw [q3]
  refine ⟨p1, p2, p3, p4, p5, ?_⟩
  intro hk
  have h0 : k.toNat = 0 := by omega
  simp [h0]

end FileSystem

/-- C11. For every store, every count `k` and every list `obs` of observations of which
the backing array of the heap is a permutation (any order of recording, any number of
earlier queries): `showRecentFiles k` displays a list that satisfies `TopKSpec obs k`, and
likewise `showBiggestTrees k`; and the heap obtained by recording a sequence `obs` of
observations, one push each, holds a permutation of `obs`. -/
theorem topK_query_spec [StdHash String] [StdHash Int] (s : FileSystem) (k : Int)
    (obs : List (Int × String)) :
    (s.recentFilesHeap.heap.Perm obs →
      ∃ s1 out, s.showRecentFiles k = some (s1, .recent out) ∧ TopKSpec obs k out) ∧
    (s.biggestTreesHeap.heap.Perm obs →
      ∃ s1 out, s.showBiggestTrees k = some (s1, .biggest out) ∧ TopKSpec obs k out) ∧
    (restore (Heap.mk0 compareRecent) obs).heap.Perm obs ∧
    (restore (Heap.mk0 compareBiggest) obs).heap.Perm obs := by
  refine ⟨?_, ?_, ?_, ?_⟩
  · intro hobs
    exact ⟨_, _, showRecentFiles_eq s k, topKSpec_of_query _ obs hobs k⟩
  · intro hobs
    exact ⟨_, _, showBiggestTrees_eq s k, topKSpec_of_query _ obs hobs k⟩
  · simpa [Heap.mk0] using (restore_spec obs (Heap.mk0 compareRecent)).1
  · simpa [Heap.mk0] using (restore_spec obs (Heap.mk0 compareBiggest)).1

/-- Witness of C11 on the store after `createFile a; createFile b; insert b x` at the clock
readings 1, 2, 3: the recorded recency observations are (1, a), (2, b), (3, b), and
`showRecentFiles 5` displays b with 3, then a with 1. -/
theorem topK_query_spec_witness :
    storeTwo.recentFilesHeap.heap.Perm [(1, "a"), (2, "b"), (3, "b")] ∧
    ∃ s1, storeTwo.showRecentFiles 5 = some (s1, .recent [("b", 3), ("a", 1)]) ∧
      TopKSpec [(1, "a"), (2, "b"), (3, "b")] 5 [("b", 3), ("a", 1)] := by
  have hperm : storeTwo.recentFilesHeap.heap.Perm [(1, "a"), (2, "b"), (3, "b")] := by
    have h0 : storeTwo.recentFilesHeap.heap = [(3, "b"), (1, "a"), (2, "b")] := by rfl
    rw [h0]; decide
  obtain ⟨s1, out, h1, h2⟩ :=
    (topK_query_spec storeTwo 5 [(1, "a"), (2, "b"), (3, "b")]).1 hperm
  have h3 : storeTwo.showRecentFiles 5 =
      some ((storeTwo.showRecentFiles 5).get (by rfl) |>.1, .recent [("b", 3), ("a", 1)]) := by
    rfl
  rw [h3] at h1
  simp only [Option.some.injEq, Prod.mk.injEq, Output.recent.injEq] at h1
  rw [← h1.2] at h2
  exact ⟨hperm, _, h3, h2⟩

/-! ## Lemmas on the heap: the max-heap property -/

namespace Heap

section
variable {T : Type} (score : T → Int) (compare : T → T → Bool)

theorem swapAt_length (l : List T) (i j : Nat) : (swapAt l i j).length = l.length :=
  (swapAt_perm l i j).length_eq

theorem scoreAt_swapAt (l : List T) (i j : Nat) (hi : i < l.length) (hj : j < l.length)
    (k : Nat) :
    scoreAt score (swapAt l i j) k =
      if k = j then scoreAt score l i else if k = i then scoreAt score l j
      else scoreAt score l k := by
  have hxi : l[i]? = some (l[i]) := List.getElem?_eq_getElem hi
  have hxj : l[j]? = some (l[j]) := List.getElem?_eq_getElem hj
  simp only [scoreAt, swapAt, hxi, hxj]
  by_cases hkj : k = j
  · subst hkj
    simp [List.getElem?_set, hj]
  · rw [if_neg hkj, List.getElem?_set_ne (Ne.symm hkj)]
    by_cases hki : k = i
    · subst hki
      simp [List.getElem?_set, hi]
    · rw [if_neg hki, List.getElem?_set_ne (Ne.symm hki)]

theorem compareAt_eq (hc : ∀ a b, compare a b = decide (score a > score b)) (l : List T)
    (i j : Nat) (hi : i < l.length) (hj : j < l.length) :
    compareAt compare l i j = decide (scoreAt score l i > scoreAt score l j) := by
  have hxi : l[i]? = some (l[i]) := List.getElem?_eq_getElem hi
  have hxj : l[j]? = some (l[j]) := List.getElem?_eq_getElem hj
  simp only [compareAt, scoreAt, hxi, hxj, hc]

theorem isMaxHeap_iff (hc : ∀ a b, compare a b = decide (score a > score b)) (l : List T) :
    IsMaxHeap compare l ↔
      ∀ i, 0 < i → i < l.length → scoreAt score l i ≤ scoreAt score l ((i - 1) / 2) := by
  constructor
  · intro h i h0 hi
    have := h i h0 hi
    rw [compareAt_eq score compare hc l i _ hi (by omega)] at this
    simpa using this
  · intro h i h0 hi
    rw [compareAt_eq score compare hc l i _ hi (by omega)]
    simpa using h i h0 hi

/-- The loop of `heapifyUp`, started at `i` with at least `i` units of fuel on an array that
has the heap property everywhere except between `i` and its parent, and whose elements
below `i` respect the parent of `i`, yields an array with the heap property. -/
theorem heapifyUpLoop_heap (hc : ∀ a b, compare a b = decide (score a > score b)) :
    ∀ (fuel : Nat) (l : List T) (i : Nat), i ≤ fuel → i < l.length →
      (∀ k, 0 < k → k < l.length → k ≠ i →
        scoreAt score l k ≤ scoreAt score l ((k - 1) / 2)) →
      (∀ k, 0 < k → k < l.length → (k - 1) / 2 = i → 0 < i →
        scoreAt score l k ≤ scoreAt score l ((i - 1) / 2)) →
      IsMaxHeap compare (heapifyUpLoop compare fuel l i) := by
  intro fuel
  induction fuel with
  | zero =>
    intro l i hif hil h1 h2
    have hi0 : i = 0 := by omega
    subst hi0
    rw [isMaxHeap_iff score compare hc]
    intro k hk0 hkl
    exact h1 k hk0 hkl (by omega)
  | succ fuel ih =>
    intro l i hif hil h1 h2
    rw [heapifyUpLoop_succ]
    by_cases hi0 : 0 < i
    · rw [if_pos hi0]
      have hpl : (i - 1) / 2 < l.length := by omega
      rw [compareAt_eq score compare hc l i _ hil hpl]
      by_cases hgt : scoreAt score l i > scoreAt score l ((i - 1) / 2)
      · rw [decide_eq_true hgt, if_pos rfl]
        apply ih
        · omega
        · rw [swapAt_length]; exact hpl
        · intro k hk0 hkl hkp
          rw [swapAt_length] at hkl
          rw [scoreAt_swapAt score l i _ hil hpl, scoreAt_swapAt score l i _ hil hpl]
          rw [if_neg hkp]
          by_cases hki : k = i
          · subst hki
            rw [if_pos rfl, if_pos rfl]; omega
          · rw [if_neg hki]
            have hk1 := h1 k hk0 hkl hki
            by_cases hpp : (k - 1) / 2 = (i - 1) / 2
            · rw [if_pos hpp]
              rw [hpp] at hk1; omega
            · rw [if_neg hpp]
              by_cases hpi : (k - 1) / 2 = i
              · rw [if_pos hpi]
                exact h2 k hk0 hkl hpi hi0
              · rw [if_neg hpi]; exact hk1
        · intro k hk0 hkl hkp hp0
          rw [swapAt_length] at hkl
          rw [scoreAt_swapAt score l i _ hil hpl, scoreAt_swapAt score l i _ hil hpl]
          have hne1 : k ≠ (i - 1) / 2 := by omega
          have hne2 : ((i - 1) / 2 - 1) / 2 ≠ (i - 1) / 2 := by omega
          have hne3 : ((i - 1) / 2 - 1) / 2 ≠ i := by omega
          rw [if_neg hne1, if_neg hne2, if_neg hne3]
          have hp1 := h1 ((i - 1) / 2) hp0 hpl (by omega)
          by_cases hki : k = i
          · rw [if_pos hki]; exact hp1
          · rw [if_neg hki]
            have hk1 := h1 k hk0 hkl hki
            rw [hkp] at hk1
            omega
      · rw [decide_eq_false hgt]
        simp only [Bool.false_eq_true, if_false]
        rw [isMaxHeap_iff score compare hc]
        intro k hk0 hkl
        by_cases hki : k = i
        · subst hki; omega
        · exact h1 k hk0 hkl hki
    · rw [if_neg hi0]
      rw [isMaxHeap_iff score compare hc]
      intro k hk0 hkl
      exact h1 k hk0 hkl (by omega)

end

end Heap

namespace Heap

section
variable {T : Type} (score : T → Int) (compare : T → T → Bool)

theorem largestOf_spec (hc : ∀ a b, compare a b = decide (score a > score b)) (l : List T)
    (i : Nat) (hi : i < l.length) :
    (largestOf compare l i = i ∨ largestOf compare l i = 2 * i + 1 ∨
      largestOf compare l i = 2 * i + 2) ∧
    largestOf compare l i < l.length ∧
    (largestOf compare l i ≠ i →
      scoreAt score l (largestOf compare l i) > scoreAt score l i) ∧
    (∀ k, k < l.length → (k = 2 * i + 1 ∨ k = 2 * i + 2) →
      scoreAt score l k ≤ scoreAt score l (largestOf compare l i)) := by
  unfold largestOf
  simp only
  by_cases hl : 2 * i + 1 < l.length
  · have e1 := compareAt_eq score compare hc l (2 * i + 1) i hl hi
    by_cases hgl : scoreAt score l (2 * i + 1) > scoreAt score l i
    · have c1 : (decide (2 * i + 1 < l.length) && compareAt compare l (2 * i + 1) i) = true := by
        simp [hl, e1, hgl]
      simp only [c1, if_true]
      by_cases hr : 2 * i + 2 < l.length
      · have e2 := compareAt_eq score compare hc l (2 * i + 2) (2 * i + 1) hr hl
        by_cases hgr : scoreAt score l (2 * i + 2) > scoreAt score l (2 * i + 1)
        · have c2 : (decide (2 * i + 2 < l.length) &&
              compareAt compare l (2 * i + 2) (2 * i + 1)) = true := by simp [hr, e2, hgr]
          simp only [c2, if_true]
          refine ⟨by simp, hr, fun _ => by omega, ?_⟩
          rintro k hk (rfl | rfl) <;> omega
        · have c2 : (decide (2 * i + 2 < l.length) &&
              compareAt compare l (2 * i + 2) (2 * i + 1)) = false := by simp [hr, e2, hgr]
          simp only [c2, Bool.false_eq_true, if_false]
          refine ⟨by simp, hl, fun _ => hgl, ?_⟩
          rintro k hk (rfl | rfl) <;> omega
      · have c2 : (decide (2 * i + 2 < l.length) &&
            compareAt compare l (2 * i + 2) (2 * i + 1)) = false := by simp [hr]
        simp only [c2, Bool.false_eq_true, if_false]
        refine ⟨by simp, hl, fun _ => hgl, ?_⟩
        rintro k hk (rfl | rfl) <;> omega
    · have c1 : (decide (2 * i + 1 < l.length) && compareAt compare l (2 * i + 1) i) = false := by
        simp [hl, e1, hgl]
      simp only [c1, Bool.false_eq_true, if_false]
      by_cases hr : 2 * i + 2 < l.length
      · have e2 := compareAt_eq score compare hc l (2 * i + 2) i hr hi
        by_cases hgr : scoreAt score l (2 * i + 2) > scoreAt score l i
        · have c2 : (decide (2 * i + 2 < l.length) &&
              compareAt compare l (2 * i + 2) i) = true := by simp [hr, e2, hgr]
          simp only [c2, if_true]
          refine ⟨by simp, hr, fun _ => hgr, ?_⟩
          rintro k hk (rfl | rfl) <;> omega
        · have c2 : (decide (2 * i + 2 < l.length) &&
              compareAt compare l (2 * i + 2) i) = false := by simp [hr, e2, hgr]
          simp only [c2, Bool.false_eq_true, if_false]
          refine ⟨by simp, hi, fun h => absurd rfl h, ?_⟩
          rintro k hk (rfl | rfl) <;> omega
      · have c2 : (decide (2 * i + 2 < l.length) &&
            compareAt compare l (2 * i + 2) i) = false := by simp [hr]
        simp only [c2, Bool.false_eq_true, if_false]
        refine ⟨by simp, hi, fun h => absurd rfl h, ?_⟩
        rintro k hk (rfl | rfl) <;> omega
  · have c1 : (decide (2 * i + 1 < l.length) && compareAt compare l (2 * i + 1) i) = false := by
      simp [hl]
    have c2 : (decide (2 * i + 2 < l.length) && compareAt compare l (2 * i + 2) i) = false := by
      have : ¬ 2 * i + 2 < l.length := by omega
      simp [this]
    simp only [c1, c2, Bool.false_eq_true, if_false]
    refine ⟨by simp, hi, fun h => absurd rfl h, ?_⟩
    rintro k hk (rfl | rfl) <;> omega

end
end Heap

namespace Heap

section
variable {T : Type} (score : T → Int) (compare : T → T → Bool)

/-- The loop of `heapifyDown`, started at `i` with fuel for every index from `i` to the end
of an array that has the heap property everywhere except between `i` and its children, and
whose children of `i` respect the parent of `i`, yields an array with the heap property. -/
theorem heapifyDownLoop_heap (hc : ∀ a b, compare a b = decide (score a > score b)) :
    ∀ (fuel : Nat) (l : List T) (i : Nat), l.length ≤ fuel + i → i < l.length →
      (∀ k, 0 < k → k < l.length → (k - 1) / 2 ≠ i →
        scoreAt score l k ≤ scoreAt score l ((k - 1) / 2)) →
      (∀ k, 0 < k → k < l.length → (k - 1) / 2 = i → 0 < i →
        scoreAt score l k ≤ scoreAt score l ((i - 1) / 2)) →
      IsMaxHeap compare (heapifyDownLoop compare fuel l i) := by
  intro fuel
  induction fuel with
  | zero =>
    intro l i hf hil h1 h2
    omega
  | succ fuel ih =>
    intro l i hf hil h1 h2
    obtain ⟨s1, s2, s3, s4⟩ := largestOf_spec score compare hc l i hil
    rw [heapifyDownLoop_succ]
    by_cases hci : largestOf compare l i = i
    · rw [if_neg (by simpa using hci)]
      rw [hci] at s4
      rw [isMaxHeap_iff score compare hc]
      intro k hk0 hkl
      by_cases hp : (k - 1) / 2 = i
      · rw [hp]
        exact s4 k hkl (by omega)
      · exact h1 k hk0 hkl hp
    · rw [if_pos hci]
      have hgt := s3 hci
      generalize largestOf compare l i = c at s1 s2 s4 hci hgt
      have hcpar : (c - 1) / 2 = i := by omega
      have hc0 : 0 < c := by omega
      by_cases hcl : fuel + c < l.length
      · omega
      · apply ih
        · rw [swapAt_length]; omega
        · rw [swapAt_length]; exact s2
        · intro k hk0 hkl hkp
          rw [swapAt_length] at hkl
          rw [scoreAt_swapAt score l i c hil s2, scoreAt_swapAt score l i c hil s2]
          by_cases hkc : k = c
          · subst hkc
            have hne : (k - 1) / 2 ≠ k := by omega
            rw [if_pos rfl, if_neg hne, if_pos hcpar]
            omega
          · rw [if_neg hkc, if_neg hkp]
            by_cases hki : k = i
            · subst hki
              have hne : (k - 1) / 2 ≠ k := by omega
              rw [if_pos rfl, if_neg hne]
              exact h2 c hc0 s2 hcpar hk0
            · rw [if_neg hki]
              by_cases hpi : (k - 1) / 2 = i
              · rw [if_pos hpi]
                exact s4 k hkl (by omega)
              · rw [if_neg hpi]
                exact h1 k hk0 hkl hpi
        · intro k hk0 hkl hkp _
          rw [swapAt_length] at hkl
          rw [scoreAt_swapAt score l i c hil s2, scoreAt_swapAt score l i c hil s2]
          have hne1 : k ≠ c := by omega
          have hne2 : k ≠ i := by omega
          have hne3 : (c - 1) / 2 ≠ c := by omega
          rw [if_neg hne1, if_neg hne2, if_neg hne3, if_pos hcpar]
          have := h1 k hk0 hkl (by omega)
          rw [hkp] at this
          exact this

end

end Heap

namespace Heap

section
variable {T : Type} (score : T → Int) (compare : T → T → Bool)

theorem isMaxHeap_nil : IsMaxHeap compare ([] : List T) := by
  intro i _ hi
  simp at hi

/-- `push` keeps the max-heap property. -/
theorem push_heap (hc : ∀ a b, compare a b = decide (score a > score b)) (h : Heap T)
    (hcmp : h.compare = compare) (hh : IsMaxHeap compare h.heap) (x : T) :
    IsMaxHeap compare (h.push x).heap := by
  have hh2 := (isMaxHeap_iff score compare hc h.heap).mp hh
  have hscore : ∀ k, k < h.heap.length →
      scoreAt score (h.heap ++ [x]) k = scoreAt score h.heap k := by
    intro k hk
    simp only [scoreAt, List.getElem?_append_left hk]
  have hpush : (h.push x).heap =
      heapifyUpLoop compare h.heap.length (h.heap ++ [x]) h.heap.length := by
    simp [push, heapifyUp, hcmp]
  rw [hpush]
  apply heapifyUpLoop_heap score compare hc
  · exact Nat.le_refl _
  · simp
  · intro k hk0 hkl hkn
    simp only [List.length_append, List.length_singleton] at hkl
    have hk : k < h.heap.length := by omega
    rw [hscore k hk, hscore _ (by omega)]
    exact hh2 k hk0 hk
  · intro k hk0 hkl hkp _
    simp only [List.length_append, List.length_singleton] at hkl
    omega

/-- `pop` keeps the max-heap property. -/
theorem pop_heap (hc : ∀ a b, compare a b = decide (score a > score b)) (h h1 : Heap T)
    (x : T) (hcmp : h.compare = compare) (hh : IsMaxHeap compare h.heap)
    (hpop : h.pop = some (x, h1)) : IsMaxHeap compare h1.heap := by
  have hh2 := (isMaxHeap_iff score compare hc h.heap).mp hh
  cases hl : h.heap with
  | nil => rw [pop_nil h hl] at hpop; cases hpop
  | cons a t =>
    rw [hl] at hh2
    unfold pop at hpop
    rw [hl] at hpop
    simp only at hpop
    have hlen : (((a :: t).set 0 ((a :: t).getLast (List.cons_ne_nil a t))).dropLast).length =
        t.length := by simp
    have hscore : ∀ k, 0 < k → k < t.length →
        scoreAt score (((a :: t).set 0 ((a :: t).getLast (List.cons_ne_nil a t))).dropLast) k =
          scoreAt score (a :: t) k := by
      intro k hk0 hk
      simp only [scoreAt]
      rw [List.getElem?_dropLast, if_pos (by simpa using hk),
        List.getElem?_set_ne (by omega)]
    split at hpop
    · next hempty =>
      simp only [Option.some.injEq, Prod.mk.injEq] at hpop
      rw [← hpop.2]
      simp only [List.isEmpty_eq_true] at hempty
      show IsMaxHeap compare (((a :: t).set 0 _).dropLast)
      rw [hempty]
      exact isMaxHeap_nil compare
    · next hne =>
      simp only [Option.some.injEq, Prod.mk.injEq] at hpop
      rw [← hpop.2]
      have ht : 0 < t.length := by
        rcases Nat.eq_zero_or_pos t.length with h0 | hpos
        · exfalso
          apply hne
          have : (((a :: t).set 0 ((a :: t).getLast (List.cons_ne_nil a t))).dropLast) = [] :=
            List.length_eq_zero.mp (by rw [hlen]; exact h0)
          rw [this]; rfl
        · exact hpos
      show IsMaxHeap compare (heapifyDownLoop h.compare _ _ 0)
      rw [hcmp]
      apply heapifyDownLoop_heap score compare hc
      · omega
      · rw [hlen]; exact ht
      · intro k hk0 hkl hkp
        rw [hlen] at hkl
        rw [hscore k hk0 hkl, hscore _ (by omega) (by omega)]
        exact hh2 k hk0 (by simp only [List.length_cons]; omega)
      · intro k _ _ _ h0
        omega

/-- In an array with the max-heap property no element has a score above that of the first
one. -/
theorem heap_root_max (hc : ∀ a b, compare a b = decide (score a > score b)) (l : List T)
    (hh : IsMaxHeap compare l) :
    ∀ k, k < l.length → scoreAt score l k ≤ scoreAt score l 0 := by
  have hh2 := (isMaxHeap_iff score compare hc l).mp hh
  intro k
  induction k using Nat.strong_induction_on with
  | _ k ih =>
    intro hk
    rcases Nat.eq_zero_or_pos k with h0 | hpos
    · subst h0; exact Int.le_refl _
    · have h1 := hh2 k hpos hk
      have h2 := ih ((k - 1) / 2) (by omega) (by omega)
      omega

theorem heap_head_max (hc : ∀ a b, compare a b = decide (score a > score b)) (a : T)
    (t : List T) (hh : IsMaxHeap compare (a :: t)) : ∀ y ∈ a :: t, score y ≤ score a := by
  intro y hy
  obtain ⟨k, hk⟩ := List.mem_iff_getElem?.mp hy
  have hkl := FileSystem.lt_of_getElem?_eq_some hk
  have := heap_root_max score compare hc (a :: t) hh k hkl
  simpa [scoreAt, hk] using this

end

end Heap

namespace FileSystem

/-- On a heap with the max-heap property the draining loop pops the stored elements in
non-increasing score order and leaves the heap empty. -/
theorem drain_sorted {T : Type} (score : T → Int) (compare : T → T → Bool)
    (hc : ∀ a b, compare a b = decide (score a > score b)) :
    ∀ (fuel : Nat) (h : Heap T) (acc : List T), h.heap.length ≤ fuel →
      h.compare = compare → Heap.IsMaxHeap compare h.heap →
      ∃ popped, (drain fuel h acc).1 = acc ++ popped ∧ popped.Perm h.heap ∧
        popped.Pairwise (fun a b => score a ≥ score b) ∧ (drain fuel h acc).2.heap = []
  | 0, h, acc, hlen, _, _ => by
    have hnil : h.heap = [] := List.length_eq_zero.mp (Nat.le_zero.mp hlen)
    exact ⟨[], by simp [drain], by rw [hnil], List.Pairwise.nil, by simp [drain, hnil]⟩
  | fuel + 1, h, acc, hlen, hcmp, hh => by
    cases hl : h.heap with
    | nil =>
      have he : h.empty = true := by simp [Heap.empty, hl]
      exact ⟨[], by simp [drain, he], List.Perm.refl _, List.Pairwise.nil,
        by simp [drain, he, hl]⟩
    | cons a t =>
      have he : h.empty = false := by simp [Heap.empty, hl]
      obtain ⟨h1, hpop, hperm, hcmp1, hlen1⟩ := Heap.pop_cons h a t hl
      have hlen2 : h1.heap.length ≤ fuel := by
        rw [hl] at hlen; simp only [List.length_cons] at hlen; omega
      have hh1 := Heap.pop_heap score compare hc h h1 a hcmp hh hpop
      obtain ⟨popped, i1, i2, i3, i4⟩ :=
        drain_sorted score compare hc fuel h1 (acc ++ [a]) hlen2 (hcmp1.trans hcmp) hh1
      have hd : drain (fuel + 1) h acc = drain fuel h1 (acc ++ [a]) := by
        simp [drain, he, hpop]
      rw [hd]
      refine ⟨a :: popped, ?_, (i2.trans hperm).cons a, ?_, i4⟩
      · rw [i1]; simp
      · refine List.pairwise_cons.mpr ⟨?_, i3⟩
        intro y hy
        rw [hl] at hh
        exact Heap.heap_head_max score compare hc a t hh y
          (List.mem_cons_of_mem a ((i2.trans hperm).mem_iff.mp hy))

end FileSystem

/-- C17. For a comparison function that is "strictly greater score", every heap obtained
from the empty heap by any sequence of `push` and `pop` calls keeps that comparison
function and has the max-heap property; a further `push` keeps the property and adds the
item to the stored elements; `pop` on an empty heap gives the "Heap is empty" error; `pop`
on a non-empty heap returns an element of maximal score, removes exactly that one
occurrence (what is left, with the returned element, is a permutation of what was stored)
and keeps the property; and popping until the heap is empty yields all stored elements in
non-increasing score order. -/
theorem heap_correct {T : Type} (score : T → Int) (comp : T → T → Bool)
    (hcomp : ∀ a b, comp a b = decide (score a > score b)) (h : Heap T)
    (hb : Heap.Built comp h) :
    h.compare = comp ∧ Heap.IsMaxHeap comp h.heap ∧
    (∀ item, Heap.IsMaxHeap comp (h.push item).heap ∧
      (h.push item).heap.Perm (item :: h.heap)) ∧
    (h.heap = [] → h.pop = none) ∧
    (h.heap ≠ [] → ∃ x h1, h.pop = some (x, h1) ∧ Heap.IsMaxHeap comp h1.heap ∧
      (x :: h1.heap).Perm h.heap ∧ ∀ y ∈ h.heap, score y ≤ score x) ∧
    ((FileSystem.drain h.size h []).1.Perm h.heap ∧
      (FileSystem.drain h.size h []).1.Pairwise (fun a b => score a ≥ score b) ∧
      (FileSystem.drain h.size h []).2.heap = []) := by
  have inv : h.compare = comp ∧ Heap.IsMaxHeap comp h.heap := by
    induction hb with
    | init => exact ⟨rfl, Heap.isMaxHeap_nil comp⟩
    | push h item _ ih =>
      exact ⟨(Heap.push_perm h item).2.trans ih.1,
        Heap.push_heap score comp hcomp h ih.1 ih.2 item⟩
    | pop h h1 item _ hpop ih =>
      refine ⟨?_, Heap.pop_heap score comp hcomp h h1 item ih.1 ih.2 hpop⟩
      cases hl : h.heap with
      | nil => rw [Heap.pop_nil h hl] at hpop; cases hpop
      | cons a t =>
        obtain ⟨h2, hp2, _, hc2, _⟩ := Heap.pop_cons h a t hl
        rw [hp2] at hpop
        simp only [Option.some.injEq, Prod.mk.injEq] at hpop
        rw [← hpop.2, hc2]; exact ih.1
  obtain ⟨hcmp, hh⟩ := inv
  refine ⟨hcmp, hh, ?_, Heap.pop_nil h, ?_, ?_⟩
  · intro item
    refine ⟨Heap.push_heap score comp hcomp h hcmp hh item, ?_⟩
    exact (Heap.push_perm h item).1.trans (List.perm_append_singleton item h.heap)
  · intro hne
    cases hl : h.heap with
    | nil => exact absurd hl hne
    | cons a t =>
      obtain ⟨h1, hpop, hperm, _, _⟩ := Heap.pop_cons h a t hl
      refine ⟨a, h1, hpop, Heap.pop_heap score comp hcomp h h1 a hcmp hh hpop,
        hperm.cons a, ?_⟩
      rw [hl] at hh
      exact Heap.heap_head_max score comp hcomp a t hh
  · obtain ⟨popped, i1, i2, i3, i4⟩ :=
      FileSystem.drain_sorted score comp hcomp h.size h [] (Nat.le_refl _) hcmp hh
    rw [List.nil_append] at i1
    rw [i1]
    exact ⟨i2, i3, i4⟩

/-- Witness of C17: the heap after `push (1, a); push (2, b); push (3, b)` has the backing
array (3, b), (1, a), (2, b); `pop` returns (3, b), and popping until empty yields
(3, b), (2, b), (1, a). -/
theorem heap_correct_witness :
    (∀ a b : time_t × String, compareRecent a b = decide (a.1 > b.1)) ∧
    Heap.Built compareRecent heapTwo ∧
    heapTwo.heap = [(3, "b"), (1, "a"), (2, "b")] ∧
    Heap.IsMaxHeap compareRecent heapTwo.heap ∧
    (∃ h1, heapTwo.pop = some ((3, "b"), h1) ∧ h1.heap = [(2, "b"), (1, "a")]) ∧
    (FileSystem.drain heapTwo.size heapTwo []).1 = [(3, "b"), (2, "b"), (1, "a")] ∧
    (FileSystem.drain heapTwo.size heapTwo []).1.Pairwise (fun a b => a.1 ≥ b.1) := by
  have hc : ∀ a b : time_t × String, compareRecent a b = decide (a.1 > b.1) :=
    fun _ _ => rfl
  have hb : Heap.Built compareRecent heapTwo :=
    Heap.Built.push _ _ (Heap.Built.push _ _ (Heap.Built.push _ _ Heap.Built.init))
  obtain ⟨_, h2, _, _, _, _, h7, _⟩ := heap_correct Prod.fst compareRecent hc heapTwo hb
  exact ⟨hc, hb, by rfl, h2, ⟨_, by rfl, by rfl⟩, by rfl, h7⟩

namespace FileSystem

/-- The restoring loop keeps the max-heap property. -/
theorem restore_heap {T : Type} (score : T → Int) (compare : T → T → Bool)
    (hc : ∀ a b, compare a b = decide (score a > score b)) :
    ∀ (l : List T) (h : Heap T), h.compare = compare → Heap.IsMaxHeap compare h.heap →
      Heap.IsMaxHeap compare (restore h l).heap
  | [], _, _, hh => hh
  | x :: l, h, hcmp, hh =>
    restore_heap score compare hc l (h.push x) ((Heap.push_perm h x).2.trans hcmp)
      (Heap.push_heap score compare hc h hcmp hh x)

/-- The heap that a query leaves holds a permutation of the stored elements and has the
max-heap property, whatever the backing array was before. -/
theorem query_restores {T : Type} (score : T → Int) (compare : T → T → Bool)
    (hc : ∀ a b, compare a b = decide (score a > score b)) (h : Heap T)
    (hcmp : h.compare = compare) :
    (restore (drain h.size h []).2 (drain h.size h []).1).heap.Perm h.heap ∧
    Heap.IsMaxHeap compare (restore (drain h.size h []).2 (drain h.size h []).1).heap ∧
    (restore (drain h.size h []).2 (drain h.size h []).1).compare = compare := by
  obtain ⟨_, q2, q3⟩ := query_heap h
  obtain ⟨popped, _, _, i3, i4⟩ := drain_spec h.size h [] (Nat.le_refl _)
  refine ⟨q2, ?_, q3.trans hcmp⟩
  apply restore_heap score compare hc _ _ (i4.trans hcmp)
  rw [i3]
  exact Heap.isMaxHeap_nil compare

end FileSystem

/-- C20. The analytics queries only read the recorded observations. For every store whose
heaps carry the comparison functions of the constructor, whatever their backing arrays, and
every count `k`: `showRecentFiles k` returns a store whose recency heap holds a permutation
of the observations held before and has the max-heap property, and whose name table, file
cells (trees, active versions, version counts, modification times) and size heap are
unchanged; likewise `showBiggestTrees k` for the size heap. -/
theorem queries_read_only [StdHash String] [StdHash Int] (s : FileSystem) (k : Int)
    (hr : s.recentFilesHeap.compare = compareRecent)
    (hg : s.biggestTreesHeap.compare = compareBiggest) :
    (∃ s1 out, s.showRecentFiles k = some (s1, out) ∧
      s1.recentFilesHeap.heap.Perm s.recentFilesHeap.heap ∧
      Heap.IsMaxHeap compareRecent s1.recentFilesHeap.heap ∧
      s1.recentFilesHeap.compare = compareRecent ∧
      s1.files = s.files ∧ s1.fileObjs = s.fileObjs ∧
      s1.biggestTreesHeap = s.biggestTreesHeap) ∧
    (∃ s1 out, s.showBiggestTrees k = some (s1, out) ∧
      s1.biggestTreesHeap.heap.Perm s.biggestTreesHeap.heap ∧
      Heap.IsMaxHeap compareBiggest s1.biggestTreesHeap.heap ∧
      s1.biggestTreesHeap.compare = compareBiggest ∧
      s1.files = s.files ∧ s1.fileObjs = s.fileObjs ∧
      s1.recentFilesHeap = s.recentFilesHeap) := by
  obtain ⟨a1, a2, a3⟩ :=
    query_restores Prod.fst compareRecent (fun _ _ => rfl) s.recentFilesHeap hr
  obtain ⟨b1, b2, b3⟩ :=
    query_restores Prod.fst compareBiggest (fun _ _ => rfl) s.biggestTreesHeap hg
  exact ⟨⟨_, _, showRecentFiles_eq s k, a1, a2, a3, rfl, rfl, rfl⟩,
    ⟨_, _, showBiggestTrees_eq s k, b1, b2, b3, rfl, rfl, rfl⟩⟩

/-- Witness of C20 on the store after `createFile a; createFile b; insert b x`. -/
theorem queries_read_only_witness :
    storeTwo.recentFilesHeap.compare = compareRecent ∧
    storeTwo.biggestTreesHeap.compare = compareBiggest ∧
    ∃ s1 out, storeTwo.showRecentFiles 1 = some (s1, out) ∧
      s1.recentFilesHeap.heap.Perm storeTwo.recentFilesHeap.heap ∧
      Heap.IsMaxHeap compareRecent s1.recentFilesHeap.heap ∧
      s1.fileObjs = storeTwo.fileObjs := by
  obtain ⟨⟨s1, out, h1, h2, h3, _, _, h6, _⟩, _⟩ :=
    queries_read_only storeTwo 1 (by rfl) (by rfl)
  exact ⟨by rfl, by rfl, s1, out, h1, h2, h3, h6⟩

namespace FileSystem

end FileSystem

namespace FileSystem

section
variable [StdHash String] [StdHash Int]

/-- What one call does to the observations of the recency heap: it keeps them, up to their
order, or adds the observation of the call. -/
theorem step_recent {fs fs1 : FileSystem} {out : Output} (op : Op)
    (h : step fs op = some (fs1, out)) :
    fs1.recentFilesHeap.heap.Perm fs.recentFilesHeap.heap ∨
    ∃ x, op.observation = some x ∧
      fs1.recentFilesHeap.heap.Perm (x :: fs.recentFilesHeap.heap) := by
  have hpush : ∀ (g : FileSystem) (f : String) (file : File),
      (updateAnalytics g f file).recentFilesHeap.heap.Perm
        ((file.last_modified, f) :: g.recentFilesHeap.heap) := by
    intro g f file
    exact (Heap.push_perm g.recentFilesHeap _).1.trans (List.perm_append_singleton _ _)
  cases op with
  | createFile f t1 t2 t3 =>
    rcases createFile_cases h with ⟨h1, _⟩ | ⟨_, _, h1⟩
    · rw [h1]; exact Or.inl (List.Perm.refl _)
    · rw [h1]; exact Or.inr ⟨(t3, f), rfl, hpush _ f (createdFile t1 t2 t3)⟩
  | readFile f => rw [readFile_state h]; exact Or.inl (List.Perm.refl _)
  | insertContent f c t1 t2 =>
    rcases insertContent_cases h with ⟨h1, _⟩ | ⟨a, file, av, active, hl, hav, hact⟩
    · rw [h1]; exact Or.inl (List.Perm.refl _)
    · simp only [step] at h
      rw [insertContent_found hl hav hact] at h
      cases h
      exact Or.inr ⟨(t2, f), rfl, hpush _ f _⟩
  | updateContent f c t1 t2 =>
    rcases updateContent_cases h with ⟨h1, _⟩ | ⟨a, file, av, active, hl, hav, hact⟩
    · rw [h1]; exact Or.inl (List.Perm.refl _)
    · simp only [step] at h
      rw [updateContent_found hl hav hact] at h
      cases h
      exact Or.inr ⟨(t2, f), rfl, hpush _ f _⟩
  | createSnapshot f m t1 t2 =>
    rcases createSnapshot_cases h with ⟨h1, _⟩ | ⟨a, file, av, active, hl, hav, hact⟩
    · rw [h1]; exact Or.inl (List.Perm.refl _)
    · simp only [step] at h
      rw [createSnapshot_found hl hav hact] at h
      split at h
      · cases h; exact Or.inl (List.Perm.refl _)
      · cases h
        exact Or.inr ⟨(t2, f), rfl, hpush _ f _⟩
  | rollback f v t =>
    rcases rollback_cases h with ⟨h1, _⟩ | ⟨a, file, target, _, h1⟩
    · rw [h1]; exact Or.inl (List.Perm.refl _)
    · simp only [rollbackTo, Prod.mk.injEq] at h1
      rw [h1.1]
      exact Or.inr ⟨(t, f), rfl, hpush _ f _⟩
  | showHistory fuel f => rw [showHistory_state h]; exact Or.inl (List.Perm.refl _)
  | showRecentFiles k =>
    simp only [step, showRecentFiles_eq, Option.some.injEq, Prod.mk.injEq] at h
    rw [← h.1]
    exact Or.inl (query_heap fs.recentFilesHeap).2.1
  | showBiggestTrees k =>
    simp only [step, showBiggestTrees_eq, Option.some.injEq, Prod.mk.injEq] at h
    rw [← h.1]
    exact Or.inl (List.Perm.refl _)

/-- Every observation of the recency heap after a sequence of calls was there before or is
the observation of one of the calls. -/
theorem run_recent (ops : List Op) :
    ∀ {fs fs1 : FileSystem}, run fs ops = some fs1 →
      ∀ x ∈ fs1.recentFilesHeap.heap,
        x ∈ fs.recentFilesHeap.heap ∨ ∃ op ∈ ops, op.observation = some x := by
  induction ops with
  | nil =>
    intro fs fs1 hr x hx
    simp only [run, Option.some.injEq] at hr
    rw [← hr] at hx; exact Or.inl hx
  | cons op ops ih =>
    intro fs fs1 hr x hx
    simp only [run] at hr
    split at hr
    · cases hr
    · next fs2 out hs =>
      rcases ih hr x hx with h2 | ⟨op2, hop2, hm⟩
      · rcases step_recent op hs with hp | ⟨y, hm, hp⟩
        · exact Or.inl (hp.mem_iff.mp h2)
        · rcases List.mem_cons.mp (hp.mem_iff.mp h2) with hxe | hxo
          · right
            exact ⟨op, List.mem_cons_self _ _, by rw [hm, hxe]⟩
          · exact Or.inl hxo
      · exact Or.inr ⟨op2, List.mem_cons_of_mem _ hop2, hm⟩

/-- A sequence of queries keeps the observations of the recency heap, up to their order. -/
theorem run_queries_recent (qs : List Op) (hq : ∀ q ∈ qs, q.isQuery = true) :
    ∀ {fs fs1 : FileSystem}, run fs qs = some fs1 →
      fs1.recentFilesHeap.heap.Perm fs.recentFilesHeap.heap := by
  induction qs with
  | nil =>
    intro fs fs1 hr
    simp only [run, Option.some.injEq] at hr
    rw [← hr]
  | cons op qs ih =>
    intro fs fs1 hr
    simp only [run] at hr
    split at hr
    · cases hr
    · next fs2 out hs =>
      have h2 := ih (fun q hq2 => hq q (List.mem_cons_of_mem _ hq2)) hr
      have hop := hq op (List.mem_cons_self _ _)
      rcases step_recent op hs with hp | ⟨y, hm, _⟩
      · exact h2.trans hp
      · cases op <;> simp [Op.isQuery, Op.observation] at hop hm

/-- When one observation has a score that no other observation exceeds and that only
observations of the same key equal, the top-1 query displays it. -/
theorem top1_of_max (h : Heap (Int × String)) (T : Int) (b : String)
    (rest : List (Int × String)) (hperm : h.heap.Perm ((T, b) :: rest))
    (hlt : ∀ x ∈ rest, x.1 ≤ T ∧ (x.1 = T → x.2 = b)) :
    display 1 0 (sortDesc (uniqueOf (drain h.size h []).1)) = [(b, T)] := by
  obtain ⟨q1, q2, q3⟩ := query_output h _ hperm 1
  rw [q3]
  obtain ⟨m1, m2, m3⟩ := q1
  have hle : ∀ x ∈ (T, b) :: rest, x.1 ≤ T ∧ (x.1 = T → x = (T, b)) := by
    intro x hx
    rcases List.mem_cons.mp hx with hxe | hxr
    · rw [hxe]; exact ⟨Int.le_refl _, fun _ => rfl⟩
    · obtain ⟨h1, h2⟩ := hlt x hxr
      exact ⟨h1, fun hc => Prod.ext hc (h2 hc)⟩
  obtain ⟨y, hy, hyk⟩ := List.mem_map.mp (m3 (T, b) (List.mem_cons_self _ _))
  have hyT : y = (T, b) := by
    obtain ⟨p1, p2⟩ := m2 y hy
    have h1 := p2 (T, b) (List.mem_cons_self _ _) hyk.symm
    have h2 := (hle y p1).1
    exact (hle y p1).2 (by simp only at h1; omega)
  cases hfull : sortDesc (uniqueOf (drain h.size h []).1) with
  | nil => rw [hfull] at hy; simp at hy
  | cons e tl =>
    rw [hfull] at hy q2 m2
    have he : e = (T, b) := by
      obtain ⟨p1, _⟩ := m2 e (List.mem_cons_self _ _)
      rcases List.mem_cons.mp hy with hye | hyt
      · rw [← hye]; exact hyT
      · have h1 := (List.pairwise_cons.mp q2).1 y hyt
        rw [hyT] at h1
        have h2 := (hle e p1).1
        exact (hle e p1).2 (by simp only at h1; omega)
    rw [he]
    rfl

end

end FileSystem

/-- Counterexample to C15 as stated. `createFile a; createFile b; insert b x`, with every
clock reading equal to 1 (a non-decreasing sequence of readings), leaves a store in which
`showRecentFiles 1` displays the file a. -/
theorem recent_after_insert_counterexample :
    run FileSystem.init
        [.createFile "a" 1 1 1, .createFile "b" 1 1 1, .insertContent "b" "x" 1 1] =
      some storeTie ∧
    ∃ s1, storeTie.showRecentFiles 1 = some (s1, .recent [("a", 1)]) :=
  ⟨by rfl, _, by rfl⟩

/-- C15, amended. In the store `s` reached from the empty store by any sequence of calls,
the elements of the recency heap are observations (modification time, file name) of those
calls. Let b be an existing file and let the clock reading `T` taken by an insert into b be
at least every recorded modification time and strictly greater than every modification time
recorded for a file other than b. Then the insert succeeds, and after it and any further
calls that are all queries (`readFile`, `showHistory`, `showRecentFiles`,
`showBiggestTrees`), `showRecentFiles 1` displays exactly the file b with the time `T`. -/
theorem recent_after_insert [StdHash String] [StdHash Int] (ops : List Op) (s : FileSystem)
    (hrun : run FileSystem.init ops = some s) (b c : String) (t1 T : time_t) (F : File)
    (hb : s.file? b = some F)
    (hT : ∀ x ∈ s.recentFilesHeap.heap, x.1 ≤ T ∧ (x.1 = T → x.2 = b))
    (queries : List Op) (hq : ∀ q ∈ queries, q.isQuery = true) :
    (∀ x ∈ s.recentFilesHeap.heap, ∃ op ∈ ops, op.observation = some x) ∧
    ∃ s1, s.insertContent b c t1 T = some (s1, .silent) ∧
      ∀ s2, run s1 queries = some s2 →
        ∃ s3, s2.showRecentFiles 1 = some (s3, .recent [(b, T)]) := by
  have hwf := storeWF_of_reachable (reachable_run ops Reachable.init hrun)
  obtain ⟨a, hl⟩ := file?_eq_some.mp hb
  obtain ⟨av, active, hav, hact, _⟩ := active_cell (hwf.file_wf a F (lookup_found hl).2)
  have hins := insertContent_found hl hav hact c t1 T
  refine ⟨?_, _, hins, ?_⟩
  · intro x hx
    rcases run_recent ops hrun x hx with h0 | h1
    · simp [FileSystem.init, Heap.mk0] at h0
    · exact h1
  intro s2 hr2
  have hp1 : ∀ g : FileSystem, ∀ f : String, ∀ file : File,
      (updateAnalytics g f file).recentFilesHeap.heap.Perm
        ((file.last_modified, f) :: g.recentFilesHeap.heap) := by
    intro g f file
    exact (Heap.push_perm g.recentFilesHeap _).1.trans (List.perm_append_singleton _ _)
  have hp2 := (run_queries_recent queries hq hr2).trans (hp1 _ _ _)
  exact ⟨_, by rw [showRecentFiles_eq, top1_of_max s2.recentFilesHeap T b _ hp2 hT]⟩

/-- Witness of C15 amended: after `createFile a; createFile b` at the readings 1 and 2, an
insert into b at the same reading 2 as the creation of b, followed by `readFile a` and
`showBiggestTrees 3`, makes `showRecentFiles 1` display b with the time 2. -/
theorem recent_after_insert_witness :
    storePair.recentFilesHeap.heap = [(2, "b"), (1, "a")] ∧
    ∃ s1, storePair.insertContent "b" "x" 2 2 = some (s1, .silent) ∧
      ∀ s2, run s1 [.readFile "a", .showBiggestTrees 3] = some s2 →
        ∃ s3, s2.showRecentFiles 1 = some (s3, .recent [("b", 2)]) :=
  ⟨by rfl,
    (recent_after_insert [.createFile "a" 1 1 1, .createFile "b" 2 2 2] storePair (by rfl)
      "b" "x" 2 2 (createdFile 2 2 2) (by rfl)
      (by
        have h0 : storePair.recentFilesHeap.heap = [(2, "b"), (1, "a")] := by rfl
        rw [h0]
        decide)
      [.readFile "a", .showBiggestTrees 3]
      (by
        intro q hq
        simp only [List.mem_cons, List.mem_singleton, List.not_mem_nil, or_false] at hq
        rcases hq with rfl | rfl <;> rfl)).2⟩

namespace FileSystem

section
variable [StdHash String] [StdHash Int]

theorem sizeInv_init : SizeInv FileSystem.init where
  inj := by
    intro f g a hf
    simp [FileSystem.init, HashMap.get_empty] at hf
  named := by
    intro a ha
    simp [FileSystem.init] at ha
  bounded := by
    intro x hx
    simp [FileSystem.init, Heap.mk0] at hx
  current := by
    intro f a F hf
    simp [FileSystem.init, HashMap.get_empty] at hf

/-- The invariant only reads the name table, the `File` cells and the elements of the size
heap, whatever their order. -/
theorem sizeInv_of_same {fs fs1 : FileSystem} (hi : SizeInv fs) (h1 : fs1.files = fs.files)
    (h2 : fs1.fileObjs = fs.fileObjs)
    (h3 : fs1.biggestTreesHeap.heap.Perm fs.biggestTreesHeap.heap) : SizeInv fs1 where
  inj := by rw [h1]; exact hi.inj
  named := by rw [h1, h2]; exact hi.named
  bounded := by
    intro x hx
    rw [h1, h2]
    exact hi.bounded x (h3.mem_iff.mp hx)
  current := by
    intro f a F hf hF
    rw [h1] at hf
    rw [h2] at hF
    exact h3.mem_iff.mpr (hi.current f a F hf hF)

theorem updateAnalytics_biggest (g : FileSystem) (f : String) (file : File) :
    (updateAnalytics g f file).biggestTreesHeap.heap.Perm
      ((file.total_versions, f) :: g.biggestTreesHeap.heap) :=
  (Heap.push_perm g.biggestTreesHeap _).1.trans (List.perm_append_singleton _ _)

/-- Every call keeps the invariant of the size heap. -/
theorem sizeInv_step {fs fs1 : FileSystem} {out : Output} (hwf : StoreWF fs)
    (hi : SizeInv fs) (op : Op) (h : step fs op = some (fs1, out)) : SizeInv fs1 := by
  rcases step_shape op h with h1 | ⟨k, rfl⟩ | ⟨k, rfl⟩ | ⟨f, t1, t2, t3, _, hfresh, h1⟩ |
    ⟨f, a, G, G1, hl, hstep, h1⟩
  · rw [h1]; exact hi
  · simp only [step, showRecentFiles_eq, Option.some.injEq, Prod.mk.injEq] at h
    rw [← h.1]
    exact sizeInv_of_same hi rfl rfl (List.Perm.refl _)
  · simp only [step, showBiggestTrees_eq, Option.some.injEq, Prod.mk.injEq] at h
    rw [← h.1]
    exact sizeInv_of_same hi rfl rfl (query_heap fs.biggestTreesHeap).2.1
  · have hfiles : ∀ g : String, fs1.files.get g =
        if g = f then some (some fs.fileObjs.length) else fs.files.get g := by
      intro g; rw [h1]; exact HashMap.get_put _ _ _ _
    have hobjs : fs1.fileObjs = fs.fileObjs ++ [createdFile t1 t2 t3] := by rw [h1]; rfl
    have hheap : fs1.biggestTreesHeap.heap.Perm
        (((createdFile t1 t2 t3).total_versions, f) :: fs.biggestTreesHeap.heap) := by
      rw [h1]; exact updateAnalytics_biggest _ _ _
    have hold : ∀ (g : String) (b : Nat), fs.files.get g = some (some b) →
        g ≠ f ∧ b < fs.fileObjs.length := by
      intro g b hg
      obtain ⟨b2, hb2, hlt⟩ := hwf.files_valid g _ hg
      cases hb2
      exact ⟨(fun hc => by rw [hc, hfresh] at hg; cases hg), hlt⟩
    refine ⟨?_, ?_, ?_, ?_⟩
    · intro g1 g2 b hg1 hg2
      rw [hfiles] at hg1 hg2
      by_cases c1 : g1 = f <;> by_cases c2 : g2 = f
      · rw [c1, c2]
      · rw [if_pos c1] at hg1; rw [if_neg c2] at hg2
        cases hg1
        exact absurd (hold g2 _ hg2).2 (Nat.lt_irrefl _)
      · rw [if_neg c1] at hg1; rw [if_pos c2] at hg2
        cases hg2
        exact absurd (hold g1 _ hg1).2 (Nat.lt_irrefl _)
      · rw [if_neg c1] at hg1; rw [if_neg c2] at hg2
        exact hi.inj g1 g2 b hg1 hg2
    · intro b hb
      rw [hobjs, List.length_append, List.length_singleton] at hb
      by_cases c : b = fs.fileObjs.length
      · exact ⟨f, by rw [hfiles, if_pos rfl, c]⟩
      · obtain ⟨g, hg⟩ := hi.named b (by omega)
        exact ⟨g, by rw [hfiles, if_neg (hold g b hg).1]; exact hg⟩
    · intro x hx
      rcases List.mem_cons.mp (hheap.mem_iff.mp hx) with hx1 | hx1
      · refine ⟨fs.fileObjs.length, createdFile t1 t2 t3, ?_, ?_, ?_⟩
        · rw [hfiles, hx1, if_pos rfl]
        · rw [hobjs]; simp
        · rw [hx1]
      · obtain ⟨b, F, hb, hF, hle⟩ := hi.bounded x hx1
        refine ⟨b, F, ?_, ?_, hle⟩
        · rw [hfiles, if_neg (hold _ b hb).1]; exact hb
        · rw [hobjs, List.getElem?_append_left (hold _ b hb).2]; exact hF
    · intro g b F hg hF
      rw [hfiles] at hg
      rw [hobjs] at hF
      apply hheap.mem_iff.mpr
      by_cases c : g = f
      · rw [if_pos c] at hg
        cases hg
        simp only [List.getElem?_concat_length, Option.some.injEq] at hF
        rw [← hF, c]
        exact List.mem_cons_self _ _
      · rw [if_neg c] at hg
        rw [List.getElem?_append_left (hold g b hg).2] at hF
        exact List.mem_cons_of_mem _ (hi.current g b F hg hF)
  · obtain ⟨hget, hcell⟩ := lookup_found hl
    have ha : a < fs.fileObjs.length := lt_of_getElem?_eq_some hcell
    obtain ⟨_, _, htv, _⟩ := fileStep_facts (hwf.file_wf a G hcell) hstep
    have hfiles : fs1.files = fs.files := by rw [h1]; rfl
    have hobjs : fs1.fileObjs = fs.fileObjs.set a G1 := by rw [h1]; rfl
    have hheap : fs1.biggestTreesHeap.heap.Perm
        ((G1.total_versions, f) :: fs.biggestTreesHeap.heap) := by
      rw [h1]; exact updateAnalytics_biggest _ _ _
    refine ⟨?_, ?_, ?_, ?_⟩
    · rw [hfiles]; exact hi.inj
    · intro b hb
      rw [hobjs, List.length_set] at hb
      rw [hfiles]; exact hi.named b hb
    · intro x hx
      rw [hfiles, hobjs]
      rcases List.mem_cons.mp (hheap.mem_iff.mp hx) with hx1 | hx1
      · refine ⟨a, G1, by rw [hx1]; exact hget, ?_, by rw [hx1]⟩
        rw [List.getElem?_set_self ha]
      · obtain ⟨b, F, hb, hF, hle⟩ := hi.bounded x hx1
        by_cases c : a = b
        · subst c
          rw [hcell] at hF; cases hF
          exact ⟨a, G1, hb, by rw [List.getElem?_set_self ha], Int.le_trans hle htv⟩
        · exact ⟨b, F, hb, by rw [List.getElem?_set_ne c]; exact hF, hle⟩
    · intro g b F hg hF
      rw [hfiles] at hg
      rw [hobjs] at hF
      apply hheap.mem_iff.mpr
      by_cases c : a = b
      · subst c
        rw [List.getElem?_set_self ha] at hF
        cases hF
        rw [hi.inj g f a hg hget]
        exact List.mem_cons_self _ _
      · rw [List.getElem?_set_ne c] at hF
        exact List.mem_cons_of_mem _ (hi.current g b F hg hF)

/-- Every reachable store satisfies the invariant of the size heap. -/
theorem sizeInv_of_reachable {fs : FileSystem} (h : Reachable fs) : SizeInv fs := by
  induction h with
  | init => exact sizeInv_init
  | step op hr heq ih => exact sizeInv_step (storeWF_of_reachable hr) ih op heq

end

end FileSystem

namespace FileSystem

section
variable [StdHash String] [StdHash Int]

/-- The list of maxima per key of the size heap, in a store with the invariant of the size
heap: it has one entry per `File` cell, and its entries are the registered names, each with
the current `total_versions` of its file. -/
theorem sizeInv_maxPerKey {fs : FileSystem} (hi : SizeInv fs) {full : List (Int × String)}
    (hm : MaxPerKey fs.biggestTreesHeap.heap full) :
    full.length = fs.fileObjs.length ∧
    (∀ f F, fs.file? f = some F → (F.total_versions, f) ∈ full) ∧
    (∀ e ∈ full, ∃ F, fs.file? e.2 = some F ∧ e.1 = F.total_versions) := by
  obtain ⟨m1, m2, m3⟩ := hm
  have third : ∀ e ∈ full, ∃ a F, fs.files.get e.2 = some (some a) ∧
      fs.fileObjs[a]? = some F ∧ e.1 = F.total_versions := by
    intro e he
    obtain ⟨p1, p2⟩ := m2 e he
    obtain ⟨a, F, ha, hF, hle⟩ := hi.bounded e p1
    have hge := p2 _ (hi.current e.2 a F ha hF) rfl
    exact ⟨a, F, ha, hF, by simp only at hge; omega⟩
  have hkey : ∀ (f : String) (a : Nat) (F : File), fs.files.get f = some (some a) →
      fs.fileObjs[a]? = some F → (F.total_versions, f) ∈ full := by
    intro f a F ha hF
    obtain ⟨e, he, hef⟩ := List.mem_map.mp (m3 _ (hi.current f a F ha hF))
    obtain ⟨a2, F2, ha2, hF2, htv⟩ := third e he
    simp only at hef
    rw [hef, ha] at ha2
    cases ha2
    rw [hF] at hF2
    cases hF2
    have : e = (F.total_versions, f) := Prod.ext htv hef
    rw [← this]; exact he
  refine ⟨?_, ?_, ?_⟩
  · have hnd : ((full.map Prod.snd).map fs.addrOf).Nodup := by
      apply List.Nodup.map_on _ m1
      intro x hx y hy hxy
      obtain ⟨e1, he1, hk1⟩ := List.mem_map.mp hx
      obtain ⟨e2, he2, hk2⟩ := List.mem_map.mp hy
      obtain ⟨a1, _, ha1, _⟩ := third e1 he1
      obtain ⟨a2, _, ha2, _⟩ := third e2 he2
      rw [hk1] at ha1
      rw [hk2] at ha2
      simp only [addrOf, ha1, ha2] at hxy
      rw [hxy] at ha1
      exact hi.inj x y a2 ha1 ha2
    have hperm : ((full.map Prod.snd).map fs.addrOf).Perm (List.range fs.fileObjs.length) := by
      apply (List.perm_ext_iff_of_nodup hnd (List.nodup_range _)).mpr
      intro a
      rw [List.mem_range]
      constructor
      · intro ha
        obtain ⟨f, hf, hfa⟩ := List.mem_map.mp ha
        obtain ⟨e, he, hk⟩ := List.mem_map.mp hf
        obtain ⟨a1, F, ha1, hF, _⟩ := third e he
        rw [hk] at ha1
        simp only [addrOf, ha1] at hfa
        rw [← hfa]
        exact lt_of_getElem?_eq_some hF
      · intro ha
        obtain ⟨f, hf⟩ := hi.named a ha
        have hcell : fs.fileObjs[a]? = some fs.fileObjs[a] := List.getElem?_eq_getElem ha
        have hmem := hkey f a _ hf hcell
        refine List.mem_map.mpr ⟨f, List.mem_map.mpr ⟨_, hmem, rfl⟩, ?_⟩
        simp only [addrOf, hf]
    have := hperm.length_eq
    simpa using this
  · intro f F hf
    obtain ⟨a, hl⟩ := file?_eq_some.mp hf
    obtain ⟨h1, h2⟩ := lookup_found hl
    exact hkey f a F h1 h2
  · intro e he
    obtain ⟨a, F, ha, hF, htv⟩ := third e he
    exact ⟨F, file?_eq_some.mpr ⟨a, lookup_of_get ha hF⟩, htv⟩

end

end FileSystem

/-- C18. In every store reachable from the empty store, `showBiggestTrees k` with `k` at
least the number of `File` objects created (one per successful `createFile`) displays a
list with one entry per created file and pairwise distinct names, in which every registered
file appears with its current `total_versions` and every entry is a registered file with
its current `total_versions`. -/
theorem biggest_trees_complete [StdHash String] [StdHash Int] (s : FileSystem)
    (hs : Reachable s) (k : Int) (hk : (s.fileObjs.length : Int) ≤ k) :
    ∃ s1 out, s.showBiggestTrees k = some (s1, .biggest out) ∧
      out.length = s.fileObjs.length ∧ (out.map Prod.fst).Nodup ∧
      (∀ f F, s.file? f = some F → (f, F.total_versions) ∈ out) ∧
      (∀ e ∈ out, ∃ F, s.file? e.1 = some F ∧ e.2 = F.total_versions) := by
  obtain ⟨q1, _, q3⟩ := query_output s.biggestTreesHeap _ (List.Perm.refl _) k
  obtain ⟨p1, p2, p3⟩ := sizeInv_maxPerKey (sizeInv_of_reachable hs) q1
  have htake : (sortDesc (uniqueOf (drain s.biggestTreesHeap.size s.biggestTreesHeap []).1)).take
      k.toNat = sortDesc (uniqueOf (drain s.biggestTreesHeap.size s.biggestTreesHeap []).1) := by
    apply List.take_of_length_le
    rw [p1]; omega
  rw [htake] at q3
  refine ⟨_, _, showBiggestTrees_eq s k, ?_, ?_, ?_, ?_⟩
  · rw [q3, List.length_map, p1]
  · rw [q3, List.map_map]
    exact q1.1
  · intro f F hf
    rw [q3]
    exact List.mem_map.mpr ⟨_, p2 f F hf, rfl⟩
  · intro e he
    rw [q3] at he
    obtain ⟨y, hy, hye⟩ := List.mem_map.mp he
    rw [← hye]
    exact p3 y hy

/-- Witness of C18 on the store after `createFile a; createFile b; insert b x` at the
readings 1, 2, 3: two files were created, and `showBiggestTrees 2` lists b with 2 versions
and a with 1 version. -/
theorem biggest_trees_complete_witness :
    (∃ s1, storeTwo.showBiggestTrees 2 = some (s1, .biggest [("b", 2), ("a", 1)])) ∧
    ∃ s1 out, storeTwo.showBiggestTrees 2 = some (s1, .biggest out) ∧
      out.length = storeTwo.fileObjs.length ∧ (out.map Prod.fst).Nodup ∧
      (∀ f F, storeTwo.file? f = some F → (f, F.total_versions) ∈ out) ∧
      (∀ e ∈ out, ∃ F, storeTwo.file? e.1 = some F ∧ e.2 = F.total_versions) :=
  ⟨⟨_, by rfl⟩,
    biggest_trees_complete storeTwo
      (reachable_run
        [.createFile "a" 1 1 1, .createFile "b" 2 2 2, .insertContent "b" "x" 3 3]
        Reachable.init (by rfl))
      2 (by decide)⟩

end VersionControl
